import Mathlib

/-!
Verification development for a grid-pathfinding engine: four search
algorithms (BFS, recursive DFS, Dijkstra, A*) over a bounded 2-D grid,
each producing a trace of execution snapshots, together with the
binary min-heap priority queue and the coordinate/string codec they use.

The definitions below are a shallow embedding of the TypeScript source:
JS `Set<string>` becomes a duplicate-free `List String` in insertion
order, JS `Map` becomes a function into `Option`, JS numbers are `Int`
(coordinates, priorities) or `Nat` (distances), and the `while` loops /
recursion of the source are modelled with an explicit fuel parameter,
returning `none` exactly when the fuel runs out.
-/

namespace Pathfinding

/-- `Coordinate` from types.ts: an integer pair (row, col). -/
structure Coordinate where
  row : Int
  col : Int
deriving DecidableEq, Repr

/-- `GridDimensions` from types.ts. -/
structure GridDimensions where
  rows : Int
  cols : Int
deriving DecidableEq, Repr

/-- `DIRECTIONS` from types.ts: Up, Down, Left, Right, in this order. -/
def DIRECTIONS : List Coordinate :=
  [⟨-1, 0⟩, ⟨1, 0⟩, ⟨0, -1⟩, ⟨0, 1⟩]

/-! ### Coordinate codec

The source encodes a coordinate as the string `` `${row},${col}` `` and
decodes with `s.split(',').map(Number)`.  We model decimal rendering and
parsing of integers at the character level. -/

/-- Big-endian decimal digit characters of a natural number, computed
with structural fuel (any fuel > n is enough, since `n / 10 < n`).
`natChars 0 = ['0']`, mirroring JS number-to-string conversion. -/
def natCharsAux : Nat → Nat → List Char
  | 0, _ => []
  | fuel + 1, n =>
    if n < 10 then [Nat.digitChar n]
    else natCharsAux fuel (n / 10) ++ [Nat.digitChar (n % 10)]

/-- Decimal digit characters of a natural number. -/
def natChars (n : Nat) : List Char := natCharsAux (n + 1) n

/-- Decimal rendering of an integer as JS string interpolation does. -/
def intChars (i : Int) : List Char :=
  if i < 0 then '-' :: natChars i.natAbs else natChars i.toNat

/-- Parse a list of decimal digit characters as a natural number
(the accumulating fold JS `Number` performs on digit strings). -/
def charsToNat (l : List Char) : Nat :=
  l.foldl (fun a c => 10 * a + (c.toNat - '0'.toNat)) 0

/-- Parse an optionally `-`-signed decimal character list as an integer. -/
def charsToInt (l : List Char) : Int :=
  match l with
  | '-' :: rest => -(charsToNat rest : Int)
  | _ => (charsToNat l : Int)

/-- Split a character list at each `,` (the behaviour of JS
`String.prototype.split(',')`, empty fields preserved). -/
def splitComma (l : List Char) (acc : List Char) : List (List Char) :=
  match l with
  | [] => [acc.reverse]
  | c :: cs => if c = ',' then acc.reverse :: splitComma cs [] else splitComma cs (c :: acc)

/-- `coordToString` from the algorithms module: `` `${c.row},${c.col}` ``. -/
def coordToString (c : Coordinate) : String :=
  String.mk (intChars c.row ++ [','] ++ intChars c.col)

/-- `stringToCoord` from the algorithms module:
`const [row, col] = s.split(',').map(Number)`. -/
def stringToCoord (s : String) : Coordinate :=
  let parts := splitComma s.toList []
  ⟨charsToInt (parts.getD 0 []), charsToInt (parts.getD 1 [])⟩

/-- `isValid` from the algorithms module. -/
def isValid (c : Coordinate) (dims : GridDimensions) : Bool :=
  0 ≤ c.row && c.row < dims.rows && 0 ≤ c.col && c.col < dims.cols

/-! ### JS `Set<string>` and `Map` models -/

/-- JS `Set.prototype.add`: append if not already present (JS sets are
duplicate-free and iterate in insertion order). -/
def setAdd (s : List String) (k : String) : List String :=
  if k ∈ s then s else s ++ [k]

/-- JS `Set.prototype.delete`. -/
def setDelete (s : List String) (k : String) : List String :=
  s.erase k

/-- JS `Map.prototype.set`: overwrite-or-insert, modelled functionally. -/
def mset {α : Type} (m : String → Option α) (k : String) (v : α) : String → Option α :=
  fun x => if x = k then some v else m x

/-! ### PriorityQueue (binary min-heap, from priorityQueue.ts) -/

/-- `PQItem<T>` from priorityQueue.ts. -/
structure PQItem (T : Type) where
  item : T
  priority : Int
deriving Repr

/-- `PriorityQueue<T>` from priorityQueue.ts: a dense array-backed
binary min-heap, here a `List` in index order. -/
structure PriorityQueue (T : Type) where
  heap : List (PQItem T)
deriving Repr

namespace PriorityQueue

variable {T : Type}

/-- The loop of `bubbleUp` (sift-up) from priorityQueue.ts, with
structural fuel (the index strictly decreases, so fuel `n + 1`
reproduces the source loop exactly).  The parent of index `n` is
`(n + 1) / 2 - 1`; swap while strictly smaller than the parent. -/
def bubbleUpAux : Nat → List (PQItem T) → Nat → List (PQItem T)
  | 0, heap, _ => heap
  | fuel + 1, heap, n =>
    match n with
    | 0 => heap
    | m + 1 =>
      let parentIdx := (m + 2) / 2 - 1
      match heap.get? (m + 1), heap.get? parentIdx with
      | some element, some parent =>
        if element.priority ≥ parent.priority then heap
        else bubbleUpAux fuel ((heap.set parentIdx element).set (m + 1) parent) parentIdx
      | _, _ => heap

/-- `bubbleUp` from priorityQueue.ts. -/
def bubbleUp (heap : List (PQItem T)) (n : Nat) : List (PQItem T) :=
  bubbleUpAux (n + 1) heap n

/-- The source's `swap` computation inside `sinkDown`: the index of the
child to swap with, with the left-preference tie-breaking, carrying the
bound proofs needed for termination. -/
def sinkTarget (heap : List (PQItem T)) (n : Nat) (hn : n < heap.length) :
    Option { j : Nat // n < j ∧ j < heap.length } :=
  let element := heap.get ⟨n, hn⟩
  let leftChildIdx := 2 * (n + 1) - 1
  let rightChildIdx := 2 * (n + 1)
  let swap1 : Option { j : Nat // n < j ∧ j < heap.length } :=
    if hl : leftChildIdx < heap.length then
      if (heap.get ⟨leftChildIdx, hl⟩).priority < element.priority then
        some ⟨leftChildIdx, by omega, hl⟩
      else none
    else none
  if hr : rightChildIdx < heap.length then
    let rightChild := heap.get ⟨rightChildIdx, hr⟩
    match swap1 with
    | none =>
      if rightChild.priority < element.priority then some ⟨rightChildIdx, by omega, hr⟩ else none
    | some s =>
      if hl : leftChildIdx < heap.length then
        if rightChild.priority < (heap.get ⟨leftChildIdx, hl⟩).priority then
          some ⟨rightChildIdx, by omega, hr⟩
        else some s
      else some s
  else swap1

/-- The loop of `sinkDown` (sift-down) from priorityQueue.ts, with
structural fuel (the index strictly increases and stays below the
length, so fuel `heap.length + 1` reproduces the source loop exactly):
swap with the chosen child while one is strictly smaller, else stop. -/
def sinkDownAux : Nat → List (PQItem T) → Nat → List (PQItem T)
  | 0, heap, _ => heap
  | fuel + 1, heap, n =>
    if hn : n < heap.length then
      match sinkTarget heap n hn with
      | none => heap
      | some ⟨j, hj⟩ =>
        sinkDownAux fuel ((heap.set n (heap.get ⟨j, hj.2⟩)).set j (heap.get ⟨n, hn⟩)) j
    else heap

/-- `sinkDown` from priorityQueue.ts. -/
def sinkDown (heap : List (PQItem T)) (n : Nat) : List (PQItem T) :=
  sinkDownAux (heap.length + 1) heap n

/-- `enqueue` from priorityQueue.ts. -/
def enqueue (q : PriorityQueue T) (item : T) (priority : Int) : PriorityQueue T :=
  let node : PQItem T := ⟨item, priority⟩
  let heap := q.heap ++ [node]
  ⟨bubbleUp heap (heap.length - 1)⟩

/-- `isEmpty` from priorityQueue.ts. -/
def isEmpty (q : PriorityQueue T) : Bool :=
  q.heap.length = 0

/-- `dequeue` from priorityQueue.ts: returns `none` (JS `undefined`) on
an empty queue; otherwise removes the root, moves the last element to
the root and sifts it down. -/
def dequeue (q : PriorityQueue T) : Option T × PriorityQueue T :=
  if q.isEmpty then (none, q)
  else
    match q.heap with
    | [] => (none, q)
    | min :: rest =>
      match rest.getLast? with
      | none => (some min.item, ⟨[]⟩)
      | some last =>
        (some min.item, ⟨sinkDown ((min :: rest).dropLast.set 0 last) 0⟩)

end PriorityQueue

/-! ### Snapshots and traces (AlgoStep from types.ts) -/

/-- `AlgoStep` from types.ts: one snapshot of algorithm state. -/
structure AlgoStep where
  visited : List String
  frontier : List String
  current : Option Coordinate := none
  path : Option (List Coordinate) := none
  depth : Option Int := none
  costMap : Option (String → Option Nat) := none

instance : Inhabited AlgoStep := ⟨⟨[], [], none, none, none, none⟩⟩

/-- Fuel that suffices for the BFS queue loop, the DFS recursion and
the path reconstruction loop on a given grid. -/
def fuelFor (dims : GridDimensions) : Nat :=
  dims.rows.toNat * dims.cols.toNat + 2

/-- Fuel that suffices for the Dijkstra / A* priority-queue loops
(one unit per pop, bounded through the loop potential). -/
def pqFuel (dims : GridDimensions) : Nat :=
  5 * (dims.rows.toNat * dims.cols.toNat) + 7

/-- `reconstructPath` from the algorithms module: walk the parent map
backward from `end`, prepending each decoded coordinate.  `none` on
fuel exhaustion (the source loop not terminating). -/
def reconstructPath (fuel : Nat) (parentMap : String → Option String) (e : String) :
    Option (List Coordinate) :=
  match fuel with
  | 0 => none
  | fuel + 1 =>
    match parentMap e with
    | none => some [stringToCoord e]
    | some p =>
      match reconstructPath fuel parentMap p with
      | none => none
      | some path => some (path ++ [stringToCoord e])

/-! ### BFS -/

/-- The mutable locals of `runBFS`. -/
structure BfsState where
  steps : List AlgoStep
  queue : List Coordinate
  visited : List String
  parentMap : String → Option String
  frontier : List String

/-- The body of the neighbour loop of `runBFS`. -/
def bfsRelax (dims : GridDimensions) (current : Coordinate) (currStr : String)
    (st : BfsState) (dir : Coordinate) : BfsState :=
  let next : Coordinate := ⟨current.row + dir.row, current.col + dir.col⟩
  let nextStr := coordToString next
  if isValid next dims && !(nextStr ∈ st.visited) then
    { st with
      visited := setAdd st.visited nextStr
      parentMap := mset st.parentMap nextStr currStr
      frontier := setAdd st.frontier nextStr
      queue := st.queue ++ [next] }
  else st

/-- One pass of the neighbour loop of `runBFS` over `DIRECTIONS`. -/
def bfsNeighbors (dims : GridDimensions) (current : Coordinate) (currStr : String)
    (st : BfsState) : BfsState :=
  DIRECTIONS.foldl (bfsRelax dims current currStr) st

/-- The `while (queue.length > 0)` loop of `runBFS`. -/
def bfsLoop (dims : GridDimensions) (goalStr : String) (fuel : Nat) (st : BfsState) :
    Option (List AlgoStep) :=
  match fuel with
  | 0 => none
  | fuel + 1 =>
    match st.queue with
    | [] => some st.steps
    | current :: qrest =>
      let currStr := coordToString current
      let frontier1 := setDelete st.frontier currStr
      let steps1 := st.steps ++ [{ visited := st.visited, frontier := frontier1, current := some current }]
      if currStr = goalStr then
        match reconstructPath (fuelFor dims) st.parentMap goalStr with
        | none => none
        | some path =>
          some (steps1 ++ [{ visited := st.visited, frontier := frontier1, path := some path }])
      else
        let st1 := bfsNeighbors dims current currStr
          { st with steps := steps1, queue := qrest, frontier := frontier1 }
        bfsLoop dims goalStr fuel st1

/-- `runBFS` from the algorithms module. -/
def runBFS (dims : GridDimensions) (start goal : Coordinate) : Option (List AlgoStep) :=
  let startStr := coordToString start
  let goalStr := coordToString goal
  bfsLoop dims goalStr (fuelFor dims)
    { steps := []
      queue := [start]
      visited := setAdd [] startStr
      parentMap := fun _ => none
      frontier := setAdd [] startStr }

/-! ### DFS (recursive) -/

/-- The mutable state captured by the `dfs` closure in
`runDFSRecursive`: the trace so far, the visited set, the parent map,
the recursion stack shown as "frontier", and the `found` flag. -/
structure DfsState where
  steps : List AlgoStep
  visited : List String
  parentMap : String → Option String
  recursionStack : List String
  found : Bool

/-- Fuel that suffices for the DFS recursion (which spends one unit of
fuel per recursive entry and per neighbour-loop step). -/
def dfsFuel (dims : GridDimensions) : Nat :=
  5 * (dims.rows.toNat * dims.cols.toNat) + 6

mutual

/-- The recursive `dfs` closure of `runDFSRecursive`.  Returns `none`
on fuel exhaustion.  Mirrors the source exactly: entry snapshot, goal
check with path snapshot and early return, the neighbour loop with its
`if (found) return` guard, then the backtrack snapshot — which runs
even when the goal was found by the last direction's recursive call,
because the source's loop has no found-check after its final iteration. -/
def dfsRec (dims : GridDimensions) (goalStr : String) (fuel : Nat) (st : DfsState)
    (current : Coordinate) (depth : Int) : Option DfsState :=
  match fuel with
  | 0 => none
  | fuel + 1 =>
    if st.found then some st
    else
      let currStr := coordToString current
      let visited1 := setAdd st.visited currStr
      let stack1 := setAdd st.recursionStack currStr
      let steps1 := st.steps ++
        [{ visited := visited1, frontier := stack1, current := some current, depth := some depth }]
      let st1 : DfsState := { st with steps := steps1, visited := visited1, recursionStack := stack1 }
      if currStr = goalStr then
        match reconstructPath (fuelFor dims) st1.parentMap goalStr with
        | none => none
        | some path =>
          let ps : AlgoStep := { visited := visited1, frontier := stack1, path := some path }
          some { st1 with found := true, steps := st1.steps ++ [ps] }
      else
        match dfsDirs dims goalStr fuel st1 current currStr depth DIRECTIONS with
        | none => none
        | some (st2, early) =>
          if early then some st2
          else
            let stack2 := setDelete st2.recursionStack currStr
            let bt : AlgoStep := { visited := st2.visited, frontier := stack2,
                                   current := some current, depth := some (depth - 1) }
            some { st2 with recursionStack := stack2, steps := st2.steps ++ [bt] }

/-- The `for (const dir of DIRECTIONS)` loop inside `dfs`.  The `Bool`
result records whether the loop returned early via `if (found) return`
(in which case the caller's backtrack code is skipped, as in the
source). -/
def dfsDirs (dims : GridDimensions) (goalStr : String) (fuel : Nat) (st : DfsState)
    (current : Coordinate) (currStr : String) (depth : Int) (dirs : List Coordinate) :
    Option (DfsState × Bool) :=
  match fuel with
  | 0 => none
  | fuel + 1 =>
    match dirs with
    | [] => some (st, false)
    | dir :: rest =>
      if st.found then some (st, true)
      else
        let next : Coordinate := ⟨current.row + dir.row, current.col + dir.col⟩
        let nextStr := coordToString next
        if isValid next dims && !(nextStr ∈ st.visited) then
          let st1 : DfsState := { st with parentMap := mset st.parentMap nextStr currStr }
          match dfsRec dims goalStr fuel st1 next (depth + 1) with
          | none => none
          | some st2 => dfsDirs dims goalStr fuel st2 current currStr depth rest
        else dfsDirs dims goalStr fuel st current currStr depth rest

end

/-- `runDFSRecursive` from the algorithms module. -/
def runDFSRecursive (dims : GridDimensions) (start goal : Coordinate) : Option (List AlgoStep) :=
  let goalStr := coordToString goal
  match dfsRec dims goalStr (dfsFuel dims)
      { steps := [], visited := [], parentMap := fun _ => none, recursionStack := [], found := false }
      start 0 with
  | none => none
  | some st => some st.steps

/-! ### Dijkstra and A*

The two drivers are structurally identical in the source; they differ
only in the priority used when enqueueing a relaxed neighbour
(`newDist` for Dijkstra, `tentativeG + heuristic(next, goal)` for A*).
We model the shared loop once, parametrised by that priority
expression, and instantiate it twice. -/

/-- `heuristic` from `runAStar`: Manhattan distance. -/
def heuristic (a b : Coordinate) : Nat :=
  (a.row - b.row).natAbs + (a.col - b.col).natAbs

/-- The mutable locals shared by `runDijkstra` and `runAStar`
(`distances` is `gScore` in the A* source). -/
structure PqState where
  steps : List AlgoStep
  pq : PriorityQueue String
  distances : String → Option Nat
  parentMap : String → Option String
  visited : List String
  frontier : List String

/-- One pass of the neighbour/relaxation loop of `runDijkstra` /
`runAStar` over `DIRECTIONS`.  `prio next newDist` is the enqueue
priority: `newDist` for Dijkstra, `newDist + heuristic next goal`
for A*. -/
def pqRelax (dims : GridDimensions) (prio : Coordinate → Nat → Int)
    (current : Coordinate) (currStr : String) (st : PqState) (dir : Coordinate) : PqState :=
  let next : Coordinate := ⟨current.row + dir.row, current.col + dir.col⟩
  let nextStr := coordToString next
  if isValid next dims then
    let newDist := ((st.distances currStr).getD 0) + 1
    let improves : Bool :=
      match st.distances nextStr with
      | none => true
      | some dv => newDist < dv
    if improves then
      { st with
        distances := mset st.distances nextStr newDist
        parentMap := mset st.parentMap nextStr currStr
        pq := st.pq.enqueue nextStr (prio next newDist)
        frontier := setAdd st.frontier nextStr }
    else st
  else st

def pqNeighbors (dims : GridDimensions) (prio : Coordinate → Nat → Int)
    (current : Coordinate) (currStr : String) (st : PqState) : PqState :=
  DIRECTIONS.foldl (pqRelax dims prio current currStr) st

/-- The `while (!pq.isEmpty())` loop shared by `runDijkstra` and
`runAStar`. -/
def pqLoop (dims : GridDimensions) (goalStr : String) (prio : Coordinate → Nat → Int)
    (fuel : Nat) (st : PqState) : Option (List AlgoStep) :=
  match fuel with
  | 0 => none
  | fuel + 1 =>
    match st.pq.heap with
    | [] => some st.steps
    | top :: _ =>
      let currStr := top.item
      let pq1 := (st.pq.dequeue).2
      let current := stringToCoord currStr
      let frontier1 := setDelete st.frontier currStr
      let visited1 := setAdd st.visited currStr
      let snap : AlgoStep := { visited := visited1, frontier := frontier1,
                               current := some current, costMap := some st.distances }
      let steps1 := st.steps ++ [snap]
      if currStr = goalStr then
        match reconstructPath (fuelFor dims) st.parentMap goalStr with
        | none => none
        | some path =>
          let psnap : AlgoStep := { visited := visited1, frontier := frontier1,
                                    path := some path, costMap := some st.distances }
          some (steps1 ++ [psnap])
      else
        let st1 := pqNeighbors dims prio current currStr
          { st with steps := steps1, pq := pq1, visited := visited1, frontier := frontier1 }
        pqLoop dims goalStr prio fuel st1

/-- Initial state common to `runDijkstra` and `runAStar`. -/
def pqInit (startStr : String) : PqState :=
  { steps := []
    pq := PriorityQueue.enqueue ⟨[]⟩ startStr 0
    distances := mset (fun _ => none) startStr 0
    parentMap := fun _ => none
    visited := []
    frontier := setAdd [] startStr }

/-- `runDijkstra` from the algorithms module: priorities are the
tentative distances themselves. -/
def runDijkstra (dims : GridDimensions) (start goal : Coordinate) : Option (List AlgoStep) :=
  let startStr := coordToString start
  let goalStr := coordToString goal
  pqLoop dims goalStr (fun _ newDist => (newDist : Int)) (pqFuel dims) (pqInit startStr)

/-- `runAStar` from the algorithms module: priorities are
`f = g + heuristic`, the Manhattan distance to the goal. -/
def runAStar (dims : GridDimensions) (start goal : Coordinate) : Option (List AlgoStep) :=
  let startStr := coordToString start
  let goalStr := coordToString goal
  pqLoop dims goalStr (fun next tentativeG => (tentativeG + heuristic next goal : Int))
    (pqFuel dims) (pqInit startStr)

/-! ## Codec correctness -/

theorem natCharsAux_digit (fuel : Nat) :
    ∀ n, ∀ c ∈ natCharsAux fuel n, ∃ d, d < 10 ∧ c = Nat.digitChar d := by
  induction fuel with
  | zero => intro n c hc; exact absurd hc (by simp [natCharsAux])
  | succ fuel ih =>
    intro n c hc
    rw [natCharsAux] at hc
    split at hc
    · simp only [List.mem_singleton] at hc
      exact ⟨n, by omega, hc⟩
    · rcases List.mem_append.mp hc with h | h
      · exact ih (n / 10) c h
      · simp only [List.mem_singleton] at h
        exact ⟨n % 10, Nat.mod_lt _ (by omega), h⟩

theorem natChars_digit (n : Nat) : ∀ c ∈ natChars n, ∃ d, d < 10 ∧ c = Nat.digitChar d :=
  natCharsAux_digit (n + 1) n

theorem digitChar_ne_comma : ∀ d < 10, Nat.digitChar d ≠ ',' := by decide

theorem digitChar_ne_minus : ∀ d < 10, Nat.digitChar d ≠ '-' := by decide

theorem natChars_ne_comma (n : Nat) : ',' ∉ natChars n := by
  intro h
  obtain ⟨d, hd, hc⟩ := natChars_digit n ',' h
  exact digitChar_ne_comma d hd hc.symm

theorem intChars_ne_comma (i : Int) : ',' ∉ intChars i := by
  unfold intChars
  split
  · intro h
    rcases List.mem_cons.mp h with h | h
    · exact absurd h (by decide)
    · exact natChars_ne_comma _ h
  · exact natChars_ne_comma _

theorem natChars_ne_nil (n : Nat) : natChars n ≠ [] := by
  unfold natChars
  rw [natCharsAux]
  split <;> simp

theorem charsToNat_append_digit (l : List Char) (c : Char) :
    charsToNat (l ++ [c]) = 10 * charsToNat l + (c.toNat - '0'.toNat) := by
  unfold charsToNat
  rw [List.foldl_append]
  rfl

theorem digitChar_val (d : Nat) (hd : d < 10) :
    (Nat.digitChar d).toNat - '0'.toNat = d := by
  interval_cases d <;> rfl

theorem charsToNat_natCharsAux (fuel : Nat) :
    ∀ n, n < fuel → charsToNat (natCharsAux fuel n) = n := by
  induction fuel with
  | zero => intro n hn; omega
  | succ fuel ih =>
    intro n hn
    rw [natCharsAux]
    split
    · rename_i h
      have : charsToNat [Nat.digitChar n] = (Nat.digitChar n).toNat - '0'.toNat := by
        unfold charsToNat; simp
      rw [this, digitChar_val n h]
    · rename_i h
      rw [charsToNat_append_digit, ih (n / 10) (by omega),
        digitChar_val _ (Nat.mod_lt _ (by omega))]
      omega

theorem charsToNat_natChars (n : Nat) : charsToNat (natChars n) = n :=
  charsToNat_natCharsAux (n + 1) n (by omega)

theorem charsToInt_natChars (n : Nat) : charsToInt (natChars n) = (n : Int) := by
  have hne := natChars_ne_nil n
  unfold charsToInt
  split
  · rename_i rest heq
    obtain ⟨d, hd, hc⟩ := natChars_digit n '-' (by rw [heq]; exact List.mem_cons_self _ _)
    exact absurd hc.symm (digitChar_ne_minus d hd)
  · rw [charsToNat_natChars]

theorem charsToInt_minus (l : List Char) : charsToInt ('-' :: l) = -(charsToNat l : Int) := rfl

theorem charsToInt_intChars (i : Int) : charsToInt (intChars i) = i := by
  unfold intChars
  split
  · rw [charsToInt_minus, charsToNat_natChars]
    omega
  · rw [charsToInt_natChars]
    omega

theorem splitComma_nil (acc : List Char) : splitComma [] acc = [acc.reverse] := rfl

theorem splitComma_cons (c : Char) (cs acc : List Char) :
    splitComma (c :: cs) acc =
      if c = ',' then acc.reverse :: splitComma cs [] else splitComma cs (c :: acc) := rfl

theorem splitComma_no_comma (A : List Char) (hA : ',' ∉ A) (acc : List Char) :
    splitComma A acc = [acc.reverse ++ A] := by
  induction A generalizing acc with
  | nil => simp [splitComma_nil]
  | cons c cs ih =>
    rw [splitComma_cons, if_neg (by rintro rfl; exact hA (List.mem_cons_self _ _))]
    rw [ih (fun h => hA (List.mem_cons_of_mem _ h))]
    simp

theorem splitComma_append (A B : List Char) (hA : ',' ∉ A) (acc : List Char) :
    splitComma (A ++ ',' :: B) acc = (acc.reverse ++ A) :: splitComma B [] := by
  induction A generalizing acc with
  | nil => simp [splitComma_cons, splitComma_nil]
  | cons c cs ih =>
    rw [List.cons_append, splitComma_cons,
      if_neg (by rintro rfl; exact hA (List.mem_cons_self _ _))]
    rw [ih (fun h => hA (List.mem_cons_of_mem _ h))]
    simp

theorem toList_coordToString (c : Coordinate) :
    (coordToString c).toList = intChars c.row ++ [','] ++ intChars c.col := rfl

/-- Round trip of the coordinate codec, over all integer coordinates. -/
theorem stringToCoord_coordToString (c : Coordinate) :
    stringToCoord (coordToString c) = c := by
  unfold stringToCoord
  rw [toList_coordToString, List.append_assoc, List.singleton_append,
    splitComma_append _ _ (intChars_ne_comma c.row),
    splitComma_no_comma _ (intChars_ne_comma c.col)]
  simp [charsToInt_intChars]

theorem coordToString_injective {a b : Coordinate} :
    coordToString a = coordToString b → a = b := by
  intro h
  have := congrArg stringToCoord h
  rwa [stringToCoord_coordToString, stringToCoord_coordToString] at this

/-! ## Priority queue correctness -/

namespace PriorityQueue

variable {T : Type}

/-- Total accessor for the priority stored at index `i` (0 out of range). -/
def prioAt (h : List (PQItem T)) (i : Nat) : Int :=
  match h.get? i with
  | some x => x.priority
  | none => 0

/-- The binary min-heap invariant: every parent is ≤ its children. -/
def IsHeap (h : List (PQItem T)) : Prop :=
  ∀ i j, j < h.length → (j = 2 * i + 1 ∨ j = 2 * i + 2) → prioAt h i ≤ prioAt h j

theorem prioAt_of_get? {h : List (PQItem T)} {i : Nat} {x : PQItem T}
    (hx : h.get? i = some x) : prioAt h i = x.priority := by
  unfold prioAt
  rw [hx]

theorem prioAt_get {h : List (PQItem T)} {i : Nat} (hi : i < h.length) :
    prioAt h i = (h.get ⟨i, hi⟩).priority :=
  prioAt_of_get? (List.get?_eq_get hi)

theorem prioAt_set_self {h : List (PQItem T)} {k : Nat} (hk : k < h.length) (x : PQItem T) :
    prioAt (h.set k x) k = x.priority := by
  unfold prioAt
  rw [List.get?_set_eq_of_lt _ hk]

theorem prioAt_set_ne {h : List (PQItem T)} {k i : Nat} (hki : k ≠ i) (x : PQItem T) :
    prioAt (h.set k x) i = prioAt h i := by
  unfold prioAt
  rw [List.get?_set_ne _ _ hki]

theorem prioAt_append_lt {h l : List (PQItem T)} {i : Nat} (hi : i < h.length) :
    prioAt (h ++ l) i = prioAt h i := by
  unfold prioAt
  rw [List.get?_append hi]

/-- The parent index of any child position, recovered from the child
relation. -/
theorem parent_of_child {i j : Nat} (hij : j = 2 * i + 1 ∨ j = 2 * i + 2) :
    i = (j + 1) / 2 - 1 := by omega

/-! ### bubbleUp -/

/-- Precondition for `bubbleUp h n` to restore the heap invariant:
every parent/child pair except the one above `n` is ordered, and the
element above `n`'s parent (if any) is ≤ both of `n`'s children. -/
def BUInv (h : List (PQItem T)) (n : Nat) : Prop :=
  (∀ i j, j < h.length → (j = 2 * i + 1 ∨ j = 2 * i + 2) → j ≠ n → prioAt h i ≤ prioAt h j) ∧
  (∀ j, j < h.length → (j = 2 * n + 1 ∨ j = 2 * n + 2) → 0 < n →
    prioAt h ((n + 1) / 2 - 1) ≤ prioAt h j)

theorem bubbleUpAux_length (fuel : Nat) :
    ∀ (h : List (PQItem T)) (n : Nat), (bubbleUpAux fuel h n).length = h.length := by
  induction fuel with
  | zero => intro h n; rfl
  | succ fuel ih =>
    intro h n
    match n with
    | 0 => rfl
    | m + 1 =>
      rw [bubbleUpAux]
      cases hel : h.get? (m + 1) with
      | none => rfl
      | some element =>
        cases hpar : h.get? ((m + 2) / 2 - 1) with
        | none => rfl
        | some parent =>
          dsimp only
          split
          · rfl
          · rw [ih]
            simp

theorem bubbleUp_length (h : List (PQItem T)) (n : Nat) :
    (bubbleUp h n).length = h.length :=
  bubbleUpAux_length (n + 1) h n

theorem bubbleUpAux_mem (fuel : Nat) :
    ∀ (h : List (PQItem T)) (n : Nat) (a : PQItem T), (a ∈ bubbleUpAux fuel h n ↔ a ∈ h) := by
  induction fuel with
  | zero => intro h n a; rfl
  | succ fuel ih =>
    intro h n a
    match n with
    | 0 => rfl
    | m + 1 =>
      rw [bubbleUpAux]
      cases hel : h.get? (m + 1) with
      | none => rfl
      | some element =>
        cases hpar : h.get? ((m + 2) / 2 - 1) with
        | none => rfl
        | some parent =>
          dsimp only
          split
          · rfl
          · rw [ih]
            have hm : m + 1 < h.length := (List.get?_eq_some.mp hel).1
            have hp : (m + 2) / 2 - 1 < h.length := (List.get?_eq_some.mp hpar).1
            have hpm : (m + 2) / 2 - 1 ≠ m + 1 := by omega
            constructor
            · intro hmem
              rcases List.mem_or_eq_of_mem_set hmem with hmem | rfl
              · rcases List.mem_or_eq_of_mem_set hmem with hmem | rfl
                · exact hmem
                · exact List.get?_mem hel
              · exact List.get?_mem hpar
            · intro hmem
              obtain ⟨idx, hidx⟩ := List.mem_iff_get?.mp hmem
              by_cases h1 : idx = (m + 2) / 2 - 1
              · subst h1
                apply List.get?_mem (n := m + 1)
                rw [List.get?_set_eq_of_lt _ (by simpa using hm)]
                rw [hidx] at hpar
                cases hpar
                rfl
              · by_cases h2 : idx = m + 1
                · subst h2
                  apply List.get?_mem (n := (m + 2) / 2 - 1)
                  rw [List.get?_set_ne _ _ (by omega), List.get?_set_eq_of_lt _ hp]
                  rw [hidx] at hel
                  cases hel
                  rfl
                · apply List.get?_mem (n := idx)
                  rw [List.get?_set_ne _ _ (Ne.symm h2), List.get?_set_ne _ _ (Ne.symm h1)]
                  exact hidx

theorem bubbleUp_mem (h : List (PQItem T)) (n : Nat) (a : PQItem T) :
    a ∈ bubbleUp h n ↔ a ∈ h :=
  bubbleUpAux_mem (n + 1) h n a

theorem prioAt_swap_fst {h : List (PQItem T)} {a b : Nat} (ha : a < h.length)
    (hb : b < h.length) (hab : a ≠ b) :
    prioAt ((h.set a (h.get ⟨b, hb⟩)).set b (h.get ⟨a, ha⟩)) a = prioAt h b := by
  rw [prioAt_set_ne (Ne.symm hab), prioAt_set_self ha, prioAt_get hb]

theorem prioAt_swap_snd {h : List (PQItem T)} {a b : Nat} (ha : a < h.length)
    (hb : b < h.length) :
    prioAt ((h.set a (h.get ⟨b, hb⟩)).set b (h.get ⟨a, ha⟩)) b = prioAt h a := by
  rw [prioAt_set_self (by simpa using hb), prioAt_get ha]

theorem prioAt_swap_other {h : List (PQItem T)} {a b : Nat} (ha : a < h.length)
    (hb : b < h.length) {i : Nat} (hia : i ≠ a) (hib : i ≠ b) :
    prioAt ((h.set a (h.get ⟨b, hb⟩)).set b (h.get ⟨a, ha⟩)) i = prioAt h i := by
  rw [prioAt_set_ne (Ne.symm hib), prioAt_set_ne (Ne.symm hia)]

theorem bubbleUpAux_heap (fuel : Nat) :
    ∀ (h : List (PQItem T)) (n : Nat), n < fuel → n < h.length →
      BUInv h n → IsHeap (bubbleUpAux fuel h n) := by
  induction fuel with
  | zero => intro h n hf; omega
  | succ fuel ih =>
    intro h n hf hn inv
    match n with
    | 0 =>
      rw [bubbleUpAux]
      intro i j hj hij
      exact inv.1 i j hj hij (by omega)
    | m + 1 =>
      rw [bubbleUpAux]
      have hplt : (m + 2) / 2 - 1 < h.length := by omega
      rw [List.get?_eq_get hn, List.get?_eq_get hplt]
      dsimp only
      split
      · rename_i hge
        intro i j hj hij
        by_cases hjn : j = m + 1
        · subst hjn
          have hip : i = (m + 2) / 2 - 1 := by omega
          subst hip
          rw [prioAt_get hplt, prioAt_get hn]
          exact hge
        · exact inv.1 i j hj hij hjn
      · rename_i hnge
        have hlt : (h.get ⟨m + 1, hn⟩).priority < (h.get ⟨(m + 2) / 2 - 1, hplt⟩).priority :=
          lt_of_not_ge hnge
        have hab : (m + 2) / 2 - 1 ≠ m + 1 := by omega
        have hA := prioAt_swap_fst (h := h) hplt hn hab
        have hB := prioAt_swap_snd (h := h) hplt hn
        have hO := fun {i} h1 h2 => prioAt_swap_other (h := h) hplt hn (i := i) h1 h2
        have helpr : prioAt h (m + 1) = (h.get ⟨m + 1, hn⟩).priority := prioAt_get hn
        have hparpr : prioAt h ((m + 2) / 2 - 1) = (h.get ⟨(m + 2) / 2 - 1, hplt⟩).priority :=
          prioAt_get hplt
        have hlen' : ((h.set ((m + 2) / 2 - 1) (h.get ⟨m + 1, hn⟩)).set (m + 1)
            (h.get ⟨(m + 2) / 2 - 1, hplt⟩)).length = h.length := by simp
        apply ih _ ((m + 2) / 2 - 1) (by omega) (by omega)
        constructor
        · intro i j hj hij hjp
          rw [hlen'] at hj
          by_cases hjn : j = m + 1
          · subst hjn
            have hip : i = (m + 2) / 2 - 1 := by omega
            subst hip
            rw [hA, hB]
            omega
          · rw [hO hjp hjn]
            by_cases hip : i = (m + 2) / 2 - 1
            · subst hip
              rw [hA]
              have h1 := inv.1 _ j hj hij hjn
              omega
            · by_cases hin : i = m + 1
              · subst hin
                rw [hB]
                exact inv.2 j hj (by omega) (by omega)
              · rw [hO hip hin]
                exact inv.1 i j hj hij hjn
        · intro j hj hjc hppos
          rw [hlen'] at hj
          have hgp : ((m + 2) / 2 - 1 + 1) / 2 - 1 ≠ (m + 2) / 2 - 1 := by omega
          have hgn : ((m + 2) / 2 - 1 + 1) / 2 - 1 ≠ m + 1 := by omega
          rw [hO hgp hgn]
          have hgpair : (m + 2) / 2 - 1 = 2 * (((m + 2) / 2 - 1 + 1) / 2 - 1) + 1 ∨
              (m + 2) / 2 - 1 = 2 * (((m + 2) / 2 - 1 + 1) / 2 - 1) + 2 := by omega
          have hgle := inv.1 _ _ hplt hgpair (by omega)
          by_cases hjn : j = m + 1
          · subst hjn
            rw [hB]
            exact hgle
          · have hjp : j ≠ (m + 2) / 2 - 1 := by omega
            rw [hO hjp hjn]
            have := inv.1 _ j hj hjc hjn
            omega

theorem bubbleUp_heap (h : List (PQItem T)) (n : Nat) (hn : n < h.length)
    (inv : BUInv h n) : IsHeap (bubbleUp h n) :=
  bubbleUpAux_heap (n + 1) h n (by omega) hn inv

/-! ### sinkDown -/

/-- When the source's swap-candidate selection returns `null`, no
child is strictly smaller than the element. -/
theorem sinkTarget_none_spec {h : List (PQItem T)} {n : Nat} (hn : n < h.length)
    (ht : sinkTarget h n hn = none) :
    ∀ c, (c = 2 * n + 1 ∨ c = 2 * n + 2) → c < h.length → prioAt h n ≤ prioAt h c := by
  intro c hcc hc
  unfold sinkTarget at ht
  dsimp only at ht
  split at ht
  · rename_i hr
    split at ht
    · rename_i heq
      split at ht
      · exact Option.noConfusion ht
      · rename_i hrn
        rcases hcc with rfl | rfl
        · have hl : 2 * (n + 1) - 1 < h.length := by omega
          rw [dif_pos hl] at heq
          split at heq
          · exact Option.noConfusion heq
          · rename_i hln
            rw [prioAt_get hn, show (2 * n + 1 : Nat) = 2 * (n + 1) - 1 by omega, prioAt_get hl]
            omega
        · rw [prioAt_get hn, show (2 * n + 2 : Nat) = 2 * (n + 1) by omega, prioAt_get hr]
          omega
    · rename_i s heq
      split at ht
      · split at ht <;> exact Option.noConfusion ht
      · exact Option.noConfusion ht
  · rename_i hr
    rcases hcc with rfl | rfl
    · have hl : 2 * (n + 1) - 1 < h.length := by omega
      rw [dif_pos hl] at ht
      split at ht
      · exact Option.noConfusion ht
      · rename_i hln
        rw [prioAt_get hn, show (2 * n + 1 : Nat) = 2 * (n + 1) - 1 by omega, prioAt_get hl]
        omega
    · omega

/-- When the source's swap-candidate selection returns an index, that
index is a child strictly smaller than the element and ≤ the other
child. -/
theorem sinkTarget_some_spec {h : List (PQItem T)} {n : Nat} (hn : n < h.length)
    {s : { j : Nat // n < j ∧ j < h.length }} (ht : sinkTarget h n hn = some s) :
    (s.1 = 2 * n + 1 ∨ s.1 = 2 * n + 2) ∧ prioAt h s.1 < prioAt h n ∧
    ∀ c, (c = 2 * n + 1 ∨ c = 2 * n + 2) → c < h.length → prioAt h s.1 ≤ prioAt h c := by
  have hpn : prioAt h n = (h.get ⟨n, hn⟩).priority := prioAt_get hn
  have e1 : (2 * (n + 1) - 1 : Nat) = 2 * n + 1 := by omega
  have e2 : (2 * (n + 1) : Nat) = 2 * n + 2 := by omega
  unfold sinkTarget at ht
  dsimp only at ht
  split at ht
  · rename_i hr
    have hpr : prioAt h (2 * n + 2) = (h.get ⟨2 * (n + 1), hr⟩).priority := by
      rw [← e2, prioAt_get hr]
    split at ht
    · rename_i heq
      split at ht
      · rename_i hrlt
        have hval : s.1 = 2 * n + 2 := by rw [← Option.some.inj ht, ← e2]
        refine ⟨Or.inr hval, by rw [hval, hpr, hpn]; exact hrlt, ?_⟩
        intro c hcc hc
        rcases hcc with rfl | rfl
        · have hl : 2 * (n + 1) - 1 < h.length := by omega
          rw [dif_pos hl] at heq
          have hpl : prioAt h (2 * n + 1) = (h.get ⟨2 * (n + 1) - 1, hl⟩).priority := by
            rw [← e1, prioAt_get hl]
          split at heq
          · exact Option.noConfusion heq
          · rename_i hln
            rw [hval, hpr, hpl]
            rw [hpn] at *
            omega
        · rw [hval]
      · exact Option.noConfusion ht
    · rename_i s1 heq
      have hl : 2 * (n + 1) - 1 < h.length := by
        by_contra hcon
        rw [dif_neg hcon] at heq
        exact Option.noConfusion heq
      rw [dif_pos hl] at heq
      have hpl : prioAt h (2 * n + 1) = (h.get ⟨2 * (n + 1) - 1, hl⟩).priority := by
        rw [← e1, prioAt_get hl]
      have hllt : (h.get ⟨2 * (n + 1) - 1, hl⟩).priority < (h.get ⟨n, hn⟩).priority := by
        by_contra hcon
        rw [if_neg hcon] at heq
        exact Option.noConfusion heq
      rw [if_pos hllt] at heq
      have hs1 : s1.1 = 2 * n + 1 := by rw [← Option.some.inj heq, ← e1]
      split at ht
      · rename_i hl2
        split at ht
        · rename_i hrl
          have hval : s.1 = 2 * n + 2 := by rw [← Option.some.inj ht, ← e2]
          refine ⟨Or.inr hval, ?_, ?_⟩
          · rw [hval, hpr, hpn]
            calc (h.get ⟨2 * (n + 1), hr⟩).priority
                < (h.get ⟨2 * (n + 1) - 1, hl2⟩).priority := hrl
              _ < _ := hllt
          · intro c hcc hc
            rcases hcc with rfl | rfl
            · have hpl2 : prioAt h (2 * n + 1) = (h.get ⟨2 * (n + 1) - 1, hl2⟩).priority := by
                rw [← e1, prioAt_get hl2]
              rw [hval, hpr, hpl2]
              omega
            · rw [hval]
        · rename_i hrl
          have hval : s.1 = 2 * n + 1 := by rw [← Option.some.inj ht, hs1]
          refine ⟨Or.inl hval, by rw [hval, hpl, hpn]; exact hllt, ?_⟩
          intro c hcc hc
          rcases hcc with rfl | rfl
          · rw [hval]
          · have hpl2 : prioAt h (2 * n + 1) = (h.get ⟨2 * (n + 1) - 1, hl2⟩).priority := by
              rw [← e1, prioAt_get hl2]
            rw [hval, hpl2, hpr]
            omega
      · rename_i hl2
        exact absurd hl hl2
  · rename_i hr
    have hl : 2 * (n + 1) - 1 < h.length := by
      by_contra hcon
      rw [dif_neg hcon] at ht
      exact Option.noConfusion ht
    rw [dif_pos hl] at ht
    have hpl : prioAt h (2 * n + 1) = (h.get ⟨2 * (n + 1) - 1, hl⟩).priority := by
      rw [← e1, prioAt_get hl]
    split at ht
    · rename_i hllt
      have hval : s.1 = 2 * n + 1 := by rw [← Option.some.inj ht, ← e1]
      refine ⟨Or.inl hval, by rw [hval, hpl, hpn]; exact hllt, ?_⟩
      intro c hcc hc
      rcases hcc with rfl | rfl
      · rw [hval]
      · omega
    · exact Option.noConfusion ht

theorem sinkDownAux_length (fuel : Nat) :
    ∀ (h : List (PQItem T)) (n : Nat), (sinkDownAux fuel h n).length = h.length := by
  induction fuel with
  | zero => intro h n; rfl
  | succ fuel ih =>
    intro h n
    rw [sinkDownAux]
    split
    · rename_i hn
      split
      · rfl
      · rename_i j hj heq
        rw [ih]
        simp
    · rfl

theorem sinkDown_length (h : List (PQItem T)) (n : Nat) :
    (sinkDown h n).length = h.length :=
  sinkDownAux_length (h.length + 1) h n

/-- Membership is invariant under the in-place swap of two positions. -/
theorem mem_swap {h : List (PQItem T)} {a b : Nat} (ha : a < h.length) (hb : b < h.length)
    (hab : a ≠ b) (x : PQItem T) :
    x ∈ (h.set a (h.get ⟨b, hb⟩)).set b (h.get ⟨a, ha⟩) ↔ x ∈ h := by
  constructor
  · intro hmem
    rcases List.mem_or_eq_of_mem_set hmem with hmem | rfl
    · rcases List.mem_or_eq_of_mem_set hmem with hmem | rfl
      · exact hmem
      · exact List.get_mem _ _ _
    · exact List.get_mem _ _ _
  · intro hmem
    obtain ⟨idx, hidx⟩ := List.mem_iff_get?.mp hmem
    by_cases h1 : idx = a
    · subst h1
      apply List.get?_mem (n := b)
      rw [List.get?_set_eq_of_lt _ (by simpa using hb)]
      rw [List.get?_eq_get ha] at hidx
      cases hidx
      rfl
    · by_cases h2 : idx = b
      · subst h2
        apply List.get?_mem (n := a)
        rw [List.get?_set_ne _ _ (Ne.symm hab), List.get?_set_eq_of_lt _ ha]
        rw [List.get?_eq_get hb] at hidx
        cases hidx
        rfl
      · apply List.get?_mem (n := idx)
        rw [List.get?_set_ne _ _ (Ne.symm h2), List.get?_set_ne _ _ (Ne.symm h1)]
        exact hidx

theorem sinkDownAux_mem (fuel : Nat) :
    ∀ (h : List (PQItem T)) (n : Nat) (x : PQItem T), (x ∈ sinkDownAux fuel h n ↔ x ∈ h) := by
  induction fuel with
  | zero => intro h n x; rfl
  | succ fuel ih =>
    intro h n x
    rw [sinkDownAux]
    split
    · rename_i hn
      split
      · rfl
      · rename_i j hj heq
        rw [ih]
        exact mem_swap hn hj.2 (by omega) x
    · rfl

theorem sinkDown_mem (h : List (PQItem T)) (n : Nat) (x : PQItem T) :
    x ∈ sinkDown h n ↔ x ∈ h :=
  sinkDownAux_mem (h.length + 1) h n x

/-- Precondition for `sinkDown h n` to restore the heap invariant. -/
def SDInv (h : List (PQItem T)) (n : Nat) : Prop :=
  (∀ i j, j < h.length → (j = 2 * i + 1 ∨ j = 2 * i + 2) → i ≠ n → prioAt h i ≤ prioAt h j) ∧
  (0 < n → ∀ j, j < h.length → (j = 2 * n + 1 ∨ j = 2 * n + 2) →
    prioAt h ((n + 1) / 2 - 1) ≤ prioAt h j)

theorem sinkDownAux_heap : ∀ (fuel : Nat) (h : List (PQItem T)) (n : Nat),
    h.length - n ≤ fuel → SDInv h n → IsHeap (sinkDownAux fuel h n) := by
  intro fuel
  induction fuel with
  | zero =>
    intro h n hk inv
    show IsHeap h
    intro i j hj hij
    exact inv.1 i j hj hij (by omega)
  | succ k ih =>
    intro h n hk inv
    rw [sinkDownAux]
    split
    · rename_i hn
      split
      · rename_i heq
        have hspec := sinkTarget_none_spec hn heq
        intro i j hj hij
        by_cases hin : i = n
        · subst hin
          exact hspec j hij hj
        · exact inv.1 i j hj hij hin
      · rename_i j hj heq
        have hspec := sinkTarget_some_spec hn heq
        obtain ⟨hchild, hlt, hmin⟩ := hspec
        dsimp only at hchild hlt hmin
        have hjlen : j < h.length := hj.2
        have hA := prioAt_swap_fst (h := h) hn hjlen (by omega)
        have hB := prioAt_swap_snd (h := h) hn hjlen
        have hO := fun {i} h1 h2 => prioAt_swap_other (h := h) hn hjlen (i := i) h1 h2
        have hlen' : ((h.set n (h.get ⟨j, hjlen⟩)).set j (h.get ⟨n, hn⟩)).length = h.length := by
          simp
        apply ih _ j (by omega)
        constructor
        · intro a b hball hab haj
          rw [hlen'] at hball
          by_cases hbn : b = n
          · have han : a = (n + 1) / 2 - 1 := by omega
            rw [hbn, han, hA, hO (show (n + 1) / 2 - 1 ≠ n by omega)
              (show (n + 1) / 2 - 1 ≠ j by omega)]
            exact inv.2 (by omega) j hjlen hchild
          · by_cases hbj : b = j
            · have han : a = n := by omega
              rw [hbj, han, hA, hB]
              exact le_of_lt hlt
            · rw [hO hbn hbj]
              by_cases han : a = n
              · rw [han, hA]
                rw [han] at hab
                exact hmin b hab hball
              · rw [hO han haj]
                exact inv.1 a b hball hab han
        · intro hj0 b hball hbj
          rw [hlen'] at hball
          have hpar : (j + 1) / 2 - 1 = n := by omega
          have hbn : b ≠ n := by omega
          have hbjj : b ≠ j := by omega
          rw [hpar, hA, hO hbn hbjj]
          exact inv.1 j b hball hbj (by omega)
    · rename_i hn
      intro i j hj hij
      exact inv.1 i j hj hij (by omega)

theorem sinkDown_heap (h : List (PQItem T)) (n : Nat) (inv : SDInv h n) :
    IsHeap (sinkDown h n) :=
  sinkDownAux_heap (h.length + 1) h n (by omega) inv

/-! ### enqueue / dequeue / root minimality -/

theorem prioAt_dropLast {h : List (PQItem T)} {i : Nat} (hi : i + 1 < h.length) :
    prioAt h.dropLast i = prioAt h i := by
  unfold prioAt
  rw [List.get?_eq_getElem?, List.get?_eq_getElem?, List.getElem?_dropLast, if_pos (by omega)]

theorem enqueue_heap (q : PriorityQueue T) (it : T) (pr : Int) (hq : IsHeap q.heap) :
    IsHeap (q.enqueue it pr).heap := by
  unfold enqueue
  dsimp only
  have hlen : (q.heap ++ [(⟨it, pr⟩ : PQItem T)]).length = q.heap.length + 1 := by simp
  have hidx : (q.heap ++ [(⟨it, pr⟩ : PQItem T)]).length - 1 = q.heap.length := by simp
  rw [hidx]
  apply bubbleUp_heap _ _ (by omega)
  constructor
  · intro i j hj hij hjn
    rw [hlen] at hj
    have hjlt : j < q.heap.length := by omega
    have hilt : i < q.heap.length := by omega
    rw [prioAt_append_lt hjlt, prioAt_append_lt hilt]
    exact hq i j hjlt hij
  · intro j hj hij h0
    rw [hlen] at hj
    omega

theorem enqueue_length (q : PriorityQueue T) (it : T) (pr : Int) :
    (q.enqueue it pr).heap.length = q.heap.length + 1 := by
  unfold enqueue
  dsimp only
  rw [bubbleUp_length]
  simp

theorem enqueue_mem (q : PriorityQueue T) (it : T) (pr : Int) (x : PQItem T) :
    x ∈ (q.enqueue it pr).heap ↔ x ∈ q.heap ∨ x = ⟨it, pr⟩ := by
  unfold enqueue
  dsimp only
  rw [bubbleUp_mem]
  simp

theorem dequeue_empty (q : PriorityQueue T) (h : q.heap = []) : q.dequeue = (none, q) := by
  unfold dequeue
  rw [if_pos]
  unfold isEmpty
  rw [h]
  rfl

theorem dequeue_fst {q : PriorityQueue T} {top : PQItem T} {rest : List (PQItem T)}
    (h : q.heap = top :: rest) : (q.dequeue).1 = some top.item := by
  unfold dequeue
  rw [if_neg (by unfold isEmpty; rw [h]; simp)]
  split
  · rename_i heq
    rw [h] at heq
    exact List.noConfusion heq
  · rename_i min rest2 heq
    rw [h] at heq
    cases heq
    split <;> rfl

theorem dequeue_snd_heap {q : PriorityQueue T} {top : PQItem T} {rest : List (PQItem T)}
    (h : q.heap = top :: rest) :
    (q.dequeue).2.heap = match rest.getLast? with
      | none => []
      | some last => sinkDown ((top :: rest).dropLast.set 0 last) 0 := by
  unfold dequeue
  rw [if_neg (by unfold isEmpty; rw [h]; simp)]
  split
  · rename_i heq
    rw [h] at heq
    exact List.noConfusion heq
  · rename_i min rest2 heq
    rw [h] at heq
    cases heq
    split
    · rfl
    · rfl

theorem dequeue_length {q : PriorityQueue T} {top : PQItem T} {rest : List (PQItem T)}
    (h : q.heap = top :: rest) : (q.dequeue).2.heap.length = rest.length := by
  rw [dequeue_snd_heap h]
  cases hlast : rest.getLast? with
  | none =>
    have : rest = [] := by
      cases rest with
      | nil => rfl
      | cons a l => simp [List.getLast?_concat] at hlast
    simp [this]
  | some last =>
    rw [sinkDown_length]
    simp

theorem mem_of_mem_dequeue {q : PriorityQueue T} {top : PQItem T} {rest : List (PQItem T)}
    (h : q.heap = top :: rest) {x : PQItem T} (hx : x ∈ (q.dequeue).2.heap) : x ∈ rest := by
  rw [dequeue_snd_heap h] at hx
  cases hlast : rest.getLast? with
  | none => rw [hlast] at hx; exact absurd hx (by simp)
  | some last =>
    rw [hlast] at hx
    rw [sinkDown_mem] at hx
    have hrest : rest ≠ [] := by rintro rfl; simp at hlast
    have hdl : (top :: rest).dropLast = top :: rest.dropLast := by
      cases rest with
      | nil => exact absurd rfl hrest
      | cons a l => rfl
    have hset : ((top :: rest.dropLast).set 0 last) = last :: rest.dropLast := rfl
    rw [hdl, hset] at hx
    rcases List.mem_cons.mp hx with rfl | hx
    · have := List.dropLast_append_getLast? _ hlast
      rw [← this]
      simp
    · exact (List.dropLast_sublist rest).subset hx

theorem mem_dequeue_of_mem {q : PriorityQueue T} {top : PQItem T} {rest : List (PQItem T)}
    (h : q.heap = top :: rest) {x : PQItem T} (hx : x ∈ rest) : x ∈ (q.dequeue).2.heap := by
  rw [dequeue_snd_heap h]
  have hrest : rest ≠ [] := by rintro rfl; exact absurd hx (by simp)
  cases hlast : rest.getLast? with
  | none => exact absurd hlast (by simp [List.getLast?_eq_none_iff, hrest])
  | some last =>
    rw [sinkDown_mem]
    have hdl : (top :: rest).dropLast = top :: rest.dropLast := by
      cases rest with
      | nil => exact absurd rfl hrest
      | cons a l => rfl
    rw [hdl]
    -- rest = rest.dropLast ++ [last]
    have hsplit : rest = rest.dropLast ++ [last] := by
      conv_lhs => rw [← List.dropLast_append_getLast hrest]
      rw [List.getLast?_eq_getLast rest hrest] at hlast
      cases hlast
      rfl
    rw [hsplit] at hx
    have hset : ((top :: rest.dropLast).set 0 last) = last :: rest.dropLast := rfl
    rw [hset]
    rcases List.mem_append.mp hx with hx | hx
    · exact List.mem_cons_of_mem _ hx
    · simp only [List.mem_singleton] at hx
      subst hx
      exact List.mem_cons_self _ _

theorem dequeue_heap_inv (q : PriorityQueue T) (hq : IsHeap q.heap) :
    IsHeap (q.dequeue).2.heap := by
  cases hh : q.heap with
  | nil =>
    rw [dequeue_empty q hh]
    exact hq
  | cons top rest =>
    rw [dequeue_snd_heap hh]
    cases hlast : rest.getLast? with
    | none =>
      intro i j hj hij
      simp at hj
    | some last =>
      have hrest : rest ≠ [] := by rintro rfl; simp at hlast
      have hdl : (top :: rest).dropLast = top :: rest.dropLast := by
        cases rest with
        | nil => exact absurd rfl hrest
        | cons a l => rfl
      have hblen : ((top :: rest).dropLast.set 0 last).length = rest.length := by
        simp
      apply sinkDown_heap
      constructor
      · intro i j hj hij hi0
        rw [hblen] at hj
        have hi : 0 < i := by omega
        have hij' : i < j := by omega
        have hbi : prioAt ((top :: rest).dropLast.set 0 last) i = prioAt q.heap i := by
          rw [prioAt_set_ne (by omega), prioAt_dropLast (by simp; omega), ← hh]
        have hbj : prioAt ((top :: rest).dropLast.set 0 last) j = prioAt q.heap j := by
          rw [prioAt_set_ne (by omega), prioAt_dropLast (by simp; omega), ← hh]
        rw [hbi, hbj]
        exact hq i j (by rw [hh]; simp; omega) hij
      · intro h0
        exact absurd h0 (by omega)

theorem root_min {h : List (PQItem T)} (hh : IsHeap h) :
    ∀ j, j < h.length → prioAt h 0 ≤ prioAt h j := by
  intro j
  induction j using Nat.strong_induction_on with
  | _ j ih =>
    intro hj
    match j with
    | 0 => exact le_refl _
    | j + 1 =>
      have hpair : j + 1 = 2 * ((j + 2) / 2 - 1) + 1 ∨ j + 1 = 2 * ((j + 2) / 2 - 1) + 2 := by
        omega
      calc prioAt h 0 ≤ prioAt h ((j + 2) / 2 - 1) := ih _ (by omega) (by omega)
        _ ≤ prioAt h (j + 1) := hh _ _ hj hpair

theorem root_min_mem {h : List (PQItem T)} (hh : IsHeap h) {x : PQItem T} (hx : x ∈ h) :
    prioAt h 0 ≤ x.priority := by
  obtain ⟨idx, hidx⟩ := List.mem_iff_get?.mp hx
  have hlt : idx < h.length := (List.get?_eq_some.mp hidx).1
  have := root_min hh idx hlt
  rwa [prioAt_of_get? hidx] at this

/-- Observation function: the sequence of heap nodes removed by
repeatedly calling `dequeue`, with their stored priorities. -/
def drain (fuel : Nat) (q : PriorityQueue T) : List (PQItem T) :=
  match fuel with
  | 0 => []
  | fuel + 1 =>
    match q.heap with
    | [] => []
    | top :: _ => top :: drain fuel (q.dequeue).2

/-- Observation function: the sequence of items returned by repeatedly
calling `dequeue` until it reports empty. -/
def dequeueItems (fuel : Nat) (q : PriorityQueue T) : List T :=
  match fuel with
  | 0 => []
  | fuel + 1 =>
    match (q.dequeue).1 with
    | none => []
    | some x => x :: dequeueItems fuel (q.dequeue).2

theorem drain_map_item (fuel : Nat) (q : PriorityQueue T) :
    (drain fuel q).map PQItem.item = dequeueItems fuel q := by
  induction fuel generalizing q with
  | zero => rfl
  | succ fuel ih =>
    rw [drain, dequeueItems]
    cases hh : q.heap with
    | nil => rw [dequeue_empty q hh]; rfl
    | cons top rest =>
      rw [dequeue_fst hh]
      simp only [List.map_cons]
      rw [ih]

theorem drain_mem (fuel : Nat) (q : PriorityQueue T) {x : PQItem T} (hx : x ∈ drain fuel q) :
    x ∈ q.heap := by
  induction fuel generalizing q with
  | zero => exact absurd hx (by simp [drain])
  | succ fuel ih =>
    rw [drain] at hx
    revert hx
    cases hh : q.heap with
    | nil => intro hx; exact absurd hx (by simp)
    | cons top rest =>
      intro hx
      rcases List.mem_cons.mp hx with rfl | hx
      · exact List.mem_cons_self _ _
      · exact List.mem_cons_of_mem _ (mem_of_mem_dequeue hh (ih _ hx))

theorem drain_sorted (fuel : Nat) (q : PriorityQueue T) (hq : IsHeap q.heap) :
    List.Sorted (· ≤ ·) ((drain fuel q).map PQItem.priority) := by
  induction fuel generalizing q with
  | zero => simp [drain]
  | succ fuel ih =>
    rw [drain]
    cases hh : q.heap with
    | nil => simp
    | cons top rest =>
      simp only [List.map_cons, List.sorted_cons]
      constructor
      · intro b hb
        simp only [List.mem_map] at hb
        obtain ⟨y, hy, rfl⟩ := hb
        have hyq : y ∈ q.heap := by
          rw [hh]
          exact List.mem_cons_of_mem _ (mem_of_mem_dequeue hh (drain_mem fuel _ hy))
        have := root_min_mem hq hyq
        rwa [prioAt_of_get? (by rw [hh]; rfl)] at this
      · exact ih _ (dequeue_heap_inv q hq)

/-- Building a queue by a sequence of enqueues. -/
def enqueueAll (l : List (T × Int)) : PriorityQueue T :=
  l.foldl (fun q p => q.enqueue p.1 p.2) ⟨[]⟩

theorem enqueueAll_heap (l : List (T × Int)) : IsHeap (enqueueAll l).heap := by
  suffices hgen : ∀ (q : PriorityQueue T), IsHeap q.heap →
      IsHeap (l.foldl (fun q p => q.enqueue p.1 p.2) q).heap by
    apply hgen
    intro i j hj hij
    simp at hj
  induction l with
  | nil => intro q hq; exact hq
  | cons p rest ih =>
    intro q hq
    exact ih _ (enqueue_heap q p.1 p.2 hq)

end PriorityQueue

/-! ## Claim theorems: priority queue and codec -/

/-- C6: for every sequence of `enqueue` calls followed by repeated
`dequeue` calls, the removed heap nodes come out in non-decreasing
order of their enqueue priorities (and their `item` fields are exactly
the values the source's `dequeue` returns); `isEmpty` is true iff no
item remains; and `dequeue` on an empty queue returns the explicit
empty indicator `none` (JS `undefined`), leaving the queue unchanged,
rather than throwing. -/
theorem claim_C6 {T : Type} (l : List (T × Int)) (fuel : Nat) (q : PriorityQueue T) :
    List.Sorted (· ≤ ·)
      ((PriorityQueue.drain fuel (PriorityQueue.enqueueAll l)).map PQItem.priority) ∧
    (PriorityQueue.drain fuel (PriorityQueue.enqueueAll l)).map PQItem.item =
      PriorityQueue.dequeueItems fuel (PriorityQueue.enqueueAll l) ∧
    (q.isEmpty = true ↔ q.heap = []) ∧
    (q.heap = [] → q.dequeue = (none, q)) := by
  refine ⟨PriorityQueue.drain_sorted _ _ (PriorityQueue.enqueueAll_heap l),
    PriorityQueue.drain_map_item _ _, ?_, PriorityQueue.dequeue_empty q⟩
  unfold PriorityQueue.isEmpty
  simp [List.length_eq_zero]

/-- C8: decoding the key produced by encoding a valid coordinate
returns that coordinate: `stringToCoord (coordToString c) = c`. -/
theorem claim_C8 (dims : GridDimensions) (c : Coordinate) (hc : isValid c dims = true) :
    stringToCoord (coordToString c) = c :=
  stringToCoord_coordToString c

theorem claim_C8_witness :
    isValid ⟨2, 13⟩ ⟨4, 14⟩ = true ∧ stringToCoord (coordToString ⟨2, 13⟩) = ⟨2, 13⟩ :=
  ⟨by decide, claim_C8 ⟨4, 14⟩ ⟨2, 13⟩ (by decide)⟩

/-! ## Concrete counterexample / failing-input evaluations -/

/-- C1 counterexample: with non-positive grid dimensions (0×0) the call
`runBFS` is not rejected: traversal begins and a snapshot is produced
(the out-of-bounds start cell is expanded). -/
theorem claim_C1_counterexample :
    (runBFS ⟨0, 0⟩ ⟨0, 0⟩ ⟨1, 1⟩).isSome = true ∧
    ((runBFS ⟨0, 0⟩ ⟨0, 0⟩ ⟨1, 1⟩).getD []).length = 1 ∧
    (((runBFS ⟨0, 0⟩ ⟨0, 0⟩ ⟨1, 1⟩).getD []).headI).visited = [coordToString ⟨0, 0⟩] := by
  decide

/-- C2 counterexample: on the 1×1 grid with start = goal, the first
snapshot of `runDFSRecursive` has the key "0,0" in both the frontier
and the visited set, so the two are not disjoint. -/
theorem claim_C2_counterexample :
    coordToString ⟨0, 0⟩ ∈ (((runDFSRecursive ⟨1, 1⟩ ⟨0, 0⟩ ⟨0, 0⟩).getD []).headI).visited ∧
    coordToString ⟨0, 0⟩ ∈ (((runDFSRecursive ⟨1, 1⟩ ⟨0, 0⟩ ⟨0, 0⟩).getD []).headI).frontier := by
  decide

/-- C3 failing input: on the 1×2 grid with start (0,0) and goal (0,1),
the goal is found by the last direction of the start cell's neighbour
loop, so `runDFSRecursive` appends a backtrack snapshot after the
path-bearing snapshot: the trace has 4 snapshots, the third carries the
path and the final one carries none. -/
theorem claim_C3_failing :
    ((runDFSRecursive ⟨1, 2⟩ ⟨0, 0⟩ ⟨0, 1⟩).getD []).length = 4 ∧
    (((runDFSRecursive ⟨1, 2⟩ ⟨0, 0⟩ ⟨0, 1⟩).getD []).getD 2 default).path =
      some [⟨0, 0⟩, ⟨0, 1⟩] ∧
    (((runDFSRecursive ⟨1, 2⟩ ⟨0, 0⟩ ⟨0, 1⟩).getD []).getD 3 default).path = none := by
  decide

/-! ## Shared infrastructure for the search-loop invariants -/

theorem foldl_preserve {α β : Type} (f : β → α → β) (P : β → Prop) :
    ∀ (l : List α) (b : β), P b → (∀ b a, a ∈ l → P b → P (f b a)) → P (l.foldl f b) := by
  intro l
  induction l with
  | nil => intro b hb _; exact hb
  | cons a rest ih =>
    intro b hb hstep
    exact ih (f b a) (hstep b a (List.mem_cons_self _ _) hb)
      (fun b x hx hb => hstep b x (List.mem_cons_of_mem _ hx) hb)

/-- One orthogonal grid step: Manhattan distance exactly 1. -/
def adjStep (a b : Coordinate) : Prop :=
  (a.row - b.row).natAbs + (a.col - b.col).natAbs = 1

/-- Manhattan distance between two coordinates. -/
def manh (a b : Coordinate) : Nat :=
  (a.row - b.row).natAbs + (a.col - b.col).natAbs

theorem adjStep_of_dir {current dir : Coordinate} (hdir : dir ∈ DIRECTIONS) :
    adjStep current ⟨current.row + dir.row, current.col + dir.col⟩ := by
  fin_cases hdir <;> (unfold adjStep; simp)

theorem manh_self (a : Coordinate) : manh a a = 0 := by
  unfold manh
  simp

theorem manh_eq_zero {a b : Coordinate} (h : manh a b = 0) : a = b := by
  unfold manh at h
  have hr : a.row = b.row := by omega
  have hc : a.col = b.col := by omega
  cases a; cases b
  simp_all

theorem manh_comm (a b : Coordinate) : manh a b = manh b a := by
  unfold manh
  omega

theorem manh_triangle (a b c : Coordinate) : manh a c ≤ manh a b + manh b c := by
  unfold manh
  omega

theorem adjStep_manh {a b : Coordinate} (h : adjStep a b) : manh a b = 1 := h

theorem adjStep_exists_dir {a b : Coordinate} (h : adjStep a b) :
    ∃ dir ∈ DIRECTIONS, b = ⟨a.row + dir.row, a.col + dir.col⟩ := by
  unfold adjStep at h
  have h4 : (b.row = a.row - 1 ∧ b.col = a.col) ∨ (b.row = a.row + 1 ∧ b.col = a.col) ∨
      (b.col = a.col - 1 ∧ b.row = a.row) ∨ (b.col = a.col + 1 ∧ b.row = a.row) := by
    omega
  rcases h4 with ⟨h1, h2⟩ | ⟨h1, h2⟩ | ⟨h1, h2⟩ | ⟨h1, h2⟩
  · exact ⟨⟨-1, 0⟩, by simp [DIRECTIONS], by cases b; simp_all <;> omega⟩
  · exact ⟨⟨1, 0⟩, by simp [DIRECTIONS], by cases b; simp_all <;> omega⟩
  · exact ⟨⟨0, -1⟩, by simp [DIRECTIONS], by cases b; simp_all <;> omega⟩
  · exact ⟨⟨0, 1⟩, by simp [DIRECTIONS], by cases b; simp_all <;> omega⟩

/-- One unit step from `t` toward `s` along a Manhattan geodesic. -/
def stepToward (s t : Coordinate) : Coordinate :=
  if s.row < t.row then ⟨t.row - 1, t.col⟩
  else if t.row < s.row then ⟨t.row + 1, t.col⟩
  else if s.col < t.col then ⟨t.row, t.col - 1⟩
  else ⟨t.row, t.col + 1⟩

theorem stepToward_adj {s t : Coordinate} (h : 0 < manh s t) : adjStep (stepToward s t) t := by
  unfold manh at h
  unfold stepToward adjStep
  split
  · simp <;> omega
  · split
    · simp <;> omega
    · split
      · simp <;> omega
      · simp <;> omega

theorem stepToward_manh {s t : Coordinate} (h : 0 < manh s t) :
    manh s (stepToward s t) + 1 = manh s t := by
  unfold manh at *
  unfold stepToward
  split
  · simp <;> omega
  · split
    · simp <;> omega
    · split
      · simp <;> omega
      · simp <;> omega

theorem stepToward_valid {s t : Coordinate} {dims : GridDimensions} (h : 0 < manh s t)
    (hs : isValid s dims = true) (ht : isValid t dims = true) :
    isValid (stepToward s t) dims = true := by
  unfold isValid at *
  simp only [Bool.and_eq_true, decide_eq_true_eq] at *
  unfold manh at h
  unfold stepToward
  split
  · simp <;> omega
  · split
    · simp <;> omega
    · split
      · simp <;> omega
      · simp <;> omega

/-- The parent-pointer chain from `startK` to `k`, recording the list
of keys along it (in start-to-`k` order) and the adjacency of each
decoded link. -/
inductive Chain (par : String → Option String) (startK : String) : String → List String → Prop
  | base : par startK = none → Chain par startK startK [startK]
  | step {k p : String} {l : List String} : par k = some p →
      adjStep (stringToCoord p) (stringToCoord k) →
      Chain par startK p l → Chain par startK k (l ++ [k])

theorem Chain.ne_nil {par : String → Option String} {startK k : String} {l : List String}
    (h : Chain par startK k l) : l ≠ [] := by
  cases h with
  | base _ => simp
  | step _ _ _ => simp

theorem Chain.head {par : String → Option String} {startK k : String} {l : List String}
    (h : Chain par startK k l) : l.head? = some startK := by
  induction h with
  | base _ => rfl
  | @step k p l hk hadj hc ih =>
    cases hl : l with
    | nil => exact absurd hl hc.ne_nil
    | cons a rest =>
      rw [hl] at ih
      rw [List.cons_append, List.head?_cons] at *
      exact ih

theorem Chain.last {par : String → Option String} {startK k : String} {l : List String}
    (h : Chain par startK k l) : l.getLast? = some k := by
  cases h with
  | base _ => rfl
  | step _ _ hc => simp

theorem Chain.mem_self {par : String → Option String} {startK k : String} {l : List String}
    (h : Chain par startK k l) : k ∈ l := by
  cases h with
  | base _ => exact List.mem_singleton.mpr rfl
  | step _ _ _ => simp

/-- Chains are stable under parent-map updates outside their support. -/
theorem Chain.mono {par par' : String → Option String} {startK k : String} {l : List String}
    (h : Chain par startK k l) (hagree : ∀ x ∈ l, par' x = par x) :
    Chain par' startK k l := by
  induction h with
  | base hb =>
    exact Chain.base (by rw [hagree _ (List.mem_singleton.mpr rfl)]; exact hb)
  | @step k p l hk hadj hc ih =>
    refine Chain.step (by rw [hagree k (by simp)]; exact hk) hadj (ih ?_)
    intro x hx
    exact hagree x (by simp [hx])

/-- `reconstructPath` on a chained key returns exactly the decoded
chain, given fuel beyond the chain length. -/
theorem reconstruct_of_chain {par : String → Option String} {startK : String} :
    ∀ {k : String} {l : List String}, Chain par startK k l → ∀ fuel, l.length < fuel →
      reconstructPath fuel par k = some (l.map stringToCoord) := by
  intro k l h
  induction h with
  | base hb =>
    intro fuel hf
    match fuel with
    | fuel + 1 =>
      rw [reconstructPath, hb]
      rfl
  | @step k p l hk hadj hc ih =>
    intro fuel hf
    match fuel with
    | fuel + 1 =>
      rw [reconstructPath, hk]
      dsimp only
      rw [ih fuel (by simp at hf; omega)]
      simp

theorem chain_decoded {par : String → Option String} {startK k : String} {l : List String}
    (h : Chain par startK k l) : List.Chain' adjStep (l.map stringToCoord) := by
  induction h with
  | base _ => simp
  | @step k p l hk hadj hc ih =>
    rw [List.map_append]
    rw [List.chain'_append]
    refine ⟨ih, by simp, ?_⟩
    intro x hx y hy
    simp only [List.map_cons, List.map_nil, List.head?_cons, Option.mem_def,
      Option.some.injEq] at hy
    rw [List.getLast?_map] at hx
    simp only [Option.mem_def, Option.map_eq_some'] at hx
    obtain ⟨a, ha, rfl⟩ := hx
    rw [hc.last] at ha
    cases ha
    cases hy
    exact hadj

/-- The property C7 asserts of any emitted path. -/
def pathOk (start goal : Coordinate) (p : List Coordinate) : Prop :=
  p.head? = some start ∧ p.getLast? = some goal ∧ List.Chain' adjStep p

theorem pathOk_of_chain {par : String → Option String} {start : Coordinate} {k : String}
    {l : List String} (h : Chain par (coordToString start) k l) :
    pathOk start (stringToCoord k) (l.map stringToCoord) := by
  refine ⟨?_, ?_, chain_decoded h⟩
  · rw [List.head?_map, h.head]
    simp [stringToCoord_coordToString]
  · rw [List.getLast?_map, h.last]
    rfl

/-! ### Valid-cell counting -/

/-- The finite set of in-bounds coordinates of a grid. -/
def validCells (dims : GridDimensions) : Finset Coordinate :=
  ((Finset.Icc 0 (dims.rows - 1)) ×ˢ (Finset.Icc 0 (dims.cols - 1))).image
    (fun p => ⟨p.1, p.2⟩)

theorem mem_validCells {dims : GridDimensions} {c : Coordinate} :
    c ∈ validCells dims ↔ isValid c dims = true := by
  unfold validCells isValid
  simp only [Finset.mem_image, Finset.mem_product, Finset.mem_Icc]
  constructor
  · rintro ⟨⟨r, co⟩, ⟨⟨h1, h2⟩, h3, h4⟩, rfl⟩
    simp only [Bool.and_eq_true, decide_eq_true_eq]
    omega
  · intro h
    simp only [Bool.and_eq_true, decide_eq_true_eq] at h
    exact ⟨(c.row, c.col), ⟨⟨by omega, by omega⟩, by omega, by omega⟩, rfl⟩

theorem validCells_card (dims : GridDimensions) :
    (validCells dims).card = dims.rows.toNat * dims.cols.toNat := by
  unfold validCells
  rw [Finset.card_image_of_injective _ (fun a b hab => by
    cases a; cases b; cases hab; rfl)]
  rw [Finset.card_product]
  rw [Int.card_Icc, Int.card_Icc]
  congr 1 <;> omega

/-- The keys of the valid cells, plus the start key. -/
def validKeys (dims : GridDimensions) (start : Coordinate) : Finset String :=
  insert (coordToString start) ((validCells dims).image coordToString)

theorem validKeys_card (dims : GridDimensions) (start : Coordinate) :
    (validKeys dims start).card ≤ dims.rows.toNat * dims.cols.toNat + 1 := by
  unfold validKeys
  calc (insert (coordToString start) ((validCells dims).image coordToString)).card
      ≤ ((validCells dims).image coordToString).card + 1 := Finset.card_insert_le _ _
    _ ≤ (validCells dims).card + 1 := by
        have := Finset.card_image_le (s := validCells dims) (f := coordToString)
        omega
    _ = dims.rows.toNat * dims.cols.toNat + 1 := by rw [validCells_card]

/-- A duplicate-free list of keys drawn from the valid keys has length
at most `rows * cols + 1`. -/
theorem keyList_length_le {dims : GridDimensions} {start : Coordinate} {l : List String}
    (hnd : l.Nodup)
    (hmem : ∀ k ∈ l, k = coordToString start ∨ ∃ c, isValid c dims = true ∧ k = coordToString c) :
    l.length ≤ dims.rows.toNat * dims.cols.toNat + 1 := by
  have hsub : l.toFinset ⊆ validKeys dims start := by
    intro k hk
    rw [List.mem_toFinset] at hk
    rcases hmem k hk with rfl | ⟨c, hc, rfl⟩
    · exact Finset.mem_insert_self _ _
    · exact Finset.mem_insert_of_mem
        (Finset.mem_image_of_mem _ (mem_validCells.mpr hc))
  calc l.length = l.toFinset.card := (List.toFinset_card_of_nodup hnd).symm
    _ ≤ (validKeys dims start).card := Finset.card_le_card hsub
    _ ≤ dims.rows.toNat * dims.cols.toNat + 1 := validKeys_card dims start

/-! ### Small facts about the JS set/map models -/

theorem mem_setAdd {s : List String} {k x : String} :
    x ∈ setAdd s k ↔ x ∈ s ∨ x = k := by
  unfold setAdd
  split
  · rename_i hk
    constructor
    · exact Or.inl
    · rintro (h | rfl)
      · exact h
      · exact hk
  · rw [List.mem_append, List.mem_singleton]

theorem mem_setAdd_self (s : List String) (k : String) : k ∈ setAdd s k :=
  mem_setAdd.mpr (Or.inr rfl)

theorem mem_setAdd_of_mem {s : List String} {x : String} (k : String) (h : x ∈ s) :
    x ∈ setAdd s k :=
  mem_setAdd.mpr (Or.inl h)

theorem setAdd_nodup {s : List String} (k : String) (h : s.Nodup) : (setAdd s k).Nodup := by
  unfold setAdd
  split
  · exact h
  · rename_i hk
    refine List.Nodup.append h (by simp) ?_
    intro x hx hx2
    simp only [List.mem_singleton] at hx2
    exact hk (hx2 ▸ hx)

theorem mem_of_mem_setDelete {s : List String} {k x : String} (h : x ∈ setDelete s k) :
    x ∈ s :=
  List.erase_subset _ _ h

theorem mset_self {α : Type} (m : String → Option α) (k : String) (v : α) :
    mset m k v k = some v := by
  unfold mset
  simp

theorem mset_other {α : Type} (m : String → Option α) {k x : String} (v : α) (h : x ≠ k) :
    mset m k v x = m x := by
  unfold mset
  simp [h]

theorem nodup_subset_length_le {l l' : List String} (h : l.Nodup) (hs : ∀ x ∈ l, x ∈ l') :
    l.length ≤ l'.length := by
  calc l.length = l.toFinset.card := (List.toFinset_card_of_nodup h).symm
    _ ≤ l'.toFinset.card := Finset.card_le_card (by
        intro x hx
        rw [List.mem_toFinset] at *
        exact hs x hx)
    _ ≤ l'.length := l'.toFinset_card_le

/-! ## BFS invariants -/

/-- The invariant of the `runBFS` loop state. -/
structure BfsInv (dims : GridDimensions) (start goal : Coordinate) (st : BfsState) : Prop where
  vis_nodup : st.visited.Nodup
  vis_keys : ∀ k ∈ st.visited,
    k = coordToString start ∨ ∃ c, isValid c dims = true ∧ k = coordToString c
  queue_vis : ∀ c ∈ st.queue, coordToString c ∈ st.visited
  frontier_vis : ∀ k ∈ st.frontier, k ∈ st.visited
  chains : ∀ k ∈ st.visited, ∃ l, Chain st.parentMap (coordToString start) k l ∧
    (∀ x ∈ l, x ∈ st.visited) ∧ l.Nodup
  steps_sub : ∀ s ∈ st.steps, ∀ k ∈ s.frontier, k ∈ s.visited
  steps_path : ∀ s ∈ st.steps, ∀ p, s.path = some p → pathOk start goal p

theorem bfsInv_init (dims : GridDimensions) (start goal : Coordinate) :
    BfsInv dims start goal
      { steps := [], queue := [start], visited := setAdd [] (coordToString start),
        parentMap := fun _ => none, frontier := setAdd [] (coordToString start) } := by
  have hv : setAdd [] (coordToString start) = [coordToString start] := rfl
  constructor
  · rw [hv]; simp
  · intro k hk
    rw [hv] at hk
    simp only [List.mem_singleton] at hk
    exact Or.inl hk
  · intro c hc
    simp only [List.mem_singleton] at hc
    rw [hc]
    show coordToString start ∈ setAdd [] (coordToString start)
    exact mem_setAdd_self _ _
  · intro k hk
    exact hk
  · intro k hk
    rw [hv] at hk
    simp only [List.mem_singleton] at hk
    subst hk
    exact ⟨[coordToString start], Chain.base rfl, by simp [hv], by simp⟩
  · intro s hs
    exact absurd hs (by simp)
  · intro s hs
    exact absurd hs (by simp)

/-- One pass of the BFS neighbour fold preserves the invariant (and
only ever grows the visited set, never touching the recorded steps). -/
theorem bfsNeighbors_inv (dims : GridDimensions) (start goal current : Coordinate)
    (st : BfsState) (hinv : BfsInv dims start goal st)
    (hcur : coordToString current ∈ st.visited) :
    BfsInv dims start goal (bfsNeighbors dims current (coordToString current) st) ∧
    coordToString current ∈ (bfsNeighbors dims current (coordToString current) st).visited ∧
    (bfsNeighbors dims current (coordToString current) st).steps = st.steps := by
  unfold bfsNeighbors
  apply foldl_preserve _ (fun s => BfsInv dims start goal s ∧
    coordToString current ∈ s.visited ∧ s.steps = st.steps) DIRECTIONS st ⟨hinv, hcur, rfl⟩
  rintro s dir hdir ⟨hs, hc, hsteps⟩
  unfold bfsRelax
  dsimp only
  split
  · rename_i hcond
    simp only [Bool.and_eq_true, Bool.not_eq_true', decide_eq_false_iff_not] at hcond
    obtain ⟨hval, hnew⟩ := hcond
    set next : Coordinate := ⟨current.row + dir.row, current.col + dir.col⟩ with hnext
    have hnmem : (coordToString next) ∉ s.visited := by
      simpa using hnew
    refine ⟨?_, mem_setAdd_of_mem _ hc, hsteps⟩
    obtain ⟨lc, hlc, hlcv, hlcn⟩ := hs.chains _ hc
    constructor
    · exact setAdd_nodup _ hs.vis_nodup
    · intro k hk
      rcases mem_setAdd.mp hk with hk | rfl
      · exact hs.vis_keys k hk
      · exact Or.inr ⟨next, hval, rfl⟩
    · intro c hcq
      rcases List.mem_append.mp hcq with hcq | hcq
      · exact mem_setAdd_of_mem _ (hs.queue_vis c hcq)
      · simp only [List.mem_singleton] at hcq
        subst hcq
        exact mem_setAdd_self _ _
    · intro k hk
      rcases mem_setAdd.mp hk with hk | rfl
      · exact mem_setAdd_of_mem _ (hs.frontier_vis k hk)
      · exact mem_setAdd_self _ _
    · intro k hk
      rcases mem_setAdd.mp hk with hk | rfl
      · obtain ⟨l, hl, hlv, hln⟩ := hs.chains k hk
        refine ⟨l, hl.mono ?_, fun x hx => mem_setAdd_of_mem _ (hlv x hx), hln⟩
        intro x hx
        exact mset_other _ _ (fun hxe => hnmem (hxe ▸ hlv x hx))
      · refine ⟨lc ++ [coordToString next], ?_, ?_, ?_⟩
        · refine Chain.step (mset_self _ _ _) ?_ (hlc.mono ?_)
          · rw [stringToCoord_coordToString, stringToCoord_coordToString]
            exact adjStep_of_dir hdir
          · intro x hx
            exact mset_other _ _ (fun hxe => hnmem (hxe ▸ hlcv x hx))
        · intro x hx
          rcases List.mem_append.mp hx with hx | hx
          · exact mem_setAdd_of_mem _ (hlcv x hx)
          · simp only [List.mem_singleton] at hx
            subst hx
            exact mem_setAdd_self _ _
        · simp only [List.nodup_append, List.nodup_singleton]
          exact ⟨hlcn, by simp, by
            intro x hx hx2
            simp only [List.mem_singleton] at hx2
            exact hnmem (hx2 ▸ hlcv x hx)⟩
    · exact hs.steps_sub
    · exact hs.steps_path
  · exact ⟨hs, hc, hsteps⟩

/-- From the invariant, path reconstruction succeeds on any visited
key and returns its decoded chain. -/
theorem bfsInv_reconstruct {dims : GridDimensions} {start goal : Coordinate} {st : BfsState}
    (hinv : BfsInv dims start goal st) {k : String} (hk : k ∈ st.visited) :
    ∃ l, Chain st.parentMap (coordToString start) k l ∧
      reconstructPath (fuelFor dims) st.parentMap k = some (l.map stringToCoord) := by
  obtain ⟨l, hl, hlv, hln⟩ := hinv.chains _ hk
  refine ⟨l, hl, reconstruct_of_chain hl _ ?_⟩
  have h1 : l.length ≤ st.visited.length := nodup_subset_length_le hln hlv
  have h2 : st.visited.length ≤ dims.rows.toNat * dims.cols.toNat + 1 :=
    keyList_length_le hinv.vis_nodup hinv.vis_keys
  unfold fuelFor
  omega

/-- The dequeue part of one BFS iteration preserves the invariant. -/
theorem bfsInv_mid {dims : GridDimensions} {start goal : Coordinate} {st : BfsState}
    {current : Coordinate} {qrest : List Coordinate}
    (hinv : BfsInv dims start goal st) (hq : st.queue = current :: qrest) :
    BfsInv dims start goal
      { st with
        steps := st.steps ++
          [{ visited := st.visited,
             frontier := setDelete st.frontier (coordToString current),
             current := some current }],
        queue := qrest,
        frontier := setDelete st.frontier (coordToString current) } := by
  constructor
  · exact hinv.vis_nodup
  · exact hinv.vis_keys
  · intro c hc
    exact hinv.queue_vis c (by rw [hq]; exact List.mem_cons_of_mem _ hc)
  · intro k hk
    exact hinv.frontier_vis k (mem_of_mem_setDelete hk)
  · exact hinv.chains
  · intro s hs
    rcases List.mem_append.mp hs with hs | hs
    · exact hinv.steps_sub s hs
    · simp only [List.mem_singleton] at hs
      subst hs
      intro k hk
      exact hinv.frontier_vis k (mem_of_mem_setDelete hk)
  · intro s hs
    rcases List.mem_append.mp hs with hs | hs
    · exact hinv.steps_path s hs
    · simp only [List.mem_singleton] at hs
      subst hs
      intro p hp
      exact absurd hp (by simp)

/-- Every snapshot of a completed BFS run has its frontier inside its
visited set, and any path it carries goes from start to goal by
orthogonal unit steps. -/
theorem bfsLoop_out (dims : GridDimensions) (start goal : Coordinate) :
    ∀ (fuel : Nat) (st : BfsState) (out : List AlgoStep),
      BfsInv dims start goal st →
      bfsLoop dims (coordToString goal) fuel st = some out →
      ∀ s ∈ out, (∀ k ∈ s.frontier, k ∈ s.visited) ∧
        (∀ p, s.path = some p → pathOk start goal p) := by
  intro fuel
  induction fuel with
  | zero =>
    intro st out hinv hrun
    exact absurd hrun (by rw [bfsLoop]; simp)
  | succ fuel ih =>
    intro st out hinv hrun
    rw [bfsLoop] at hrun
    cases hq : st.queue with
    | nil =>
      rw [hq] at hrun
      cases hrun
      intro s hs
      exact ⟨hinv.steps_sub s hs, hinv.steps_path s hs⟩
    | cons current qrest =>
      rw [hq] at hrun
      dsimp only at hrun
      by_cases hg : coordToString current = coordToString goal
      · rw [if_pos hg] at hrun
        have hcv : coordToString current ∈ st.visited :=
          hinv.queue_vis current (by rw [hq]; exact List.mem_cons_self _ _)
        obtain ⟨l, hl, hrec⟩ := bfsInv_reconstruct hinv hcv
        rw [← hg, hrec] at hrun
        cases hrun
        intro s hs
        have hfsub : ∀ k ∈ setDelete st.frontier (coordToString current), k ∈ st.visited :=
          fun k hk => hinv.frontier_vis k (mem_of_mem_setDelete hk)
        rcases List.mem_append.mp hs with hs | hs
        · rcases List.mem_append.mp hs with hs | hs
          · exact ⟨hinv.steps_sub s hs, hinv.steps_path s hs⟩
          · simp only [List.mem_singleton] at hs
            subst hs
            exact ⟨hfsub, fun p hp => absurd hp (by simp)⟩
        · simp only [List.mem_singleton] at hs
          subst hs
          refine ⟨hfsub, ?_⟩
          intro p hp
          simp only [Option.some.injEq] at hp
          subst hp
          have := @pathOk_of_chain _ start _ _ hl
          rw [stringToCoord_coordToString, coordToString_injective hg] at this
          exact this
      · rw [if_neg hg] at hrun
        have hmid := bfsInv_mid hinv hq
        have hcv : coordToString current ∈ st.visited :=
          hinv.queue_vis current (by rw [hq]; exact List.mem_cons_self _ _)
        have hnb := bfsNeighbors_inv dims start goal current _ hmid hcv
        exact ih _ out hnb.1 hrun

/-! ### BFS termination -/

/-- Number of valid cells not yet visited. -/
def bfsUnvisited (dims : GridDimensions) (st : BfsState) : Nat :=
  (((validCells dims).image coordToString).filter (fun k => k ∉ st.visited)).card

theorem card_filter_notmem_succ {s : Finset String} {v : List String} {a : String}
    (ha : a ∈ s) (hav : a ∉ v) :
    (s.filter (fun k => k ∉ v ++ [a])).card + 1 ≤ (s.filter (fun k => k ∉ v)).card := by
  have hss : s.filter (fun k => k ∉ v ++ [a]) ⊂ s.filter (fun k => k ∉ v) := by
    constructor
    · intro k hk
      rw [Finset.mem_filter] at *
      refine ⟨hk.1, fun hkv => hk.2 (List.mem_append.mpr (Or.inl hkv))⟩
    · intro hsub
      have h1 : a ∈ s.filter (fun k => k ∉ v) := by
        rw [Finset.mem_filter]
        exact ⟨ha, hav⟩
      have h2 := hsub h1
      rw [Finset.mem_filter] at h2
      exact h2.2 (List.mem_append.mpr (Or.inr (List.mem_singleton.mpr rfl)))
  exact Nat.succ_le_of_lt (Finset.card_lt_card hss)

theorem bfsNeighbors_measure (dims : GridDimensions) (current : Coordinate) (st : BfsState) :
    (bfsNeighbors dims current (coordToString current) st).queue.length +
      bfsUnvisited dims (bfsNeighbors dims current (coordToString current) st) ≤
    st.queue.length + bfsUnvisited dims st := by
  unfold bfsNeighbors
  apply foldl_preserve _
    (fun s => s.queue.length + bfsUnvisited dims s ≤ st.queue.length + bfsUnvisited dims st)
    DIRECTIONS st (le_refl _)
  intro s dir hdir hle
  unfold bfsRelax
  dsimp only
  split
  · rename_i hcond
    simp only [Bool.and_eq_true, Bool.not_eq_true', decide_eq_false_iff_not] at hcond
    obtain ⟨hval, hnew⟩ := hcond
    have hnmem : coordToString ⟨current.row + dir.row, current.col + dir.col⟩ ∉ s.visited := by
      simpa using hnew
    have hkey : coordToString ⟨current.row + dir.row, current.col + dir.col⟩ ∈
        (validCells dims).image coordToString :=
      Finset.mem_image_of_mem _ (mem_validCells.mpr hval)
    have hadd : setAdd s.visited (coordToString ⟨current.row + dir.row, current.col + dir.col⟩) =
        s.visited ++ [coordToString ⟨current.row + dir.row, current.col + dir.col⟩] := by
      unfold setAdd
      rw [if_neg hnmem]
    have hdec := card_filter_notmem_succ (v := s.visited) hkey hnmem
    unfold bfsUnvisited at *
    simp only [List.length_append, List.length_singleton]
    rw [hadd]
    omega
  · exact hle

theorem bfsLoop_isSome (dims : GridDimensions) (start goal : Coordinate) :
    ∀ (fuel : Nat) (st : BfsState), BfsInv dims start goal st →
      st.queue.length + bfsUnvisited dims st < fuel →
      (bfsLoop dims (coordToString goal) fuel st).isSome = true := by
  intro fuel
  induction fuel with
  | zero => intro st hinv hf; omega
  | succ fuel ih =>
    intro st hinv hf
    rw [bfsLoop]
    cases hq : st.queue with
    | nil => rfl
    | cons current qrest =>
      dsimp only
      by_cases hg : coordToString current = coordToString goal
      · rw [if_pos hg]
        have hcv : coordToString current ∈ st.visited :=
          hinv.queue_vis current (by rw [hq]; exact List.mem_cons_self _ _)
        obtain ⟨l, hl, hrec⟩ := bfsInv_reconstruct hinv hcv
        rw [← hg, hrec]
        rfl
      · rw [if_neg hg]
        have hmid := bfsInv_mid hinv hq
        have hcv : coordToString current ∈ st.visited :=
          hinv.queue_vis current (by rw [hq]; exact List.mem_cons_self _ _)
        have hnb := bfsNeighbors_inv dims start goal current _ hmid hcv
        apply ih _ hnb.1
        have hms := bfsNeighbors_measure dims current
          { st with
            steps := st.steps ++
              [{ visited := st.visited,
                 frontier := setDelete st.frontier (coordToString current),
                 current := some current }],
            queue := qrest,
            frontier := setDelete st.frontier (coordToString current) }
        have hqlen : st.queue.length = qrest.length + 1 := by rw [hq]; rfl
        have humid : bfsUnvisited dims
            { st with
              steps := st.steps ++
                [{ visited := st.visited,
                   frontier := setDelete st.frontier (coordToString current),
                   current := some current }],
              queue := qrest,
              frontier := setDelete st.frontier (coordToString current) } =
            bfsUnvisited dims st := rfl
        rw [humid] at hms
        dsimp only at hms
        omega

theorem runBFS_isSome (dims : GridDimensions) (start goal : Coordinate) :
    (runBFS dims start goal).isSome = true := by
  unfold runBFS
  apply bfsLoop_isSome dims start goal _ _ (bfsInv_init dims start goal)
  have hU : bfsUnvisited dims
      { steps := [], queue := [start], visited := setAdd [] (coordToString start),
        parentMap := fun _ => none, frontier := setAdd [] (coordToString start) } ≤
      dims.rows.toNat * dims.cols.toNat := by
    unfold bfsUnvisited
    calc (((validCells dims).image coordToString).filter _).card
        ≤ ((validCells dims).image coordToString).card := Finset.card_filter_le _ _
      _ ≤ (validCells dims).card := Finset.card_image_le
      _ = dims.rows.toNat * dims.cols.toNat := validCells_card dims
  unfold fuelFor
  simp only [List.length_singleton]
  omega

theorem runBFS_out {dims : GridDimensions} {start goal : Coordinate} {out : List AlgoStep}
    (hrun : runBFS dims start goal = some out) :
    ∀ s ∈ out, (∀ k ∈ s.frontier, k ∈ s.visited) ∧
      (∀ p, s.path = some p → pathOk start goal p) :=
  bfsLoop_out dims start goal _ _ out (bfsInv_init dims start goal) hrun

/-! ## DFS invariants -/

/-- Number of valid cells whose keys are not in a visited list. -/
def unvisitedCount (dims : GridDimensions) (visited : List String) : Nat :=
  (((validCells dims).image coordToString).filter (fun k => k ∉ visited)).card

theorem unvisitedCount_le (dims : GridDimensions) (v : List String) :
    unvisitedCount dims v ≤ dims.rows.toNat * dims.cols.toNat := by
  unfold unvisitedCount
  calc (((validCells dims).image coordToString).filter _).card
      ≤ ((validCells dims).image coordToString).card := Finset.card_filter_le _ _
    _ ≤ (validCells dims).card := Finset.card_image_le
    _ = dims.rows.toNat * dims.cols.toNat := validCells_card dims

theorem unvisitedCount_mono (dims : GridDimensions) {v v' : List String}
    (h : ∀ k ∈ v, k ∈ v') : unvisitedCount dims v' ≤ unvisitedCount dims v := by
  unfold unvisitedCount
  apply Finset.card_le_card
  intro k hk
  rw [Finset.mem_filter] at *
  exact ⟨hk.1, fun hkv => hk.2 (h k hkv)⟩

theorem unvisitedCount_decrease (dims : GridDimensions) {v v' : List String} {c : Coordinate}
    (hsub : ∀ k ∈ v, k ∈ v') (hval : isValid c dims = true)
    (hnot : coordToString c ∉ v) (hmem : coordToString c ∈ v') :
    unvisitedCount dims v' + 1 ≤ unvisitedCount dims v := by
  have hss : ((validCells dims).image coordToString).filter (fun k => k ∉ v') ⊂
      ((validCells dims).image coordToString).filter (fun k => k ∉ v) := by
    constructor
    · intro k hk
      rw [Finset.mem_filter] at *
      exact ⟨hk.1, fun hkv => hk.2 (hsub k hkv)⟩
    · intro hcon
      have h1 : coordToString c ∈
          ((validCells dims).image coordToString).filter (fun k => k ∉ v) := by
        rw [Finset.mem_filter]
        exact ⟨Finset.mem_image_of_mem _ (mem_validCells.mpr hval), hnot⟩
      have h2 := hcon h1
      rw [Finset.mem_filter] at h2
      exact h2.2 hmem
  exact Nat.succ_le_of_lt (Finset.card_lt_card hss)

/-- The invariant of the `runDFSRecursive` closure state. -/
structure DfsInv (dims : GridDimensions) (start goal : Coordinate) (st : DfsState) : Prop where
  vis_nodup : st.visited.Nodup
  vis_keys : ∀ k ∈ st.visited,
    k = coordToString start ∨ ∃ c, isValid c dims = true ∧ k = coordToString c
  stack_vis : ∀ k ∈ st.recursionStack, k ∈ st.visited
  chains : ∀ k ∈ st.visited, ∃ l, Chain st.parentMap (coordToString start) k l ∧
    (∀ x ∈ l, x ∈ st.visited) ∧ l.Nodup
  steps_sub : ∀ s ∈ st.steps, ∀ k ∈ s.frontier, k ∈ s.visited
  steps_path : ∀ s ∈ st.steps, ∀ p, s.path = some p → pathOk start goal p

/-- Precondition of a `dfs` call on coordinate `c`: the parent map
already chains `c` back to the start through visited keys, `c` is
unvisited, and `c` is the start or a valid cell. -/
structure DfsPre (dims : GridDimensions) (start : Coordinate) (st : DfsState)
    (c : Coordinate) : Prop where
  chain : ∃ l, Chain st.parentMap (coordToString start) (coordToString c) l ∧
    (∀ x ∈ l, x ∈ st.visited ∨ x = coordToString c) ∧ l.Nodup
  key_ok : coordToString c = coordToString start ∨
    ∃ cc, isValid cc dims = true ∧ coordToString c = coordToString cc
  unvis : coordToString c ∉ st.visited

theorem dfsInv_reconstruct {dims : GridDimensions} {start goal : Coordinate} {st : DfsState}
    (hinv : DfsInv dims start goal st) {k : String} (hk : k ∈ st.visited) :
    ∃ l, Chain st.parentMap (coordToString start) k l ∧
      reconstructPath (fuelFor dims) st.parentMap k = some (l.map stringToCoord) := by
  obtain ⟨l, hl, hlv, hln⟩ := hinv.chains _ hk
  refine ⟨l, hl, reconstruct_of_chain hl _ ?_⟩
  have h1 : l.length ≤ st.visited.length := nodup_subset_length_le hln hlv
  have h2 : st.visited.length ≤ dims.rows.toNat * dims.cols.toNat + 1 :=
    keyList_length_le hinv.vis_nodup hinv.vis_keys
  unfold fuelFor
  omega

/-- The state after `dfs`'s entry bookkeeping (mark visited, push on
the stack, record the entry snapshot) keeps the invariant. -/
theorem dfsInv_entry {dims : GridDimensions} {start goal : Coordinate} {st : DfsState}
    {c : Coordinate} {d : Int} (hinv : DfsInv dims start goal st)
    (hpre : DfsPre dims start st c) :
    DfsInv dims start goal
      { st with
        steps := st.steps ++
          [{ visited := setAdd st.visited (coordToString c),
             frontier := setAdd st.recursionStack (coordToString c),
             current := some c, depth := some d }],
        visited := setAdd st.visited (coordToString c),
        recursionStack := setAdd st.recursionStack (coordToString c) } := by
  obtain ⟨lc, hlc, hlcv, hlcn⟩ := hpre.chain
  constructor
  · exact setAdd_nodup _ hinv.vis_nodup
  · intro k hk
    rcases mem_setAdd.mp hk with hk | rfl
    · exact hinv.vis_keys k hk
    · exact hpre.key_ok
  · intro k hk
    rcases mem_setAdd.mp hk with hk | rfl
    · exact mem_setAdd_of_mem _ (hinv.stack_vis k hk)
    · exact mem_setAdd_self _ _
  · intro k hk
    rcases mem_setAdd.mp hk with hk | rfl
    · obtain ⟨l, hl, hlv, hln⟩ := hinv.chains k hk
      exact ⟨l, hl, fun x hx => mem_setAdd_of_mem _ (hlv x hx), hln⟩
    · refine ⟨lc, hlc, ?_, hlcn⟩
      intro x hx
      rcases hlcv x hx with hx2 | rfl
      · exact mem_setAdd_of_mem _ hx2
      · exact mem_setAdd_self _ _
  · intro s hs
    rcases List.mem_append.mp hs with hs | hs
    · exact hinv.steps_sub s hs
    · simp only [List.mem_singleton] at hs
      subst hs
      intro k hk
      rcases mem_setAdd.mp hk with hk | rfl
      · exact mem_setAdd_of_mem _ (hinv.stack_vis k hk)
      · exact mem_setAdd_self _ _
  · intro s hs
    rcases List.mem_append.mp hs with hs | hs
    · exact hinv.steps_path s hs
    · simp only [List.mem_singleton] at hs
      subst hs
      intro p hp
      exact absurd hp (by simp)

theorem dfsInv_setpar {dims : GridDimensions} {start goal : Coordinate} {st : DfsState}
    {nk pk : String} (hinv : DfsInv dims start goal st) (hn : nk ∉ st.visited) :
    DfsInv dims start goal { st with parentMap := mset st.parentMap nk pk } := by
  constructor
  · exact hinv.vis_nodup
  · exact hinv.vis_keys
  · exact hinv.stack_vis
  · intro k hk
    obtain ⟨l, hl, hlv, hln⟩ := hinv.chains k hk
    refine ⟨l, hl.mono ?_, hlv, hln⟩
    intro x hx
    exact mset_other _ _ (fun hxe => hn (hxe ▸ hlv x hx))
  · exact hinv.steps_sub
  · exact hinv.steps_path

/-- Main mutual induction for the DFS recursion: the invariant is
preserved, the visited set only grows, the entered coordinate ends up
visited, and at least the entry snapshot is appended. -/
theorem dfs_main (dims : GridDimensions) (start goal : Coordinate) : ∀ fuel : Nat,
    (∀ (st : DfsState) (c : Coordinate) (d : Int) (out : DfsState),
      DfsInv dims start goal st → DfsPre dims start st c → st.found = false →
      dfsRec dims (coordToString goal) fuel st c d = some out →
      DfsInv dims start goal out ∧ (∀ k ∈ st.visited, k ∈ out.visited) ∧
        coordToString c ∈ out.visited ∧ st.steps.length + 1 ≤ out.steps.length) ∧
    (∀ (st : DfsState) (c : Coordinate) (d : Int) (dirs : List Coordinate)
        (res : DfsState × Bool),
      DfsInv dims start goal st → coordToString c ∈ st.visited →
      (∀ x ∈ dirs, x ∈ DIRECTIONS) →
      dfsDirs dims (coordToString goal) fuel st c (coordToString c) d dirs = some res →
      DfsInv dims start goal res.1 ∧ (∀ k ∈ st.visited, k ∈ res.1.visited) ∧
        st.steps.length ≤ res.1.steps.length) := by
  intro fuel
  induction fuel with
  | zero =>
    constructor
    · intro st c d out _ _ _ hrun
      exact absurd hrun (by rw [dfsRec]; simp)
    · intro st c d dirs res _ _ _ hrun
      exact absurd hrun (by rw [dfsDirs]; simp)
  | succ fuel ih =>
    obtain ⟨ih1, ih2⟩ := ih
    constructor
    · -- dfsRec
      intro st c d out hinv hpre hnf hrun
      rw [dfsRec] at hrun
      rw [if_neg (by simp [hnf])] at hrun
      have hinv1 := dfsInv_entry (d := d) hinv hpre
      have hc1 : coordToString c ∈ setAdd st.visited (coordToString c) := mem_setAdd_self _ _
      by_cases hg : coordToString c = coordToString goal
      · rw [if_pos hg] at hrun
        obtain ⟨lc, hlc, hlcv, hlcn⟩ := hpre.chain
        have hlen : lc.length < fuelFor dims := by
          have h1 : lc.length ≤ (st.visited ++ [coordToString c]).length := by
            apply nodup_subset_length_le hlcn
            intro x hx
            rcases hlcv x hx with hx2 | rfl
            · exact List.mem_append.mpr (Or.inl hx2)
            · exact List.mem_append.mpr (Or.inr (List.mem_singleton.mpr rfl))
          have h2 : (st.visited ++ [coordToString c]).length ≤
              dims.rows.toNat * dims.cols.toNat + 1 := by
            apply keyList_length_le
            · refine List.Nodup.append hinv.vis_nodup (by simp) ?_
              intro x hx hx2
              simp only [List.mem_singleton] at hx2
              exact hpre.unvis (hx2 ▸ hx)
            · intro k hk
              rcases List.mem_append.mp hk with hk | hk
              · exact hinv.vis_keys k hk
              · simp only [List.mem_singleton] at hk
                exact hk ▸ hpre.key_ok
          unfold fuelFor
          omega
        have hrec := reconstruct_of_chain hlc (fuelFor dims) hlen
        rw [← hg, hrec] at hrun
        dsimp only at hrun
        cases hrun
        refine ⟨?_, ?_, ?_, ?_⟩
        · constructor
          · exact hinv1.vis_nodup
          · exact hinv1.vis_keys
          · exact hinv1.stack_vis
          · exact hinv1.chains
          · intro s hs
            rcases List.mem_append.mp hs with hs | hs
            · exact hinv1.steps_sub s hs
            · simp only [List.mem_singleton] at hs
              subst hs
              intro k hk
              rcases mem_setAdd.mp hk with hk | rfl
              · exact mem_setAdd_of_mem _ (hinv.stack_vis k hk)
              · exact mem_setAdd_self _ _
          · intro s hs
            rcases List.mem_append.mp hs with hs | hs
            · exact hinv1.steps_path s hs
            · simp only [List.mem_singleton] at hs
              subst hs
              intro p hp
              simp only [Option.some.injEq] at hp
              subst hp
              have := @pathOk_of_chain _ start _ _ hlc
              rw [stringToCoord_coordToString, coordToString_injective hg] at this
              exact this
        · intro k hk
          exact mem_setAdd_of_mem _ hk
        · exact hc1
        · simp
      · rw [if_neg hg] at hrun
        cases hdirs : dfsDirs dims (coordToString goal) fuel
            { st with
              steps := st.steps ++
                [{ visited := setAdd st.visited (coordToString c),
                   frontier := setAdd st.recursionStack (coordToString c),
                   current := some c, depth := some d }],
              visited := setAdd st.visited (coordToString c),
              recursionStack := setAdd st.recursionStack (coordToString c) }
            c (coordToString c) d DIRECTIONS with
        | none =>
          rw [hdirs] at hrun
          exact absurd hrun (by simp)
        | some res2 =>
          rw [hdirs] at hrun
          obtain ⟨st2, early⟩ := res2
          have hpart2 := ih2 _ c d DIRECTIONS (st2, early) hinv1 hc1 (fun x hx => hx) hdirs
          obtain ⟨hinv2, hgrow2, hsteps2⟩ := hpart2
          dsimp only at hinv2 hgrow2 hsteps2 hrun
          have hstep1 : st.steps.length + 1 ≤ st2.steps.length := by
            simpa using hsteps2
          have hgrow1 : ∀ k ∈ st.visited, k ∈ st2.visited := by
            intro k hk
            exact hgrow2 k (mem_setAdd_of_mem _ hk)
          cases early with
          | true =>
            simp only [if_true] at hrun
            cases hrun
            exact ⟨hinv2, hgrow1, hgrow2 _ hc1, hstep1⟩
          | false =>
            simp only [Bool.false_eq_true, if_false] at hrun
            cases hrun
            refine ⟨?_, ?_, ?_, ?_⟩
            · constructor
              · exact hinv2.vis_nodup
              · exact hinv2.vis_keys
              · intro k hk
                exact hinv2.stack_vis k (mem_of_mem_setDelete hk)
              · exact hinv2.chains
              · intro s hs
                rcases List.mem_append.mp hs with hs | hs
                · exact hinv2.steps_sub s hs
                · simp only [List.mem_singleton] at hs
                  subst hs
                  intro k hk
                  exact hinv2.stack_vis k (mem_of_mem_setDelete hk)
              · intro s hs
                rcases List.mem_append.mp hs with hs | hs
                · exact hinv2.steps_path s hs
                · simp only [List.mem_singleton] at hs
                  subst hs
                  intro p hp
                  exact absurd hp (by simp)
            · exact hgrow1
            · exact hgrow2 _ hc1
            · simp only [List.length_append, List.length_singleton]
              omega
    · -- dfsDirs
      intro st c d dirs res hinv hc hdsub hrun
      rw [dfsDirs.eq_def] at hrun
      dsimp only at hrun
      cases dirs with
      | nil =>
        cases hrun
        exact ⟨hinv, fun k hk => hk, le_refl _⟩
      | cons dir rest =>
        dsimp only at hrun
        by_cases hf : st.found = true
        · rw [if_pos hf] at hrun
          cases hrun
          exact ⟨hinv, fun k hk => hk, le_refl _⟩
        · rw [if_neg hf] at hrun
          by_cases hvu : (isValid ⟨c.row + dir.row, c.col + dir.col⟩ dims &&
              !(coordToString ⟨c.row + dir.row, c.col + dir.col⟩ ∈ st.visited)) = true
          · rw [if_pos hvu] at hrun
            simp only [Bool.and_eq_true, Bool.not_eq_true', decide_eq_false_iff_not] at hvu
            obtain ⟨hval, hnew⟩ := hvu
            have hnmem : coordToString ⟨c.row + dir.row, c.col + dir.col⟩ ∉ st.visited := by
              simpa using hnew
            have hinvp := @dfsInv_setpar _ _ _ _ _ (coordToString c) hinv hnmem
            cases hrec : dfsRec dims (coordToString goal) fuel
                { st with
                    parentMap := mset st.parentMap
                      (coordToString ⟨c.row + dir.row, c.col + dir.col⟩) (coordToString c) }
                ⟨c.row + dir.row, c.col + dir.col⟩ (d + 1) with
            | none =>
              rw [hrec] at hrun
              exact absurd hrun (by simp)
            | some st2 =>
              rw [hrec] at hrun
              obtain ⟨lc, hlc, hlcv, hlcn⟩ := hinv.chains _ hc
              have hpre1 : DfsPre dims start
                  { st with
                      parentMap := mset st.parentMap
                        (coordToString ⟨c.row + dir.row, c.col + dir.col⟩) (coordToString c) }
                  ⟨c.row + dir.row, c.col + dir.col⟩ := by
                constructor
                · refine ⟨lc ++ [coordToString ⟨c.row + dir.row, c.col + dir.col⟩],
                    Chain.step (mset_self _ _ _) ?_ (hlc.mono ?_), ?_, ?_⟩
                  · rw [stringToCoord_coordToString, stringToCoord_coordToString]
                    exact adjStep_of_dir (hdsub dir (List.mem_cons_self _ _))
                  · intro x hx
                    exact mset_other _ _ (fun hxe => hnmem (hxe ▸ hlcv x hx))
                  · intro x hx
                    rcases List.mem_append.mp hx with hx | hx
                    · exact Or.inl (hlcv x hx)
                    · simp only [List.mem_singleton] at hx
                      exact Or.inr hx
                  · simp only [List.nodup_append, List.nodup_singleton]
                    exact ⟨hlcn, by simp, by
                      intro x hx hx2
                      simp only [List.mem_singleton] at hx2
                      exact hnmem (hx2 ▸ hlcv x hx)⟩
                · exact Or.inr ⟨⟨c.row + dir.row, c.col + dir.col⟩, hval, rfl⟩
                · exact hnmem
              have hpart1 := ih1 _ ⟨c.row + dir.row, c.col + dir.col⟩ (d + 1) st2 hinvp hpre1
                (by simpa using hf) hrec
              obtain ⟨hinv2, hgrow2, hnext2, hsteps2⟩ := hpart1
              have hpart2 := ih2 st2 c d rest res hinv2 (hgrow2 _ hc)
                (fun x hx => hdsub x (List.mem_cons_of_mem _ hx)) hrun
              obtain ⟨hinvr, hgrowr, hstepsr⟩ := hpart2
              exact ⟨hinvr, fun k hk => hgrowr k (hgrow2 k hk), by
                dsimp only at hsteps2
                omega⟩
          · rw [if_neg hvu] at hrun
            exact ih2 st c d rest res hinv hc
              (fun x hx => hdsub x (List.mem_cons_of_mem _ hx)) hrun

/-- The initial DFS state satisfies the invariant. -/
theorem dfsInv_init (dims : GridDimensions) (start goal : Coordinate) :
    DfsInv dims start goal
      { steps := [], visited := [], parentMap := fun _ => none,
        recursionStack := [], found := false } := by
  constructor <;> simp

/-- The initial DFS call on `start` satisfies the precondition. -/
theorem dfsPre_init (dims : GridDimensions) (start : Coordinate) :
    DfsPre dims start
      { steps := [], visited := [], parentMap := fun _ => none,
        recursionStack := [], found := false } start := by
  refine ⟨⟨[coordToString start], Chain.base rfl, ?_, by simp⟩, Or.inl rfl, by simp⟩
  intro x hx
  simp only [List.mem_singleton] at hx
  exact Or.inr hx

/-- Fuel sufficiency for the DFS recursion: with the stated fuel
budgets (driven by the number of unvisited valid cells) both mutual
functions return `some`. -/
theorem dfs_fuel (dims : GridDimensions) (start goal : Coordinate) : ∀ fuel : Nat,
    (∀ (st : DfsState) (c : Coordinate) (d : Int),
      DfsInv dims start goal st → DfsPre dims start st c → st.found = false →
      ((isValid c dims = true ∧ 5 * unvisitedCount dims st.visited + 1 ≤ fuel) ∨
        5 * unvisitedCount dims st.visited + 6 ≤ fuel) →
      (dfsRec dims (coordToString goal) fuel st c d).isSome = true) ∧
    (∀ (st : DfsState) (c : Coordinate) (d : Int) (dirs : List Coordinate),
      DfsInv dims start goal st → coordToString c ∈ st.visited →
      (∀ x ∈ dirs, x ∈ DIRECTIONS) →
      5 * unvisitedCount dims st.visited + dirs.length + 1 ≤ fuel →
      (dfsDirs dims (coordToString goal) fuel st c (coordToString c) d dirs).isSome = true) := by
  intro fuel
  induction fuel with
  | zero =>
    constructor
    · intro st c d _ _ _ hfuel
      rcases hfuel with ⟨_, h⟩ | h <;> omega
    · intro st c d dirs _ _ _ hfuel
      omega
  | succ fuel ih =>
    obtain ⟨ih1, ih2⟩ := ih
    constructor
    · -- dfsRec
      intro st c d hinv hpre hnf hfuel
      rw [dfsRec]
      rw [if_neg (by simp [hnf])]
      have hinv1 := dfsInv_entry (d := d) hinv hpre
      have hU1 : unvisitedCount dims (setAdd st.visited (coordToString c)) ≤
          unvisitedCount dims st.visited :=
        unvisitedCount_mono dims (fun k hk => mem_setAdd_of_mem _ hk)
      by_cases hg : coordToString c = coordToString goal
      · rw [if_pos hg]
        have hk : coordToString goal ∈ setAdd st.visited (coordToString c) := by
          rw [← hg]; exact mem_setAdd_self _ _
        obtain ⟨l, _, hrp⟩ := dfsInv_reconstruct hinv1 hk
        rw [hrp]
        simp
      · rw [if_neg hg]
        have hB := ih2
          { st with
              steps := st.steps ++
                [{ visited := setAdd st.visited (coordToString c),
                   frontier := setAdd st.recursionStack (coordToString c),
                   current := some c, depth := some d }],
              visited := setAdd st.visited (coordToString c),
              recursionStack := setAdd st.recursionStack (coordToString c) }
          c d DIRECTIONS hinv1 (mem_setAdd_self _ _) (fun x hx => hx) ?_
        · obtain ⟨res, hres⟩ := Option.isSome_iff_exists.mp hB
          rw [hres]
          rcases res with ⟨st2, early⟩
          cases early <;> simp
        · show 5 * unvisitedCount dims (setAdd st.visited (coordToString c)) +
            DIRECTIONS.length + 1 ≤ fuel
          rcases hfuel with ⟨hval, h1⟩ | h6
          · have hdec : unvisitedCount dims (setAdd st.visited (coordToString c)) + 1 ≤
                unvisitedCount dims st.visited :=
              unvisitedCount_decrease dims (fun k hk => mem_setAdd_of_mem _ hk) hval
                hpre.unvis (mem_setAdd_self _ _)
            simp only [DIRECTIONS, List.length_cons, List.length_nil]
            omega
          · simp only [DIRECTIONS, List.length_cons, List.length_nil]
            omega
    · -- dfsDirs
      intro st c d dirs hinv hc hdsub hfuel
      rw [dfsDirs.eq_def]
      dsimp only
      cases dirs with
      | nil => simp
      | cons dir rest =>
        dsimp only
        by_cases hf : st.found = true
        · rw [if_pos hf]; simp
        · rw [if_neg hf]
          by_cases hvu : (isValid ⟨c.row + dir.row, c.col + dir.col⟩ dims &&
              !(coordToString ⟨c.row + dir.row, c.col + dir.col⟩ ∈ st.visited)) = true
          · rw [if_pos hvu]
            simp only [Bool.and_eq_true, Bool.not_eq_true', decide_eq_false_iff_not] at hvu
            obtain ⟨hval, hnew⟩ := hvu
            have hnmem : coordToString ⟨c.row + dir.row, c.col + dir.col⟩ ∉ st.visited := by
              simpa using hnew
            have hinvp := @dfsInv_setpar _ _ _ _ _ (coordToString c) hinv hnmem
            obtain ⟨lc, hlc, hlcv, hlcn⟩ := hinv.chains _ hc
            have hpre1 : DfsPre dims start
                { st with
                    parentMap := mset st.parentMap
                      (coordToString ⟨c.row + dir.row, c.col + dir.col⟩) (coordToString c) }
                ⟨c.row + dir.row, c.col + dir.col⟩ := by
              constructor
              · refine ⟨lc ++ [coordToString ⟨c.row + dir.row, c.col + dir.col⟩],
                  Chain.step (mset_self _ _ _) ?_ (hlc.mono ?_), ?_, ?_⟩
                · rw [stringToCoord_coordToString, stringToCoord_coordToString]
                  exact adjStep_of_dir (hdsub dir (List.mem_cons_self _ _))
                · intro x hx
                  exact mset_other _ _ (fun hxe => hnmem (hxe ▸ hlcv x hx))
                · intro x hx
                  rcases List.mem_append.mp hx with hx | hx
                  · exact Or.inl (hlcv x hx)
                  · simp only [List.mem_singleton] at hx
                    exact Or.inr hx
                · simp only [List.nodup_append, List.nodup_singleton]
                  exact ⟨hlcn, by simp, by
                    intro x hx hx2
                    simp only [List.mem_singleton] at hx2
                    exact hnmem (hx2 ▸ hlcv x hx)⟩
              · exact Or.inr ⟨⟨c.row + dir.row, c.col + dir.col⟩, hval, rfl⟩
              · exact hnmem
            have hA := ih1
              { st with
                  parentMap := mset st.parentMap
                    (coordToString ⟨c.row + dir.row, c.col + dir.col⟩) (coordToString c) }
              ⟨c.row + dir.row, c.col + dir.col⟩ (d + 1) hinvp hpre1 (by simpa using hf)
              (Or.inl ⟨hval, by
                show 5 * unvisitedCount dims st.visited + 1 ≤ fuel
                simp only [List.length_cons] at hfuel
                omega⟩)
            obtain ⟨st2, hrec⟩ := Option.isSome_iff_exists.mp hA
            rw [hrec]
            have hm := (dfs_main dims start goal fuel).1 _ _ _ _ hinvp hpre1
              (by simpa using hf) hrec
            obtain ⟨hinv2, hgrow2, hnext2, _⟩ := hm
            have hdec : unvisitedCount dims st2.visited + 1 ≤
                unvisitedCount dims st.visited :=
              unvisitedCount_decrease dims (fun k hk => hgrow2 k hk) hval hnmem hnext2
            exact ih2 st2 c d rest hinv2 (hgrow2 _ hc)
              (fun x hx => hdsub x (List.mem_cons_of_mem _ hx))
              (by simp only [List.length_cons] at hfuel; omega)
          · rw [if_neg hvu]
            exact ih2 st c d rest hinv hc
              (fun x hx => hdsub x (List.mem_cons_of_mem _ hx))
              (by simp only [List.length_cons] at hfuel; omega)

/-- `runDFSRecursive` always terminates with a trace. -/
theorem runDFSRecursive_isSome (dims : GridDimensions) (start goal : Coordinate) :
    (runDFSRecursive dims start goal).isSome = true := by
  rw [runDFSRecursive]
  have hA := (dfs_fuel dims start goal (dfsFuel dims)).1
    { steps := [], visited := [], parentMap := fun _ => none,
      recursionStack := [], found := false }
    start 0 (dfsInv_init dims start goal) (dfsPre_init dims start) rfl
    (Or.inr (by
      show 5 * unvisitedCount dims [] + 6 ≤ dfsFuel dims
      have := unvisitedCount_le dims []
      unfold dfsFuel
      omega))
  obtain ⟨out, hout⟩ := Option.isSome_iff_exists.mp hA
  rw [hout]
  simp

/-- Every trace of `runDFSRecursive` is nonempty, every snapshot shows
a frontier inside the visited set, and every recorded path runs from
start to goal with orthogonal unit steps. -/
theorem runDFSRecursive_out (dims : GridDimensions) (start goal : Coordinate)
    (t : List AlgoStep) (h : runDFSRecursive dims start goal = some t) :
    (∀ s ∈ t, (∀ k ∈ s.frontier, k ∈ s.visited) ∧
      ∀ p, s.path = some p → pathOk start goal p) ∧ 1 ≤ t.length := by
  rw [runDFSRecursive] at h
  cases hrec : dfsRec dims (coordToString goal) (dfsFuel dims)
      { steps := [], visited := [], parentMap := fun _ => none,
        recursionStack := [], found := false }
      start 0 with
  | none => rw [hrec] at h; exact absurd h (by simp)
  | some out =>
    rw [hrec] at h
    simp only [Option.some.injEq] at h
    subst h
    have hm := (dfs_main dims start goal (dfsFuel dims)).1 _ _ 0 _
      (dfsInv_init dims start goal) (dfsPre_init dims start) rfl hrec
    obtain ⟨hinv, _, _, hlen⟩ := hm
    refine ⟨fun s hs => ⟨hinv.steps_sub s hs, hinv.steps_path s hs⟩, ?_⟩
    simpa using hlen

/-! ## Dijkstra / A* invariants

The two drivers share `pqLoop`; everything below is parametrised by
the enqueue-priority function through an abstract heuristic `hk` on
keys (identically `0` for Dijkstra, the Manhattan distance to the goal
for A*), required to be `1`-Lipschitz with respect to the Manhattan
metric. -/

theorem setAdd_of_mem {s : List String} {k : String} (h : k ∈ s) : setAdd s k = s := by
  unfold setAdd
  rw [if_pos h]

theorem setDelete_of_not_mem {s : List String} {k : String} (h : k ∉ s) :
    setDelete s k = s :=
  List.erase_of_not_mem h

theorem mem_setDelete_iff {s : List String} {k x : String} (hnd : s.Nodup) :
    x ∈ setDelete s k ↔ x ∈ s ∧ x ≠ k := by
  unfold setDelete
  rw [List.Nodup.mem_erase_iff hnd]
  tauto

theorem setDelete_nodup {s : List String} (k : String) (h : s.Nodup) :
    (setDelete s k).Nodup :=
  h.erase k

theorem foldl_fixed {α σ : Type} {f : σ → α → σ} {s : σ} :
    ∀ {l : List α}, (∀ x ∈ l, f s x = s) → List.foldl f s l = s := by
  intro l
  induction l with
  | nil => intro _; rfl
  | cons a rest ih =>
    intro h
    rw [List.foldl_cons, h a (List.mem_cons_self _ _)]
    exact ih (fun x hx => h x (List.mem_cons_of_mem _ hx))

theorem prioAt_cons_zero {T : Type} {top : PQItem T} {rest : List (PQItem T)} :
    PriorityQueue.prioAt (top :: rest) 0 = top.priority := rfl

theorem dir_ne_self {current dir : Coordinate} (hdir : dir ∈ DIRECTIONS) :
    (⟨current.row + dir.row, current.col + dir.col⟩ : Coordinate) ≠ current := by
  fin_cases hdir <;>
    (intro h
     have h1 := congrArg Coordinate.row h
     have h2 := congrArg Coordinate.col h
     dsimp only at h1 h2
     omega)

theorem key_decode {dims : GridDimensions} {start : Coordinate} {k : String}
    (h : k = coordToString start ∨ ∃ c, isValid c dims = true ∧ k = coordToString c) :
    coordToString (stringToCoord k) = k := by
  rcases h with rfl | ⟨c, _, rfl⟩ <;> rw [stringToCoord_coordToString]

/-- The initial `pqInit` configuration, as an exceptional case of the
heap-priority invariants (`runAStar` enqueues the start key with
priority `0`, not `heuristic(start)`). -/
def pqEXC (start : Coordinate) (st : PqState) : Prop :=
  st.pq.heap = [⟨coordToString start, 0⟩] ∧ st.visited = [] ∧
    st.distances = mset (fun _ => none) (coordToString start) 0

/-- Termination potential of the Dijkstra / A* loop. -/
def pqPot (dims : GridDimensions) (start : Coordinate) (st : PqState) : Nat :=
  st.pq.heap.length + 5 * unvisitedCount dims st.visited +
    (if coordToString start ∈ st.visited then 0 else 5)

/-- The loop-head invariant of `pqLoop`, shared by `runDijkstra`
(`hk = 0`) and `runAStar` (`hk =` Manhattan distance to goal). -/
structure PqInv (dims : GridDimensions) (start goal : Coordinate) (hk : String → Nat)
    (st : PqState) : Prop where
  visN : st.visited.Nodup
  visK : ∀ k ∈ st.visited,
    k = coordToString start ∨ ∃ c, isValid c dims = true ∧ k = coordToString c
  hW : ∀ v ∈ st.visited, ∃ dv, st.distances v = some dv ∧
    ∀ it ∈ st.pq.heap, (dv + hk v : Int) ≤ it.priority
  hX : ∀ c : Coordinate, coordToString c ∈ st.visited → ∀ dir ∈ DIRECTIONS,
    isValid ⟨c.row + dir.row, c.col + dir.col⟩ dims = true →
    ∃ dv dc, st.distances (coordToString ⟨c.row + dir.row, c.col + dir.col⟩) = some dv ∧
      st.distances (coordToString c) = some dc ∧ dv ≤ dc + 1
  hI3 : (∀ k dv, st.distances k = some dv → k ∉ st.visited →
    (⟨k, (dv + hk k : Int)⟩ : PQItem String) ∈ st.pq.heap) ∨ pqEXC start st
  hI4 : (∀ it ∈ st.pq.heap, ∃ dv, st.distances it.item = some dv ∧
    (dv + hk it.item : Int) ≤ it.priority) ∨ pqEXC start st
  hCH : ∀ k dv, st.distances k = some dv → ∃ l, Chain st.parentMap (coordToString start) k l ∧
    (∀ x ∈ l, x ∈ st.visited ∨ x = k) ∧ l.Nodup ∧ l.length = dv + 1
  hD0 : st.distances (coordToString start) = some 0
  hPS : st.parentMap (coordToString start) = none
  hHK : ∀ it ∈ st.pq.heap, it.item = coordToString start ∨
    ∃ c, isValid c dims = true ∧ it.item = coordToString c
  hDK : ∀ k dv, st.distances k = some dv → k = coordToString start ∨
    ∃ c, isValid c dims = true ∧ k = coordToString c
  hHp : PriorityQueue.IsHeap st.pq.heap
  hFR : ∀ k ∈ st.frontier, k ∉ st.visited
  frN : st.frontier.Nodup
  hM : ∀ (c : Coordinate) (dv : Nat), st.distances (coordToString c) = some dv →
    manh start c ≤ dv
  hL : isValid start dims = true → ∀ c : Coordinate, coordToString c ∈ st.visited →
    st.distances (coordToString c) = some (manh start c)
  hSV : st.visited = [] → pqEXC start st
  hS1 : st.visited ≠ [] → coordToString start ∈ st.visited
  steps_dis : ∀ s ∈ st.steps, ∀ k ∈ s.frontier, k ∉ s.visited
  steps_path : ∀ s ∈ st.steps, ∀ p, s.path = some p → pathOk start goal p

/-- The mid-relaxation invariant, holding throughout the
`pqRelax` fold of one continuing `pqLoop` iteration that popped the
fresh key `currStr` with settled distance `D`. -/
structure PqMid (dims : GridDimensions) (start : Coordinate) (hk : String → Nat)
    (currStr : String) (D : Nat) (st : PqState) : Prop where
  dc : st.distances currStr = some D
  curV : currStr ∈ st.visited
  startV : coordToString start ∈ st.visited
  hW : ∀ v ∈ st.visited, ∃ dv, st.distances v = some dv ∧ (dv + hk v : Int) ≤ D + hk currStr ∧
    ∀ it ∈ st.pq.heap, (dv + hk v : Int) ≤ it.priority
  hX : ∀ c : Coordinate, coordToString c ∈ st.visited → coordToString c ≠ currStr →
    ∀ dir ∈ DIRECTIONS,
    isValid ⟨c.row + dir.row, c.col + dir.col⟩ dims = true →
    ∃ dv dc2, st.distances (coordToString ⟨c.row + dir.row, c.col + dir.col⟩) = some dv ∧
      st.distances (coordToString c) = some dc2 ∧ dv ≤ dc2 + 1
  hI3 : ∀ k dv, st.distances k = some dv → k ∉ st.visited →
    (⟨k, (dv + hk k : Int)⟩ : PQItem String) ∈ st.pq.heap
  hI4 : ∀ it ∈ st.pq.heap, ∃ dv, st.distances it.item = some dv ∧
    (dv + hk it.item : Int) ≤ it.priority
  hCH : ∀ k dv, st.distances k = some dv → ∃ l, Chain st.parentMap (coordToString start) k l ∧
    (∀ x ∈ l, x ∈ st.visited ∨ x = k) ∧ l.Nodup ∧ l.length = dv + 1
  hD0 : st.distances (coordToString start) = some 0
  hPS : st.parentMap (coordToString start) = none
  hHK : ∀ it ∈ st.pq.heap, it.item = coordToString start ∨
    ∃ c, isValid c dims = true ∧ it.item = coordToString c
  hDK : ∀ k dv, st.distances k = some dv → k = coordToString start ∨
    ∃ c, isValid c dims = true ∧ k = coordToString c
  hHp : PriorityQueue.IsHeap st.pq.heap
  hFR : ∀ k ∈ st.frontier, k ∉ st.visited
  frN : st.frontier.Nodup
  hM : ∀ (c : Coordinate) (dv : Nat), st.distances (coordToString c) = some dv →
    manh start c ≤ dv
  hL : isValid start dims = true → ∀ c : Coordinate, coordToString c ∈ st.visited →
    st.distances (coordToString c) = some (manh start c)

/-- Notation-free abbreviation used throughout the relaxation lemmas. -/
def nxOf (current dir : Coordinate) : Coordinate :=
  ⟨current.row + dir.row, current.col + dir.col⟩

theorem pqRelax_eq_of_improve {dims : GridDimensions}
    {prio : Coordinate → Nat → Int} {current : Coordinate} {currStr : String} {D : Nat}
    {st : PqState} {dir : Coordinate}
    (hdc : st.distances currStr = some D)
    (hval : isValid (nxOf current dir) dims = true)
    (himp : ∀ dv, st.distances (coordToString (nxOf current dir)) = some dv → D + 1 < dv) :
    pqRelax dims prio current currStr st dir =
      { st with
          distances := mset st.distances (coordToString (nxOf current dir)) (D + 1),
          parentMap := mset st.parentMap (coordToString (nxOf current dir)) currStr,
          pq := st.pq.enqueue (coordToString (nxOf current dir)) (prio (nxOf current dir) (D + 1)),
          frontier := setAdd st.frontier (coordToString (nxOf current dir)) } := by
  unfold nxOf at *
  simp only [pqRelax]
  rw [if_pos hval, hdc]
  simp only [Option.getD_some]
  cases hdist : st.distances (coordToString ⟨current.row + dir.row, current.col + dir.col⟩) with
  | none => rfl
  | some dvold =>
    have := himp dvold hdist
    simp only [decide_eq_true this]
    rfl

theorem pqRelax_eq_of_skip {dims : GridDimensions}
    {prio : Coordinate → Nat → Int} {current : Coordinate} {currStr : String} {D : Nat}
    {st : PqState} {dir : Coordinate}
    (hdc : st.distances currStr = some D)
    {dvold : Nat}
    (hdist : st.distances (coordToString (nxOf current dir)) = some dvold)
    (hle : dvold ≤ D + 1) :
    pqRelax dims prio current currStr st dir = st := by
  unfold nxOf at *
  simp only [pqRelax]
  split
  · rw [hdc]
    simp only [Option.getD_some]
    rw [hdist]
    have hd : decide (D + 1 < dvold) = false := by
      rw [decide_eq_false_iff_not]
      omega
    simp only [hd]
    rfl
  · rfl

theorem pqRelax_eq_of_invalid {dims : GridDimensions}
    {prio : Coordinate → Nat → Int} {current : Coordinate} {currStr : String}
    {st : PqState} {dir : Coordinate}
    (hval : ¬ isValid (nxOf current dir) dims = true) :
    pqRelax dims prio current currStr st dir = st := by
  unfold nxOf at *
  simp only [pqRelax]
  rw [if_neg hval]

theorem pqRelax_mid_improve {dims : GridDimensions} {start : Coordinate} {hk : String → Nat}
    {prio : Coordinate → Nat → Int} {current : Coordinate} {currStr : String} {D : Nat}
    (hprio : ∀ (c : Coordinate) (g : Nat), prio c g = (g : Int) + (hk (coordToString c) : Int))
    (hlip : ∀ a b : Coordinate, hk (coordToString a) ≤ hk (coordToString b) + manh a b)
    (hcur : currStr = coordToString current)
    {st : PqState} {dir : Coordinate} (hdir : dir ∈ DIRECTIONS)
    (hmid : PqMid dims start hk currStr D st)
    (hval : isValid (nxOf current dir) dims = true)
    (hbig : ∀ dv, st.distances (coordToString (nxOf current dir)) = some dv → D + 1 < dv) :
    PqMid dims start hk currStr D (pqRelax dims prio current currStr st dir) ∧
      (pqRelax dims prio current currStr st dir).visited = st.visited ∧
      (pqRelax dims prio current currStr st dir).steps = st.steps ∧
      (pqRelax dims prio current currStr st dir).pq.heap.length ≤ st.pq.heap.length + 1 ∧
      (∀ k dv, st.distances k = some dv →
        ∃ dv2, (pqRelax dims prio current currStr st dir).distances k = some dv2 ∧ dv2 ≤ dv) ∧
      (isValid (nxOf current dir) dims = true →
        ∃ dv, (pqRelax dims prio current currStr st dir).distances
          (coordToString (nxOf current dir)) = some dv ∧ dv ≤ D + 1) := by
  have hadj : adjStep current (nxOf current dir) := by
    unfold nxOf
    exact adjStep_of_dir hdir
  have hm1 : manh current (nxOf current dir) = 1 := adjStep_manh hadj
  have hlipc : hk currStr ≤ hk (coordToString (nxOf current dir)) + 1 := by
    rw [hcur]
    have := hlip current (nxOf current dir)
    rwa [hm1] at this
  have hnec : coordToString (nxOf current dir) ≠ currStr := by
    rw [hcur]
    intro he
    have hne : nxOf current dir ≠ current := by
      unfold nxOf
      exact dir_ne_self hdir
    exact hne (coordToString_injective he)
  have hnxvis : coordToString (nxOf current dir) ∉ st.visited := by
    intro hin
    obtain ⟨dv, hdv, hbound, _⟩ := hmid.hW _ hin
    have := hbig dv hdv
    omega
  have hnxstart : coordToString (nxOf current dir) ≠ coordToString start := by
    intro he
    have h0 : st.distances (coordToString (nxOf current dir)) = some 0 := by
      rw [he]
      exact hmid.hD0
    have := hbig 0 h0
    omega
  rw [pqRelax_eq_of_improve hmid.dc hval hbig]
  refine ⟨⟨?_, hmid.curV, hmid.startV, ?_, ?_, ?_, ?_, ?_, ?_, ?_, ?_, ?_, ?_, ?_, ?_, ?_, ?_⟩,
    rfl, rfl, ?_, ?_, ?_⟩
  · -- dc
    exact (mset_other _ _ (Ne.symm hnec)).trans hmid.dc
  · -- hW
    dsimp only
    intro v hv
    obtain ⟨dv, hdv, hb, hh⟩ := hmid.hW v hv
    have hvne : v ≠ coordToString (nxOf current dir) := fun he => hnxvis (he ▸ hv)
    refine ⟨dv, (mset_other _ _ hvne).trans hdv, hb, ?_⟩
    intro it hit
    rcases (PriorityQueue.enqueue_mem _ _ _ _).mp hit with hit | rfl
    · exact hh it hit
    · dsimp only
      rw [hprio]
      have h1 : dv + hk v ≤ D + hk currStr := by omega
      have h2 : hk currStr ≤ hk (coordToString (nxOf current dir)) + 1 := hlipc
      push_cast
      omega
  · -- hX
    dsimp only
    intro c hc hcne dir2 hdir2 hval2
    obtain ⟨dv, dc2, h1, h2, h3⟩ := hmid.hX c hc hcne dir2 hdir2 hval2
    have hcnenx : coordToString c ≠ coordToString (nxOf current dir) :=
      fun he => hnxvis (he ▸ hc)
    by_cases hnb : coordToString (⟨c.row + dir2.row, c.col + dir2.col⟩ : Coordinate) =
        coordToString (nxOf current dir)
    · refine ⟨D + 1, dc2, ?_, ?_, ?_⟩
      · rw [hnb]
        exact mset_self _ _ _
      · exact (mset_other _ _ hcnenx).trans h2
      · rw [hnb] at h1
        have := hbig dv h1
        omega
    · exact ⟨dv, dc2, (mset_other _ _ hnb).trans h1, (mset_other _ _ hcnenx).trans h2, h3⟩
  · -- hI3
    dsimp only
    intro k dv hkd hknv
    by_cases hke : k = coordToString (nxOf current dir)
    · subst hke
      rw [mset_self] at hkd
      cases hkd
      apply (PriorityQueue.enqueue_mem _ _ _ _).mpr
      right
      rw [hprio]
    · rw [mset_other _ _ hke] at hkd
      exact (PriorityQueue.enqueue_mem _ _ _ _).mpr (Or.inl (hmid.hI3 k dv hkd hknv))
  · -- hI4
    dsimp only
    intro it hit
    rcases (PriorityQueue.enqueue_mem _ _ _ _).mp hit with hit | rfl
    · obtain ⟨dv, hdv, hle⟩ := hmid.hI4 it hit
      by_cases hke : it.item = coordToString (nxOf current dir)
      · have := hbig dv (hke ▸ hdv)
        refine ⟨D + 1, ?_, ?_⟩
        · rw [hke]
          exact mset_self _ _ _
        · push_cast at *
          omega
      · exact ⟨dv, (mset_other _ _ hke).trans hdv, hle⟩
    · dsimp only
      refine ⟨D + 1, mset_self _ _ _, ?_⟩
      rw [hprio]
  · -- hCH
    dsimp only
    intro k dv hkd
    by_cases hke : k = coordToString (nxOf current dir)
    · subst hke
      rw [mset_self] at hkd
      cases hkd
      obtain ⟨lc, hlc, hlcv, hlcn, hlen⟩ := hmid.hCH currStr D hmid.dc
      have helem : ∀ x ∈ lc, x ∈ st.visited := by
        intro x hx
        rcases hlcv x hx with hx2 | rfl
        · exact hx2
        · exact hmid.curV
      have hnxl : coordToString (nxOf current dir) ∉ lc :=
        fun hin => hnxvis (helem _ hin)
      refine ⟨lc ++ [coordToString (nxOf current dir)],
        Chain.step (mset_self _ _ _) ?_ (hlc.mono ?_), ?_, ?_, ?_⟩
      · rw [stringToCoord_coordToString, hcur, stringToCoord_coordToString]
        exact hadj
      · intro x hx
        exact mset_other _ _ (fun he => hnxl (he ▸ hx))
      · intro x hx
        rcases List.mem_append.mp hx with hx | hx
        · exact Or.inl (helem x hx)
        · simp only [List.mem_singleton] at hx
          exact Or.inr hx
      · simp only [List.nodup_append, List.nodup_singleton]
        exact ⟨hlcn, by simp, by
          intro x hx hx2
          simp only [List.mem_singleton] at hx2
          exact hnxl (hx2 ▸ hx)⟩
      · simp only [List.length_append, List.length_singleton]
        omega
    · rw [mset_other _ _ hke] at hkd
      obtain ⟨lc, hlc, hlcv, hlcn, hlen⟩ := hmid.hCH k dv hkd
      have hnxl : coordToString (nxOf current dir) ∉ lc := by
        intro hin
        rcases hlcv _ hin with hx | hx
        · exact hnxvis hx
        · exact hke hx.symm
      exact ⟨lc, hlc.mono (fun x hx => mset_other _ _ (fun he => hnxl (he ▸ hx))),
        hlcv, hlcn, hlen⟩
  · -- hD0
    exact (mset_other _ _ (Ne.symm hnxstart)).trans hmid.hD0
  · -- hPS
    exact (mset_other _ _ (Ne.symm hnxstart)).trans hmid.hPS
  · -- hHK
    intro it hit
    rcases (PriorityQueue.enqueue_mem _ _ _ _).mp hit with hit | rfl
    · exact hmid.hHK it hit
    · exact Or.inr ⟨nxOf current dir, hval, rfl⟩
  · -- hDK
    dsimp only
    intro k dv hkd
    by_cases hke : k = coordToString (nxOf current dir)
    · exact Or.inr ⟨nxOf current dir, hval, hke⟩
    · rw [mset_other _ _ hke] at hkd
      exact hmid.hDK k dv hkd
  · -- hHp
    exact PriorityQueue.enqueue_heap _ _ _ hmid.hHp
  · -- hFR
    dsimp only
    intro k hkf
    rcases mem_setAdd.mp hkf with hkf | rfl
    · exact hmid.hFR k hkf
    · exact hnxvis
  · -- frN
    exact setAdd_nodup _ hmid.frN
  · -- hM
    dsimp only
    intro c dv hcd
    by_cases hke : coordToString c = coordToString (nxOf current dir)
    · rw [hke, mset_self] at hcd
      cases hcd
      have hc : c = nxOf current dir := coordToString_injective hke
      subst hc
      have hmc : manh start current ≤ D := by
        apply hmid.hM
        rw [← hcur]
        exact hmid.dc
      have := manh_triangle start current (nxOf current dir)
      omega
    · rw [mset_other _ _ hke] at hcd
      exact hmid.hM c dv hcd
  · -- hL
    dsimp only
    intro hvs c hc
    have hke : coordToString c ≠ coordToString (nxOf current dir) :=
      fun he => hnxvis (he ▸ hc)
    rw [mset_other _ _ hke]
    exact hmid.hL hvs c hc
  · -- heap length
    dsimp only
    rw [PriorityQueue.enqueue_length]
  · -- persistence
    dsimp only
    intro k dv hkd
    by_cases hke : k = coordToString (nxOf current dir)
    · subst hke
      have := hbig dv hkd
      exact ⟨D + 1, mset_self _ _ _, by omega⟩
    · exact ⟨dv, (mset_other _ _ hke).trans hkd, le_refl _⟩
  · -- processed-direction postcondition
    dsimp only
    intro _
    exact ⟨D + 1, mset_self _ _ _, le_refl _⟩

theorem pqRelax_mid {dims : GridDimensions} {start : Coordinate} {hk : String → Nat}
    {prio : Coordinate → Nat → Int} {current : Coordinate} {currStr : String} {D : Nat}
    (hprio : ∀ (c : Coordinate) (g : Nat), prio c g = (g : Int) + (hk (coordToString c) : Int))
    (hlip : ∀ a b : Coordinate, hk (coordToString a) ≤ hk (coordToString b) + manh a b)
    (hcur : currStr = coordToString current)
    {st : PqState} {dir : Coordinate} (hdir : dir ∈ DIRECTIONS)
    (hmid : PqMid dims start hk currStr D st) :
    PqMid dims start hk currStr D (pqRelax dims prio current currStr st dir) ∧
      (pqRelax dims prio current currStr st dir).visited = st.visited ∧
      (pqRelax dims prio current currStr st dir).steps = st.steps ∧
      (pqRelax dims prio current currStr st dir).pq.heap.length ≤ st.pq.heap.length + 1 ∧
      (∀ k dv, st.distances k = some dv →
        ∃ dv2, (pqRelax dims prio current currStr st dir).distances k = some dv2 ∧ dv2 ≤ dv) ∧
      (isValid (nxOf current dir) dims = true →
        ∃ dv, (pqRelax dims prio current currStr st dir).distances
          (coordToString (nxOf current dir)) = some dv ∧ dv ≤ D + 1) := by
  by_cases hval : isValid (nxOf current dir) dims = true
  · cases hdist : st.distances (coordToString (nxOf current dir)) with
    | some dvold =>
      by_cases himp : D + 1 < dvold
      · exact pqRelax_mid_improve hprio hlip hcur hdir hmid hval (by
          intro dv h
          rw [hdist] at h
          cases h
          exact himp)
      · rw [pqRelax_eq_of_skip hmid.dc hdist (by omega)]
        exact ⟨hmid, rfl, rfl, by omega, fun k dv h => ⟨dv, h, le_refl _⟩,
          fun _ => ⟨dvold, hdist, by omega⟩⟩
    | none =>
      exact pqRelax_mid_improve hprio hlip hcur hdir hmid hval (by
        intro dv h
        rw [hdist] at h
        exact absurd h (by simp))
  · rw [pqRelax_eq_of_invalid hval]
    exact ⟨hmid, rfl, rfl, by omega, fun k dv h => ⟨dv, h, le_refl _⟩,
      fun h => absurd h hval⟩

theorem pqRelax_fold {dims : GridDimensions} {start : Coordinate} {hk : String → Nat}
    {prio : Coordinate → Nat → Int} {current : Coordinate} {currStr : String} {D : Nat}
    (hprio : ∀ (c : Coordinate) (g : Nat), prio c g = (g : Int) + (hk (coordToString c) : Int))
    (hlip : ∀ a b : Coordinate, hk (coordToString a) ≤ hk (coordToString b) + manh a b)
    (hcur : currStr = coordToString current) :
    ∀ (dirs : List Coordinate) (st : PqState), (∀ x ∈ dirs, x ∈ DIRECTIONS) →
    PqMid dims start hk currStr D st →
    PqMid dims start hk currStr D (List.foldl (pqRelax dims prio current currStr) st dirs) ∧
      (List.foldl (pqRelax dims prio current currStr) st dirs).visited = st.visited ∧
      (List.foldl (pqRelax dims prio current currStr) st dirs).steps = st.steps ∧
      (List.foldl (pqRelax dims prio current currStr) st dirs).pq.heap.length ≤
        st.pq.heap.length + dirs.length ∧
      (∀ k dv, st.distances k = some dv → ∃ dv2,
        (List.foldl (pqRelax dims prio current currStr) st dirs).distances k = some dv2 ∧
          dv2 ≤ dv) ∧
      (∀ dir ∈ dirs, isValid (nxOf current dir) dims = true →
        ∃ dv, (List.foldl (pqRelax dims prio current currStr) st dirs).distances
          (coordToString (nxOf current dir)) = some dv ∧ dv ≤ D + 1) := by
  intro dirs
  induction dirs with
  | nil =>
    intro st _ hmid
    exact ⟨hmid, rfl, rfl, by simp, fun k dv h => ⟨dv, h, le_refl _⟩, by simp⟩
  | cons dir rest ih =>
    intro st hdirs hmid
    have h1 := pqRelax_mid hprio hlip hcur (hdirs dir (List.mem_cons_self _ _)) hmid
    obtain ⟨hm1, hv1, hs1, hl1, hp1, hpost1⟩ := h1
    have h2 := ih (pqRelax dims prio current currStr st dir)
      (fun x hx => hdirs x (List.mem_cons_of_mem _ hx)) hm1
    obtain ⟨hm2, hv2, hs2, hl2, hp2, hpost2⟩ := h2
    rw [List.foldl_cons]
    refine ⟨hm2, hv2.trans hv1, hs2.trans hs1, by
      simp only [List.length_cons]
      omega, ?_, ?_⟩
    · intro k dv h
      obtain ⟨dv2, h2, hle2⟩ := hp1 k dv h
      obtain ⟨dv3, h3, hle3⟩ := hp2 k dv2 h2
      exact ⟨dv3, h3, by omega⟩
    · intro dir2 hdir2 hval2
      rcases List.mem_cons.mp hdir2 with rfl | hdir2
      · obtain ⟨dv, hdv, hle⟩ := hpost1 hval2
        obtain ⟨dv2, hdv2, hle2⟩ := hp2 _ dv hdv
        exact ⟨dv2, hdv2, by omega⟩
      · exact hpost2 dir2 hdir2 hval2

theorem pqNeighbors_fixed {dims : GridDimensions} {prio : Coordinate → Nat → Int}
    {current : Coordinate} {currStr : String} {st : PqState} {D : Nat}
    (hdc : st.distances currStr = some D)
    (hX : ∀ dir ∈ DIRECTIONS, isValid (nxOf current dir) dims = true →
      ∃ dv, st.distances (coordToString (nxOf current dir)) = some dv ∧ dv ≤ D + 1) :
    pqNeighbors dims prio current currStr st = st := by
  unfold pqNeighbors
  apply foldl_fixed
  intro dir hdir
  by_cases hval : isValid (nxOf current dir) dims = true
  · obtain ⟨dv, h1, h2⟩ := hX dir hdir hval
    exact pqRelax_eq_of_skip hdc h1 h2
  · exact pqRelax_eq_of_invalid hval

/-- On an obstacle-free grid every unvisited valid cell `t` is
separated from a visited start by a visited/unvisited adjacent pair
lying on a geodesic from the start to `t`. -/
theorem exists_boundary {dims : GridDimensions} {start : Coordinate} {V : List String}
    (hs : isValid start dims = true) (hstart : coordToString start ∈ V) :
    ∀ (t : Coordinate), isValid t dims = true → coordToString t ∉ V →
    ∃ u w : Coordinate, isValid u dims = true ∧ isValid w dims = true ∧
      coordToString u ∈ V ∧ coordToString w ∉ V ∧ adjStep u w ∧
      manh start u + 1 + manh w t ≤ manh start t := by
  suffices H : ∀ n t, manh start t = n → isValid t dims = true → coordToString t ∉ V →
      ∃ u w : Coordinate, isValid u dims = true ∧ isValid w dims = true ∧
        coordToString u ∈ V ∧ coordToString w ∉ V ∧ adjStep u w ∧
        manh start u + 1 + manh w t ≤ manh start t by
    intro t ht hnt
    exact H (manh start t) t rfl ht hnt
  intro n
  induction n using Nat.strong_induction_on with
  | _ n ih =>
    intro t hn ht hnt
    cases n with
    | zero =>
      have : start = t := manh_eq_zero hn
      exact absurd (this ▸ hstart) hnt
    | succ m =>
      have hpos : 0 < manh start t := by omega
      have hadj := stepToward_adj hpos
      have hman := stepToward_manh hpos
      have hvalid := stepToward_valid hpos hs ht
      by_cases hmem : coordToString (stepToward start t) ∈ V
      · refine ⟨stepToward start t, t, hvalid, ht, hmem, hnt, hadj, ?_⟩
        rw [manh_self]
        omega
      · obtain ⟨u, w, h1, h2, h3, h4, h5, h6⟩ :=
          ih m (by omega) (stepToward start t) (by omega) hvalid hmem
        refine ⟨u, w, h1, h2, h3, h4, h5, ?_⟩
        have htri := manh_triangle w (stepToward start t) t
        have hone : manh (stepToward start t) t = 1 := adjStep_manh hadj
        omega

/-- One continuing iteration of `pqLoop` (pop `currStr`, snapshot,
relax the neighbours), as a function of the popped key. -/
def pqIter (dims : GridDimensions) (prio : Coordinate → Nat → Int) (st : PqState)
    (currStr : String) : PqState :=
  pqNeighbors dims prio (stringToCoord currStr) currStr
    { st with
        steps := st.steps ++
          [{ visited := setAdd st.visited currStr,
             frontier := setDelete st.frontier currStr,
             current := some (stringToCoord currStr), costMap := some st.distances }],
        pq := (st.pq.dequeue).2,
        visited := setAdd st.visited currStr,
        frontier := setDelete st.frontier currStr }

theorem pqPop_stale {dims : GridDimensions} {start goal : Coordinate} {hk : String → Nat}
    {prio : Coordinate → Nat → Int} {st : PqState} {top : PQItem String}
    {rest : List (PQItem String)}
    (hinv : PqInv dims start goal hk st)
    (hheap : st.pq.heap = top :: rest)
    (hng : top.item ≠ coordToString goal)
    (hgv : coordToString goal ∉ st.visited)
    (hcv : top.item ∈ st.visited) :
    PqInv dims start goal hk (pqIter dims prio st top.item) ∧
      coordToString goal ∉ (pqIter dims prio st top.item).visited ∧
      pqPot dims start (pqIter dims prio st top.item) < pqPot dims start st ∧
      (pqIter dims prio st top.item).steps = st.steps ++
        [{ visited := setAdd st.visited top.item,
           frontier := setDelete st.frontier top.item,
           current := some (stringToCoord top.item), costMap := some st.distances }] := by
  have htop : top ∈ st.pq.heap := by
    rw [hheap]
    exact List.mem_cons_self _ _
  have hnexc : ¬ pqEXC start st := by
    intro hexc
    rw [hexc.2.1] at hcv
    exact absurd hcv (List.not_mem_nil _)
  have hI3c := hinv.hI3.resolve_right hnexc
  obtain ⟨D, hD, hDh⟩ := hinv.hW top.item hcv
  have hsetadd : setAdd st.visited top.item = st.visited := setAdd_of_mem hcv
  have hfrnot : top.item ∉ st.frontier := fun hf => hinv.hFR _ hf hcv
  have hsetdel : setDelete st.frontier top.item = st.frontier :=
    setDelete_of_not_mem hfrnot
  have hcts : coordToString (stringToCoord top.item) = top.item :=
    key_decode (hinv.hHK top htop)
  have hXskip : ∀ dir ∈ DIRECTIONS, isValid (nxOf (stringToCoord top.item) dir) dims = true →
      ∃ dv, st.distances (coordToString (nxOf (stringToCoord top.item) dir)) = some dv ∧
        dv ≤ D + 1 := by
    intro dir hdir hval
    unfold nxOf at *
    obtain ⟨dv, dc2, h1, h2, h3⟩ := hinv.hX (stringToCoord top.item)
      (by rw [hcts]; exact hcv) dir hdir hval
    rw [hcts] at h2
    rw [hD] at h2
    cases h2
    exact ⟨dv, h1, by omega⟩
  have hfix : pqIter dims prio st top.item =
      { st with
          steps := st.steps ++
            [{ visited := setAdd st.visited top.item,
               frontier := setDelete st.frontier top.item,
               current := some (stringToCoord top.item), costMap := some st.distances }],
          pq := (st.pq.dequeue).2,
          visited := setAdd st.visited top.item,
          frontier := setDelete st.frontier top.item } := by
    unfold pqIter
    exact pqNeighbors_fixed (D := D) hD hXskip
  rw [hfix]
  have hsub : ∀ it, it ∈ (st.pq.dequeue).2.heap → it ∈ st.pq.heap := by
    intro it hit
    rw [hheap]
    exact List.mem_cons_of_mem _ (PriorityQueue.mem_of_mem_dequeue hheap hit)
  refine ⟨⟨?_, ?_, ?_, ?_, ?_, ?_, ?_, ?_, ?_, ?_, ?_, ?_, ?_, ?_, ?_, ?_, ?_, ?_, ?_, ?_⟩,
    ?_, ?_, ?_⟩
  · -- visN
    dsimp only
    rw [hsetadd]
    exact hinv.visN
  · -- visK
    dsimp only
    rw [hsetadd]
    exact hinv.visK
  · -- hW
    dsimp only
    rw [hsetadd]
    intro v hv
    obtain ⟨dv, hdv, hh⟩ := hinv.hW v hv
    exact ⟨dv, hdv, fun it hit => hh it (hsub it hit)⟩
  · -- hX
    dsimp only
    rw [hsetadd]
    exact hinv.hX
  · -- hI3
    dsimp only
    rw [hsetadd]
    left
    intro k dv hkd hknv
    have hkne : k ≠ top.item := fun he => hknv (he ▸ hcv)
    have hmem := hI3c k dv hkd hknv
    rw [hheap] at hmem
    rcases List.mem_cons.mp hmem with he | hmem
    · exact absurd (congrArg PQItem.item he) hkne
    · exact PriorityQueue.mem_dequeue_of_mem hheap hmem
  · -- hI4
    dsimp only
    left
    intro it hit
    have hI4c := hinv.hI4.resolve_right hnexc
    exact hI4c it (hsub it hit)
  · -- hCH
    dsimp only
    rw [hsetadd]
    exact hinv.hCH
  · -- hD0
    exact hinv.hD0
  · -- hPS
    exact hinv.hPS
  · -- hHK
    dsimp only
    intro it hit
    exact hinv.hHK it (hsub it hit)
  · -- hDK
    exact hinv.hDK
  · -- hHp
    dsimp only
    exact PriorityQueue.dequeue_heap_inv _ hinv.hHp
  · -- hFR
    dsimp only
    rw [hsetadd, hsetdel]
    exact hinv.hFR
  · -- frN
    dsimp only
    rw [hsetdel]
    exact hinv.frN
  · -- hM
    exact hinv.hM
  · -- hL
    dsimp only
    rw [hsetadd]
    exact hinv.hL
  · -- hSV
    dsimp only
    rw [hsetadd]
    intro hemp
    exact absurd (hemp ▸ hcv) (List.not_mem_nil _)
  · -- hS1
    dsimp only
    rw [hsetadd]
    exact hinv.hS1
  · -- steps_dis
    dsimp only
    intro s hs
    rcases List.mem_append.mp hs with hs | hs
    · exact hinv.steps_dis s hs
    · simp only [List.mem_singleton] at hs
      subst hs
      dsimp only
      rw [hsetadd, hsetdel]
      exact hinv.hFR
  · -- steps_path
    dsimp only
    intro s hs
    rcases List.mem_append.mp hs with hs | hs
    · exact hinv.steps_path s hs
    · simp only [List.mem_singleton] at hs
      subst hs
      intro p hp
      exact absurd hp (by simp)
  · -- goal unvisited
    dsimp only
    rw [hsetadd]
    exact hgv
  · -- potential decrease
    unfold pqPot
    dsimp only
    rw [hsetadd]
    have hlen : (st.pq.dequeue).2.heap.length = rest.length :=
      PriorityQueue.dequeue_length hheap
    have hlen2 : st.pq.heap.length = rest.length + 1 := by
      rw [hheap]
      simp
    omega
  · -- steps shape
    rfl

theorem pqPop_assemble {dims : GridDimensions} {start goal : Coordinate} {hk : String → Nat}
    {prio : Coordinate → Nat → Int} {st : PqState} {top : PQItem String}
    {rest : List (PQItem String)} {D : Nat}
    (hprio : ∀ (c : Coordinate) (g : Nat), prio c g = (g : Int) + (hk (coordToString c) : Int))
    (hlip : ∀ a b : Coordinate, hk (coordToString a) ≤ hk (coordToString b) + manh a b)
    (hinv : PqInv dims start goal hk st)
    (hheap : st.pq.heap = top :: rest)
    (hng : top.item ≠ coordToString goal)
    (hgv : coordToString goal ∉ st.visited)
    (hcv : top.item ∉ st.visited)
    (hmid : PqMid dims start hk top.item D
      { st with
          steps := st.steps ++
            [{ visited := setAdd st.visited top.item,
               frontier := setDelete st.frontier top.item,
               current := some (stringToCoord top.item), costMap := some st.distances }],
          pq := (st.pq.dequeue).2,
          visited := setAdd st.visited top.item,
          frontier := setDelete st.frontier top.item }) :
    PqInv dims start goal hk (pqIter dims prio st top.item) ∧
      coordToString goal ∉ (pqIter dims prio st top.item).visited ∧
      pqPot dims start (pqIter dims prio st top.item) < pqPot dims start st ∧
      (pqIter dims prio st top.item).steps = st.steps ++
        [{ visited := setAdd st.visited top.item,
           frontier := setDelete st.frontier top.item,
           current := some (stringToCoord top.item), costMap := some st.distances }] := by
  have htop : top ∈ st.pq.heap := by
    rw [hheap]
    exact List.mem_cons_self _ _
  have hkey := hinv.hHK top htop
  have hcur : top.item = coordToString (stringToCoord top.item) := (key_decode hkey).symm
  obtain ⟨hmidf, hvisf, hstepsf, hlenf, hpersf, hpostf⟩ :=
    pqRelax_fold hprio hlip hcur DIRECTIONS _ (fun x hx => hx) hmid
  have hiter : pqIter dims prio st top.item =
      List.foldl (pqRelax dims prio (stringToCoord top.item) top.item)
        { st with
            steps := st.steps ++
              [{ visited := setAdd st.visited top.item,
                 frontier := setDelete st.frontier top.item,
                 current := some (stringToCoord top.item), costMap := some st.distances }],
            pq := (st.pq.dequeue).2,
            visited := setAdd st.visited top.item,
            frontier := setDelete st.frontier top.item } DIRECTIONS := by
    unfold pqIter pqNeighbors
    rfl
  rw [hiter]
  have hvis2 : (List.foldl (pqRelax dims prio (stringToCoord top.item) top.item)
      { st with
          steps := st.steps ++
            [{ visited := setAdd st.visited top.item,
               frontier := setDelete st.frontier top.item,
               current := some (stringToCoord top.item), costMap := some st.distances }],
          pq := (st.pq.dequeue).2,
          visited := setAdd st.visited top.item,
          frontier := setDelete st.frontier top.item } DIRECTIONS).visited =
      setAdd st.visited top.item := hvisf
  refine ⟨⟨?_, ?_, ?_, ?_, ?_, ?_, ?_, ?_, ?_, ?_, ?_, ?_, ?_, ?_, ?_, ?_, ?_, ?_, ?_, ?_⟩,
    ?_, ?_, ?_⟩
  · -- visN
    rw [hvis2]
    exact setAdd_nodup _ hinv.visN
  · -- visK
    rw [hvis2]
    intro k hkv
    rcases mem_setAdd.mp hkv with hkv | rfl
    · exact hinv.visK k hkv
    · exact hkey
  · -- hW
    intro v hv
    obtain ⟨dv, hdv, _, hh⟩ := hmidf.hW v hv
    exact ⟨dv, hdv, hh⟩
  · -- hX
    intro c hc dir hdir hval
    by_cases hce : coordToString c = top.item
    · have hcc : c = stringToCoord top.item := by
        rw [← hce, stringToCoord_coordToString]
      obtain ⟨dv, hdv, hle⟩ := hpostf dir hdir (by
        unfold nxOf
        rw [← hcc]
        exact hval)
      refine ⟨dv, D, ?_, ?_, by omega⟩
      · have : coordToString (nxOf (stringToCoord top.item) dir) =
            coordToString ⟨c.row + dir.row, c.col + dir.col⟩ := by
          unfold nxOf
          rw [← hcc]
        rw [← this]
        exact hdv
      · rw [hce]
        exact hmidf.dc
    · rw [hvis2] at hc
      have hcold : coordToString c ∈ st.visited := by
        rcases mem_setAdd.mp hc with hc | hc
        · exact hc
        · exact absurd hc hce
      have hc2 : coordToString c ∈ (setAdd st.visited top.item) :=
        mem_setAdd_of_mem _ hcold
      exact hmidf.hX c (by
        have := hvis2
        rw [← hvis2] at hc2
        exact hc2) hce dir hdir hval
  · -- hI3
    exact Or.inl hmidf.hI3
  · -- hI4
    exact Or.inl hmidf.hI4
  · -- hCH
    intro k dv hkd
    obtain ⟨l, hl, hlv, hln, hlen⟩ := hmidf.hCH k dv hkd
    refine ⟨l, hl, ?_, hln, hlen⟩
    intro x hx
    rcases hlv x hx with hx2 | hx2
    · rw [hvis2] at hx2
      rw [hvis2]
      exact Or.inl hx2
    · exact Or.inr hx2
  · -- hD0
    exact hmidf.hD0
  · -- hPS
    exact hmidf.hPS
  · -- hHK
    exact hmidf.hHK
  · -- hDK
    exact hmidf.hDK
  · -- hHp
    exact hmidf.hHp
  · -- hFR
    exact hmidf.hFR
  · -- frN
    exact hmidf.frN
  · -- hM
    exact hmidf.hM
  · -- hL
    exact hmidf.hL
  · -- hSV
    intro hemp
    rw [hvis2] at hemp
    exact absurd (hemp ▸ mem_setAdd_self st.visited top.item) (List.not_mem_nil _)
  · -- hS1
    intro _
    exact hmidf.startV
  · -- steps_dis
    rw [hstepsf]
    dsimp only
    intro s hs
    rcases List.mem_append.mp hs with hs | hs
    · exact hinv.steps_dis s hs
    · simp only [List.mem_singleton] at hs
      subst hs
      dsimp only
      intro k hkf
      rw [mem_setDelete_iff hinv.frN] at hkf
      intro hkv
      rcases mem_setAdd.mp hkv with hkv | rfl
      · exact hinv.hFR k hkf.1 hkv
      · exact hkf.2 rfl
  · -- steps_path
    rw [hstepsf]
    dsimp only
    intro s hs
    rcases List.mem_append.mp hs with hs | hs
    · exact hinv.steps_path s hs
    · simp only [List.mem_singleton] at hs
      subst hs
      intro p hp
      exact absurd hp (by simp)
  · -- goal unvisited
    rw [hvis2]
    intro hkv
    rcases mem_setAdd.mp hkv with hkv | hkv
    · exact hgv hkv
    · exact hng hkv.symm
  · -- potential decrease
    unfold pqPot
    rw [hvis2]
    have hlen4 : DIRECTIONS.length = 4 := rfl
    have hbase : ((st.pq.dequeue).2).heap.length = rest.length :=
      PriorityQueue.dequeue_length hheap
    have hlen2 : st.pq.heap.length = rest.length + 1 := by
      rw [hheap]
      simp
    rw [hlen4] at hlenf
    have hself : top.item ∈ setAdd st.visited top.item := mem_setAdd_self _ _
    have hsubv : ∀ k ∈ st.visited, k ∈ setAdd st.visited top.item :=
      fun k hk => mem_setAdd_of_mem _ hk
    have hmono : unvisitedCount dims (setAdd st.visited top.item) ≤
        unvisitedCount dims st.visited := unvisitedCount_mono dims hsubv
    rcases hkey with hks | ⟨c, hcval, hkc⟩
    · -- popped the start key
      have hc1 : coordToString start ∈ setAdd st.visited top.item := by
        rw [← hks]
        exact hself
      have hc0 : coordToString start ∉ st.visited := by
        rw [← hks]
        exact hcv
      rw [if_pos hc1, if_neg hc0]
      dsimp only at hlenf
      rw [hbase] at hlenf
      omega
    · -- popped a valid cell
      have hdec : unvisitedCount dims (setAdd st.visited top.item) + 1 ≤
          unvisitedCount dims st.visited := by
        apply unvisitedCount_decrease dims hsubv hcval
        · rw [← hkc]
          exact hcv
        · rw [← hkc]
          exact hself
      dsimp only at hlenf
      rw [hbase] at hlenf
      by_cases hsv : coordToString start ∈ st.visited
      · rw [if_pos (mem_setAdd_of_mem _ hsv), if_pos hsv]
        omega
      · rw [if_neg hsv]
        by_cases hsv2 : coordToString start ∈ setAdd st.visited top.item
        · rw [if_pos hsv2]
          omega
        · rw [if_neg hsv2]
          omega
  · -- steps shape
    rw [hstepsf]

theorem pqPop_fresh {dims : GridDimensions} {start goal : Coordinate} {hk : String → Nat}
    {prio : Coordinate → Nat → Int} {st : PqState} {top : PQItem String}
    {rest : List (PQItem String)}
    (hprio : ∀ (c : Coordinate) (g : Nat), prio c g = (g : Int) + (hk (coordToString c) : Int))
    (hlip : ∀ a b : Coordinate, hk (coordToString a) ≤ hk (coordToString b) + manh a b)
    (hinv : PqInv dims start goal hk st)
    (hheap : st.pq.heap = top :: rest)
    (hng : top.item ≠ coordToString goal)
    (hgv : coordToString goal ∉ st.visited)
    (hcv : top.item ∉ st.visited) :
    PqInv dims start goal hk (pqIter dims prio st top.item) ∧
      coordToString goal ∉ (pqIter dims prio st top.item).visited ∧
      pqPot dims start (pqIter dims prio st top.item) < pqPot dims start st ∧
      (pqIter dims prio st top.item).steps = st.steps ++
        [{ visited := setAdd st.visited top.item,
           frontier := setDelete st.frontier top.item,
           current := some (stringToCoord top.item), costMap := some st.distances }] := by
  have htop : top ∈ st.pq.heap := by
    rw [hheap]
    exact List.mem_cons_self _ _
  by_cases hexc : pqEXC start st
  · -- the initial pop of the start entry
    obtain ⟨hE1, hE2, hE3⟩ := hexc
    have hcons : (⟨coordToString start, 0⟩ : PQItem String) :: [] = top :: rest :=
      hE1.symm.trans hheap
    have hti : top.item = coordToString start := by
      cases hcons
      rfl
    have hrest : rest = [] := by
      cases hcons
      rfl
    have hDval : st.distances top.item = some 0 := by
      rw [hti, hE3]
      exact mset_self _ _ _
    have hb : ((st.pq.dequeue).2).heap = [] := by
      have := PriorityQueue.dequeue_length hheap
      rw [hrest] at this
      exact List.eq_nil_of_length_eq_zero this
    have hmid : PqMid dims start hk top.item 0
        { st with
            steps := st.steps ++
              [{ visited := setAdd st.visited top.item,
                 frontier := setDelete st.frontier top.item,
                 current := some (stringToCoord top.item), costMap := some st.distances }],
            pq := (st.pq.dequeue).2,
            visited := setAdd st.visited top.item,
            frontier := setDelete st.frontier top.item } := by
      refine ⟨hDval, mem_setAdd_self _ _, by
          rw [← hti]
          exact mem_setAdd_self _ _, ?_, ?_, ?_, ?_, ?_, hinv.hD0, hinv.hPS, ?_, hinv.hDK,
        ?_, ?_, ?_, hinv.hM, ?_⟩
      · -- hW
        dsimp only
        intro v hv
        rw [hE2] at hv
        have hv2 : v = top.item := by
          rcases mem_setAdd.mp hv with hv | hv
          · exact absurd hv (List.not_mem_nil _)
          · exact hv
        subst hv2
        refine ⟨0, hDval, by omega, ?_⟩
        intro it hit
        rw [hb] at hit
        exact absurd hit (List.not_mem_nil _)
      · -- hX
        dsimp only
        intro c hc hcne dir hdir hval
        rw [hE2] at hc
        rcases mem_setAdd.mp hc with hc | hc
        · exact absurd hc (List.not_mem_nil _)
        · exact absurd hc hcne
      · -- hI3
        dsimp only
        intro k dv hkd hknv
        rw [hE3] at hkd
        unfold mset at hkd
        by_cases hke : k = coordToString start
        · rw [if_pos hke] at hkd
          exact absurd (by
            rw [hke, ← hti]
            exact mem_setAdd_self _ _) hknv
        · rw [if_neg hke] at hkd
          exact absurd hkd (by simp)
      · -- hI4
        dsimp only
        intro it hit
        rw [hb] at hit
        exact absurd hit (List.not_mem_nil _)
      · -- hCH
        dsimp only
        intro k dv hkd
        obtain ⟨l, hl, hlv, hln, hlen⟩ := hinv.hCH k dv hkd
        refine ⟨l, hl, ?_, hln, hlen⟩
        intro x hx
        rcases hlv x hx with hx2 | hx2
        · rw [hE2] at hx2
          exact absurd hx2 (List.not_mem_nil _)
        · exact Or.inr hx2
      · -- hHK
        dsimp only
        intro it hit
        rw [hb] at hit
        exact absurd hit (List.not_mem_nil _)
      · -- hHp
        dsimp only
        exact PriorityQueue.dequeue_heap_inv _ hinv.hHp
      · -- hFR
        dsimp only
        intro k hkf
        rw [mem_setDelete_iff hinv.frN] at hkf
        intro hkv
        rcases mem_setAdd.mp hkv with hkv | hkv
        · exact hinv.hFR k hkf.1 hkv
        · exact hkf.2 hkv
      · -- frN
        dsimp only
        exact setDelete_nodup _ hinv.frN
      · -- hL
        dsimp only
        intro hvs c hc
        rw [hE2] at hc
        have hce : coordToString c = top.item := by
          rcases mem_setAdd.mp hc with hc | hc
          · exact absurd hc (List.not_mem_nil _)
          · exact hc
        have hcs : c = start := coordToString_injective (by rw [hce, hti])
        subst hcs
        rw [hce, manh_self, hDval]
    exact pqPop_assemble hprio hlip hinv hheap hng hgv hcv hmid
  · -- a later fresh pop
    have hI3c := hinv.hI3.resolve_right hexc
    have hI4c := hinv.hI4.resolve_right hexc
    obtain ⟨D, hD, hDp⟩ := hI4c top htop
    have hfresh := hI3c top.item D hD hcv
    have hpge := PriorityQueue.root_min_mem hinv.hHp hfresh
    rw [hheap, prioAt_cons_zero] at hpge
    dsimp only at hpge
    have hSne : st.visited ≠ [] := fun h => hexc (hinv.hSV h)
    have hstartv := hinv.hS1 hSne
    have hsub : ∀ it, it ∈ (st.pq.dequeue).2.heap → it ∈ st.pq.heap := by
      intro it hit
      rw [hheap]
      exact List.mem_cons_of_mem _ (PriorityQueue.mem_of_mem_dequeue hheap hit)
    have hmid : PqMid dims start hk top.item D
        { st with
            steps := st.steps ++
              [{ visited := setAdd st.visited top.item,
                 frontier := setDelete st.frontier top.item,
                 current := some (stringToCoord top.item), costMap := some st.distances }],
            pq := (st.pq.dequeue).2,
            visited := setAdd st.visited top.item,
            frontier := setDelete st.frontier top.item } := by
      refine ⟨hD, mem_setAdd_self _ _, mem_setAdd_of_mem _ hstartv, ?_, ?_, ?_, ?_, ?_,
        hinv.hD0, hinv.hPS, ?_, hinv.hDK, ?_, ?_, ?_, hinv.hM, ?_⟩
      · -- hW
        dsimp only
        intro v hv
        rcases mem_setAdd.mp hv with hv | rfl
        · obtain ⟨dv, hdv, hh⟩ := hinv.hW v hv
          refine ⟨dv, hdv, ?_, fun it hit => hh it (hsub it hit)⟩
          have h1 := hh top htop
          omega
        · refine ⟨D, hD, le_refl _, ?_⟩
          intro it hit
          have h2 := PriorityQueue.root_min_mem hinv.hHp (hsub it hit)
          rw [hheap, prioAt_cons_zero] at h2
          omega
      · -- hX
        dsimp only
        intro c hc hcne dir hdir hval
        rcases mem_setAdd.mp hc with hc | hc
        · exact hinv.hX c hc dir hdir hval
        · exact absurd hc hcne
      · -- hI3
        dsimp only
        intro k dv hkd hknv
        have hknv2 : k ∉ st.visited := fun h => hknv (mem_setAdd_of_mem _ h)
        have hkne : k ≠ top.item := fun h => hknv (h ▸ mem_setAdd_self _ _)
        have hmem := hI3c k dv hkd hknv2
        rw [hheap] at hmem
        rcases List.mem_cons.mp hmem with he | hmem
        · exact absurd (congrArg PQItem.item he) hkne
        · exact PriorityQueue.mem_dequeue_of_mem hheap hmem
      · -- hI4
        dsimp only
        intro it hit
        exact hI4c it (hsub it hit)
      · -- hCH
        dsimp only
        intro k dv hkd
        obtain ⟨l, hl, hlv, hln, hlen⟩ := hinv.hCH k dv hkd
        refine ⟨l, hl, ?_, hln, hlen⟩
        intro x hx
        rcases hlv x hx with hx2 | hx2
        · exact Or.inl (mem_setAdd_of_mem _ hx2)
        · exact Or.inr hx2
      · -- hHK
        dsimp only
        intro it hit
        exact hinv.hHK it (hsub it hit)
      · -- hHp
        dsimp only
        exact PriorityQueue.dequeue_heap_inv _ hinv.hHp
      · -- hFR
        dsimp only
        intro k hkf
        rw [mem_setDelete_iff hinv.frN] at hkf
        intro hkv
        rcases mem_setAdd.mp hkv with hkv | hkv
        · exact hinv.hFR k hkf.1 hkv
        · exact hkf.2 hkv
      · -- frN
        dsimp only
        exact setDelete_nodup _ hinv.frN
      · -- hL
        dsimp only
        intro hvs c hc
        rcases mem_setAdd.mp hc with hc | hce
        · exact hinv.hL hvs c hc
        · -- the settled distance of the freshly popped key is exact
          have hMc : manh start c ≤ D := hinv.hM c D (by rw [hce]; exact hD)
          have hub : D ≤ manh start c := by
            rcases hinv.hHK top htop with hks | ⟨c2, hc2v, hkc2⟩
            · have hcs : c = start := coordToString_injective (by rw [hce, hks])
              have hD0' : st.distances top.item = some 0 := by
                rw [hks]
                exact hinv.hD0
              rw [hD] at hD0'
              have hDz : D = 0 := Option.some.inj hD0'
              subst hcs
              omega
            · have hcval : isValid c dims = true := by
                have hcc2 : c = c2 := coordToString_injective (by rw [hce, hkc2])
                rw [hcc2]
                exact hc2v
              have hnv : coordToString c ∉ st.visited := by
                rw [hce]
                exact hcv
              obtain ⟨u, w, hu, hw, huV, hwV, hadj, hle⟩ :=
                exists_boundary hvs hstartv c hcval hnv
              obtain ⟨dir, hdir, hwe⟩ := adjStep_exists_dir hadj
              obtain ⟨dw, du, h1, h2, h3⟩ := hinv.hX u huV dir hdir (by rw [← hwe]; exact hw)
              rw [← hwe] at h1
              have hLu := hinv.hL hvs u huV
              have hdu : du = manh start u := by
                rw [hLu] at h2
                exact (Option.some.inj h2).symm
              have hentry := hI3c (coordToString w) dw h1 hwV
              have hroot := PriorityQueue.root_min_mem hinv.hHp hentry
              rw [hheap, prioAt_cons_zero] at hroot
              dsimp only at hroot
              have hlipw := hlip w c
              rw [hce] at hlipw
              omega
          have hDm : D = manh start c := by omega
          rw [hce, hD, hDm]
    exact pqPop_assemble hprio hlip hinv hheap hng hgv hcv hmid



theorem pqLoop_cons {dims : GridDimensions} {goalStr : String}
    {prio : Coordinate → Nat → Int} {fuel : Nat} {st : PqState} {top : PQItem String}
    {rest : List (PQItem String)}
    (hheap : st.pq.heap = top :: rest) (hng : top.item ≠ goalStr) :
    pqLoop dims goalStr prio (fuel + 1) st =
      pqLoop dims goalStr prio fuel (pqIter dims prio st top.item) := by
  rw [pqLoop, hheap]
  dsimp only
  rw [if_neg hng]
  rfl

theorem pqLoop_goal {dims : GridDimensions} {goalStr : String}
    {prio : Coordinate → Nat → Int} {fuel : Nat} {st : PqState} {top : PQItem String}
    {rest : List (PQItem String)}
    (hheap : st.pq.heap = top :: rest) (hg : top.item = goalStr) :
    pqLoop dims goalStr prio (fuel + 1) st =
      match reconstructPath (fuelFor dims) st.parentMap goalStr with
      | none => none
      | some path =>
        some ((st.steps ++
          [{ visited := setAdd st.visited top.item,
             frontier := setDelete st.frontier top.item,
             current := some (stringToCoord top.item), costMap := some st.distances }]) ++
          [{ visited := setAdd st.visited top.item,
             frontier := setDelete st.frontier top.item,
             path := some path, costMap := some st.distances }]) := by
  rw [pqLoop, hheap]
  dsimp only
  rw [if_pos hg]

theorem pqLoop_main {dims : GridDimensions} {start goal : Coordinate} {hk : String → Nat}
    {prio : Coordinate → Nat → Int}
    (hprio : ∀ (c : Coordinate) (g : Nat), prio c g = (g : Int) + (hk (coordToString c) : Int))
    (hlip : ∀ a b : Coordinate, hk (coordToString a) ≤ hk (coordToString b) + manh a b) :
    ∀ (fuel : Nat) (st : PqState),
    PqInv dims start goal hk st → coordToString goal ∉ st.visited →
    pqPot dims start st + 1 ≤ fuel →
    ∃ t, pqLoop dims (coordToString goal) prio fuel st = some t ∧
      st.steps.length ≤ t.length ∧
      (st.pq.heap ≠ [] → st.steps.length + 1 ≤ t.length) ∧
      ∀ s ∈ t, (∀ k ∈ s.frontier, k ∉ s.visited) ∧
        ∀ p, s.path = some p → pathOk start goal p := by
  intro fuel
  induction fuel with
  | zero =>
    intro st _ _ hf
    omega
  | succ fuel ih =>
    intro st hinv hgv hf
    cases hheap : st.pq.heap with
    | nil =>
      refine ⟨st.steps, ?_, le_refl _, fun hne => absurd rfl hne, ?_⟩
      · rw [pqLoop, hheap]
      · intro s hs
        exact ⟨hinv.steps_dis s hs, hinv.steps_path s hs⟩
    | cons top rest =>
      have htop : top ∈ st.pq.heap := by
        rw [hheap]
        exact List.mem_cons_self _ _
      by_cases hg : top.item = coordToString goal
      · -- the goal is popped: reconstruct and return
        have hDg : ∃ Dg, st.distances top.item = some Dg := by
          rcases hinv.hI4 with hI4c | hexc
          · obtain ⟨Dg, hDg, _⟩ := hI4c top htop
            exact ⟨Dg, hDg⟩
          · have hcons : (⟨coordToString start, 0⟩ : PQItem String) :: [] = top :: rest :=
              hexc.1.symm.trans hheap
            have hti : top.item = coordToString start := by
              cases hcons
              rfl
            refine ⟨0, ?_⟩
            rw [hti, hexc.2.2]
            exact mset_self _ _ _
        obtain ⟨Dg, hDg⟩ := hDg
        obtain ⟨l, hl, hlv, hln, hlen⟩ := hinv.hCH top.item Dg hDg
        have hlenb : l.length ≤ dims.rows.toNat * dims.cols.toNat + 1 := by
          apply keyList_length_le hln
          intro k hk2
          rcases hlv k hk2 with hk2 | rfl
          · exact hinv.visK k hk2
          · exact hinv.hHK top htop
        have hrp := reconstruct_of_chain hl (fuelFor dims) (by
          unfold fuelFor
          omega)
        rw [hg] at hrp
        rw [pqLoop_goal hheap hg, hrp]
        have hdisnew : ∀ k ∈ setDelete st.frontier top.item,
            k ∉ setAdd st.visited top.item := by
          intro k hkf
          rw [mem_setDelete_iff hinv.frN] at hkf
          intro hkv
          rcases mem_setAdd.mp hkv with hkv | hkv
          · exact hinv.hFR k hkf.1 hkv
          · exact hkf.2 hkv
        refine ⟨_, rfl, by simp, fun _ => by simp, ?_⟩
        intro s hs
        rcases List.mem_append.mp hs with hs | hs
        · rcases List.mem_append.mp hs with hs | hs
          · exact ⟨hinv.steps_dis s hs, hinv.steps_path s hs⟩
          · simp only [List.mem_singleton] at hs
            subst hs
            refine ⟨hdisnew, ?_⟩
            intro p hp
            exact absurd hp (by simp)
        · simp only [List.mem_singleton] at hs
          subst hs
          refine ⟨hdisnew, ?_⟩
          intro p hp
          simp only [Option.some.injEq] at hp
          subst hp
          have hpok := pathOk_of_chain hl
          rw [hg, stringToCoord_coordToString] at hpok
          exact hpok
      · -- continue: pop and recurse
        have hpop : PqInv dims start goal hk (pqIter dims prio st top.item) ∧
            coordToString goal ∉ (pqIter dims prio st top.item).visited ∧
            pqPot dims start (pqIter dims prio st top.item) < pqPot dims start st ∧
            (pqIter dims prio st top.item).steps = st.steps ++
              [{ visited := setAdd st.visited top.item,
                 frontier := setDelete st.frontier top.item,
                 current := some (stringToCoord top.item), costMap := some st.distances }] := by
          by_cases hcv : top.item ∈ st.visited
          · exact pqPop_stale hinv hheap hg hgv hcv
          · exact pqPop_fresh hprio hlip hinv hheap hg hgv hcv
        obtain ⟨hinv1, hgv1, hpot1, hsteps1⟩ := hpop
        obtain ⟨t, ht, hlen1, _, hall⟩ := ih (pqIter dims prio st top.item) hinv1 hgv1
          (by omega)
        rw [pqLoop_cons hheap hg]
        have hlen2 : st.steps.length + 1 ≤ t.length := by
          have := congrArg List.length hsteps1
          simp only [List.length_append, List.length_singleton] at this
          omega
        exact ⟨t, ht, by omega, fun _ => hlen2, hall⟩

theorem pqInit_heap (startStr : String) :
    (pqInit startStr).pq.heap = [⟨startStr, 0⟩] := rfl

theorem pqInit_inv (dims : GridDimensions) (start goal : Coordinate) (hk : String → Nat) :
    PqInv dims start goal hk (pqInit (coordToString start)) := by
  have hE : pqEXC start (pqInit (coordToString start)) := ⟨rfl, rfl, rfl⟩
  have hv : (pqInit (coordToString start)).visited = [] := rfl
  have hfr : (pqInit (coordToString start)).frontier = [coordToString start] := rfl
  have hdists : (pqInit (coordToString start)).distances =
      mset (fun _ => none) (coordToString start) 0 := rfl
  have hsteps : (pqInit (coordToString start)).steps = [] := rfl
  have hdom : ∀ k dv, (pqInit (coordToString start)).distances k = some dv →
      k = coordToString start ∧ dv = 0 := by
    intro k dv hkd
    rw [hdists] at hkd
    unfold mset at hkd
    by_cases hke : k = coordToString start
    · rw [if_pos hke] at hkd
      exact ⟨hke, (Option.some.inj hkd).symm⟩
    · rw [if_neg hke] at hkd
      exact absurd hkd (by simp)
  constructor
  · rw [hv]
    exact List.nodup_nil
  · rw [hv]
    intro k hk2
    exact absurd hk2 (List.not_mem_nil _)
  · rw [hv]
    intro v hv2
    exact absurd hv2 (List.not_mem_nil _)
  · rw [hv]
    intro c hc
    exact absurd hc (List.not_mem_nil _)
  · exact Or.inr hE
  · exact Or.inr hE
  · intro k dv hkd
    obtain ⟨hks, hdv⟩ := hdom k dv hkd
    subst hks
    subst hdv
    refine ⟨[coordToString start], Chain.base rfl, ?_, by simp, by simp⟩
    intro x hx
    simp only [List.mem_singleton] at hx
    exact Or.inr hx
  · rw [hdists]
    exact mset_self _ _ _
  · rfl
  · intro it hit
    rw [pqInit_heap] at hit
    simp only [List.mem_singleton] at hit
    subst hit
    exact Or.inl rfl
  · intro k dv hkd
    exact Or.inl (hdom k dv hkd).1
  · rw [pqInit_heap]
    intro i j hj hij
    simp only [List.length_singleton] at hj
    omega
  · rw [hfr, hv]
    intro k hk2
    exact List.not_mem_nil _
  · rw [hfr]
    exact List.nodup_singleton _
  · intro c dv hcd
    obtain ⟨hks, hdv⟩ := hdom _ dv hcd
    have hcs : c = start := coordToString_injective hks
    subst hcs
    rw [manh_self]
    omega
  · intro _ c hc
    rw [hv] at hc
    exact absurd hc (List.not_mem_nil _)
  · intro _
    exact hE
  · intro h
    rw [hv] at h
    exact absurd rfl h
  · rw [hsteps]
    intro s hs
    exact absurd hs (List.not_mem_nil _)
  · rw [hsteps]
    intro s hs
    exact absurd hs (List.not_mem_nil _)

theorem pqPot_init (dims : GridDimensions) (start : Coordinate) :
    pqPot dims start (pqInit (coordToString start)) + 1 ≤ pqFuel dims := by
  unfold pqPot pqFuel
  have h1 : (pqInit (coordToString start)).pq.heap.length = 1 := by
    rw [pqInit_heap]
    rfl
  have h2 : (pqInit (coordToString start)).visited = [] := rfl
  rw [h1, h2]
  have h3 := unvisitedCount_le dims []
  have h4 : coordToString start ∉ ([] : List String) := by simp
  rw [if_neg h4]
  omega

theorem runDijkstra_main (dims : GridDimensions) (start goal : Coordinate) :
    ∃ t, runDijkstra dims start goal = some t ∧ 1 ≤ t.length ∧
      ∀ s ∈ t, (∀ k ∈ s.frontier, k ∉ s.visited) ∧
        ∀ p, s.path = some p → pathOk start goal p := by
  have h := @pqLoop_main dims start goal (fun _ => 0)
    (fun _ newDist => (newDist : Int))
    (by intro c g; simp)
    (by intro a b; simp)
    (pqFuel dims) (pqInit (coordToString start))
    (pqInit_inv dims start goal _)
    (List.not_mem_nil _)
    (pqPot_init dims start)
  obtain ⟨t, ht, _, h1, hall⟩ := h
  refine ⟨t, ?_, ?_, hall⟩
  · simp only [runDijkstra]
    exact ht
  · have := h1 (by rw [pqInit_heap]; simp)
    simpa using this

theorem runAStar_main (dims : GridDimensions) (start goal : Coordinate) :
    ∃ t, runAStar dims start goal = some t ∧ 1 ≤ t.length ∧
      ∀ s ∈ t, (∀ k ∈ s.frontier, k ∉ s.visited) ∧
        ∀ p, s.path = some p → pathOk start goal p := by
  have h := @pqLoop_main dims start goal
    (fun k => heuristic (stringToCoord k) goal)
    (fun next tentativeG => ((tentativeG + heuristic next goal : Nat) : Int))
    (by
      intro c g
      dsimp only
      rw [stringToCoord_coordToString]
      push_cast
      ring)
    (by
      intro a b
      dsimp only
      rw [stringToCoord_coordToString, stringToCoord_coordToString]
      unfold heuristic manh
      omega)
    (pqFuel dims) (pqInit (coordToString start))
    (pqInit_inv dims start goal _)
    (List.not_mem_nil _)
    (pqPot_init dims start)
  obtain ⟨t, ht, _, h1, hall⟩ := h
  refine ⟨t, ?_, ?_, hall⟩
  · simp only [runAStar]
    exact ht
  · have := h1 (by rw [pqInit_heap]; simp)
    simpa using this

/-- When a fresh key is at the heap root (with a valid start), its
stored distance is settled at the exact Manhattan distance, and every
visited key's distance-plus-heuristic is bounded by the root's. -/
theorem pq_settled {dims : GridDimensions} {start goal : Coordinate} {hk : String → Nat}
    {st : PqState} {top : PQItem String} {rest : List (PQItem String)}
    (hlip : ∀ a b : Coordinate, hk (coordToString a) ≤ hk (coordToString b) + manh a b)
    (hinv : PqInv dims start goal hk st)
    (hheap : st.pq.heap = top :: rest)
    (hcv : top.item ∉ st.visited)
    (hvs : isValid start dims = true) :
    ∃ D, st.distances top.item = some D ∧ D = manh start (stringToCoord top.item) ∧
      ∀ v ∈ st.visited, ∃ dv, st.distances v = some dv ∧
        dv + hk v ≤ D + hk top.item := by
  have htop : top ∈ st.pq.heap := by
    rw [hheap]
    exact List.mem_cons_self _ _
  by_cases hexc : pqEXC start st
  · have hcons : (⟨coordToString start, 0⟩ : PQItem String) :: [] = top :: rest :=
      hexc.1.symm.trans hheap
    have hti : top.item = coordToString start := by
      cases hcons
      rfl
    refine ⟨0, ?_, ?_, ?_⟩
    · rw [hti, hexc.2.2]
      exact mset_self _ _ _
    · rw [hti, stringToCoord_coordToString, manh_self]
    · intro v hv
      rw [hexc.2.1] at hv
      exact absurd hv (List.not_mem_nil _)
  · have hI3c := hinv.hI3.resolve_right hexc
    have hI4c := hinv.hI4.resolve_right hexc
    obtain ⟨D, hD, hDp⟩ := hI4c top htop
    have hfresh := hI3c top.item D hD hcv
    have hpge := PriorityQueue.root_min_mem hinv.hHp hfresh
    rw [hheap, prioAt_cons_zero] at hpge
    dsimp only at hpge
    have hSne : st.visited ≠ [] := fun h => hexc (hinv.hSV h)
    have hstartv := hinv.hS1 hSne
    have hce : coordToString (stringToCoord top.item) = top.item :=
      key_decode (hinv.hHK top htop)
    have hMc : manh start (stringToCoord top.item) ≤ D :=
      hinv.hM (stringToCoord top.item) D (by rw [hce]; exact hD)
    have hub : D ≤ manh start (stringToCoord top.item) := by
      rcases hinv.hHK top htop with hks | ⟨c2, hc2v, hkc2⟩
      · have hD0' : st.distances top.item = some 0 := by
          rw [hks]
          exact hinv.hD0
        rw [hD] at hD0'
        have hDz : D = 0 := Option.some.inj hD0'
        omega
      · have hcval : isValid (stringToCoord top.item) dims = true := by
          rw [hkc2, stringToCoord_coordToString]
          exact hc2v
        have hnv : coordToString (stringToCoord top.item) ∉ st.visited := by
          rw [hce]
          exact hcv
        obtain ⟨u, w, hu, hw, huV, hwV, hadj, hle⟩ :=
          exists_boundary hvs hstartv (stringToCoord top.item) hcval hnv
        obtain ⟨dir, hdir, hwe⟩ := adjStep_exists_dir hadj
        obtain ⟨dw, du, h1, h2, h3⟩ := hinv.hX u huV dir hdir (by rw [← hwe]; exact hw)
        rw [← hwe] at h1
        have hLu := hinv.hL hvs u huV
        have hdu : du = manh start u := by
          rw [hLu] at h2
          exact (Option.some.inj h2).symm
        have hentry := hI3c (coordToString w) dw h1 hwV
        have hroot := PriorityQueue.root_min_mem hinv.hHp hentry
        rw [hheap, prioAt_cons_zero] at hroot
        dsimp only at hroot
        have hlipw := hlip w (stringToCoord top.item)
        rw [hce] at hlipw
        omega
    refine ⟨D, hD, by omega, ?_⟩
    intro v hv
    obtain ⟨dv, hdv, hh⟩ := hinv.hW v hv
    have h1 := hh top htop
    exact ⟨dv, hdv, by omega⟩

theorem pqLoop_reach {dims : GridDimensions} {start goal : Coordinate} {hk : String → Nat}
    {prio : Coordinate → Nat → Int}
    (hprio : ∀ (c : Coordinate) (g : Nat), prio c g = (g : Int) + (hk (coordToString c) : Int))
    (hlip : ∀ a b : Coordinate, hk (coordToString a) ≤ hk (coordToString b) + manh a b)
    (hvs : isValid start dims = true) (hvg : isValid goal dims = true) :
    ∀ (fuel : Nat) (st : PqState),
    PqInv dims start goal hk st → coordToString goal ∉ st.visited →
    pqPot dims start st + 1 ≤ fuel →
    ∃ t0 vis1 fr1 dmap p,
      pqLoop dims (coordToString goal) prio fuel st = some (t0 ++
        [{ visited := vis1, frontier := fr1, current := some goal, costMap := some dmap },
         { visited := vis1, frontier := fr1, path := some p, costMap := some dmap }]) ∧
      p.length = manh start goal + 1 ∧ vis1.Nodup ∧
      ∀ k ∈ vis1, ∃ c, k = coordToString c ∧
        manh start c + hk k ≤ manh start goal + hk (coordToString goal) := by
  intro fuel
  induction fuel with
  | zero =>
    intro st _ _ hf
    omega
  | succ fuel ih =>
    intro st hinv hgv hf
    cases hheap : st.pq.heap with
    | nil =>
      exfalso
      by_cases hve : st.visited = []
      · have hexc := hinv.hSV hve
        exact absurd (hheap.symm.trans hexc.1) (by simp)
      · have hstartv := hinv.hS1 hve
        have hnexc : ¬ pqEXC start st := by
          intro hexc
          exact absurd (hheap.symm.trans hexc.1) (by simp)
        have hI3c := hinv.hI3.resolve_right hnexc
        obtain ⟨u, w, hu, hw, huV, hwV, hadj, hle⟩ :=
          exists_boundary hvs hstartv goal hvg hgv
        obtain ⟨dir, hdir, hwe⟩ := adjStep_exists_dir hadj
        obtain ⟨dw, du, h1, h2, h3⟩ := hinv.hX u huV dir hdir (by rw [← hwe]; exact hw)
        rw [← hwe] at h1
        have hentry := hI3c (coordToString w) dw h1 hwV
        rw [hheap] at hentry
        exact absurd hentry (List.not_mem_nil _)
    | cons top rest =>
      by_cases hg : top.item = coordToString goal
      · -- goal popped: settled distance gives the path length
        have hcv : top.item ∉ st.visited := by
          rw [hg]
          exact hgv
        obtain ⟨Dg, hDg, hDm, hvb⟩ := pq_settled hlip hinv hheap hcv hvs
        have hsg : stringToCoord top.item = goal := by
          rw [hg, stringToCoord_coordToString]
        rw [hsg] at hDm
        obtain ⟨l, hl, hlv, hln, hlen⟩ := hinv.hCH top.item Dg hDg
        have htop : top ∈ st.pq.heap := by
          rw [hheap]
          exact List.mem_cons_self _ _
        have hlenb : l.length ≤ dims.rows.toNat * dims.cols.toNat + 1 := by
          apply keyList_length_le hln
          intro k hk2
          rcases hlv k hk2 with hk2 | rfl
          · exact hinv.visK k hk2
          · exact hinv.hHK top htop
        have hrp := reconstruct_of_chain hl (fuelFor dims) (by
          unfold fuelFor
          omega)
        rw [hg] at hrp
        rw [pqLoop_goal hheap hg, hrp, hsg]
        refine ⟨st.steps, setAdd st.visited top.item, setDelete st.frontier top.item,
          st.distances, l.map stringToCoord, by simp, ?_, setAdd_nodup _ hinv.visN, ?_⟩
        · rw [List.length_map, hlen, hDm]
        · intro k hkv
          rcases mem_setAdd.mp hkv with hkv | rfl
          · obtain ⟨dv, hdv, hb⟩ := hvb k hkv
            rcases hinv.visK k hkv with hks | ⟨c, hcval, hkc⟩
            · refine ⟨start, hks, ?_⟩
              have hLs := hinv.hL hvs start (by rw [← hks]; exact hkv)
              rw [← hks] at hLs
              rw [hLs] at hdv
              have hdv0 : dv = manh start start := (Option.some.inj hdv).symm
              rw [manh_self] at hdv0
              rw [manh_self]
              subst hdv0
              rw [hg] at hb
              omega
            · refine ⟨c, hkc, ?_⟩
              have hLc := hinv.hL hvs c (by rw [← hkc]; exact hkv)
              rw [← hkc] at hLc
              rw [hLc] at hdv
              have hdvc : dv = manh start c := (Option.some.inj hdv).symm
              rw [hg] at hb
              omega
          · refine ⟨goal, hg, ?_⟩
            rw [hg]
      · -- continue: pop and recurse
        have hpop : PqInv dims start goal hk (pqIter dims prio st top.item) ∧
            coordToString goal ∉ (pqIter dims prio st top.item).visited ∧
            pqPot dims start (pqIter dims prio st top.item) < pqPot dims start st ∧
            (pqIter dims prio st top.item).steps = st.steps ++
              [{ visited := setAdd st.visited top.item,
                 frontier := setDelete st.frontier top.item,
                 current := some (stringToCoord top.item), costMap := some st.distances }] := by
          by_cases hcv : top.item ∈ st.visited
          · exact pqPop_stale hinv hheap hg hgv hcv
          · exact pqPop_fresh hprio hlip hinv hheap hg hgv hcv
        obtain ⟨hinv1, hgv1, hpot1, _⟩ := hpop
        rw [pqLoop_cons hheap hg]
        exact ih (pqIter dims prio st top.item) hinv1 hgv1 (by omega)

theorem heuristic_eq_manh (a b : Coordinate) : heuristic a b = manh a b := rfl

theorem runDijkstra_reach {dims : GridDimensions} {start goal : Coordinate}
    (hvs : isValid start dims = true) (hvg : isValid goal dims = true) :
    ∃ t0 vis1 fr1 dmap p, runDijkstra dims start goal = some (t0 ++
      [{ visited := vis1, frontier := fr1, current := some goal, costMap := some dmap },
       { visited := vis1, frontier := fr1, path := some p, costMap := some dmap }]) ∧
      p.length = manh start goal + 1 ∧ vis1.Nodup := by
  have h := @pqLoop_reach dims start goal (fun _ => 0)
    (fun _ newDist => (newDist : Int))
    (by intro c g; simp)
    (by intro a b; simp)
    hvs hvg (pqFuel dims) (pqInit (coordToString start))
    (pqInit_inv dims start goal _)
    (List.not_mem_nil _)
    (pqPot_init dims start)
  obtain ⟨t0, vis1, fr1, dmap, p, ht, hp, hnd, _⟩ := h
  refine ⟨t0, vis1, fr1, dmap, p, ?_, hp, hnd⟩
  simp only [runDijkstra]
  exact ht

theorem runAStar_reach {dims : GridDimensions} {start goal : Coordinate}
    (hvs : isValid start dims = true) (hvg : isValid goal dims = true) :
    ∃ t0 vis1 fr1 dmap p, runAStar dims start goal = some (t0 ++
      [{ visited := vis1, frontier := fr1, current := some goal, costMap := some dmap },
       { visited := vis1, frontier := fr1, path := some p, costMap := some dmap }]) ∧
      p.length = manh start goal + 1 ∧ vis1.Nodup ∧
      ∀ k ∈ vis1, ∃ c, k = coordToString c ∧
        manh start c + manh c goal = manh start goal := by
  have h := @pqLoop_reach dims start goal
    (fun k => heuristic (stringToCoord k) goal)
    (fun next tentativeG => ((tentativeG + heuristic next goal : Nat) : Int))
    (by
      intro c g
      dsimp only
      rw [stringToCoord_coordToString]
      push_cast
      ring)
    (by
      intro a b
      dsimp only
      rw [stringToCoord_coordToString, stringToCoord_coordToString]
      unfold heuristic manh
      omega)
    hvs hvg (pqFuel dims) (pqInit (coordToString start))
    (pqInit_inv dims start goal _)
    (List.not_mem_nil _)
    (pqPot_init dims start)
  obtain ⟨t0, vis1, fr1, dmap, p, ht, hp, hnd, hvisb⟩ := h
  refine ⟨t0, vis1, fr1, dmap, p, ?_, hp, hnd, ?_⟩
  · simp only [runAStar]
    exact ht
  · intro k hkv
    obtain ⟨c, hkc, hb⟩ := hvisb k hkv
    refine ⟨c, hkc, ?_⟩
    dsimp only at hb
    rw [hkc, stringToCoord_coordToString, stringToCoord_coordToString,
      heuristic_eq_manh, heuristic_eq_manh, manh_self] at hb
    have htri := manh_triangle start c goal
    have htri2 := manh_triangle start goal c
    have hcomm := manh_comm c goal
    omega

/-! ## BFS level analysis

For valid start and goal, BFS dequeues cells in nondecreasing
level (Manhattan distance from the start) order; the queue always
consists of a block of level-`ℓ` cells followed by a block of
level-`ℓ+1` cells, all cells of level at most `ℓ` are already
discovered, and every discovery chain is a geodesic. -/

theorem rect_valid {dims : GridDimensions} {start goal c : Coordinate}
    (hvs : isValid start dims = true) (hvg : isValid goal dims = true)
    (hc : manh start c + manh c goal = manh start goal) : isValid c dims = true := by
  unfold isValid at *
  simp only [Bool.and_eq_true, decide_eq_true_eq] at *
  unfold manh at hc
  omega

/-- The level-structure invariant of the BFS state. -/
structure BfsLev (dims : GridDimensions) (start goal : Coordinate) (st : BfsState) : Prop where
  startv : coordToString start ∈ st.visited
  vkeysV : ∀ k ∈ st.visited, ∃ c, isValid c dims = true ∧ k = coordToString c
  qsub : ∀ c ∈ st.queue, coordToString c ∈ st.visited
  qnd : (st.queue.map coordToString).Nodup
  closed : ∀ c : Coordinate, coordToString c ∈ st.visited → c ∈ st.queue ∨
    ∀ dir ∈ DIRECTIONS, isValid ⟨c.row + dir.row, c.col + dir.col⟩ dims = true →
      coordToString ⟨c.row + dir.row, c.col + dir.col⟩ ∈ st.visited
  chainsT : ∀ c : Coordinate, coordToString c ∈ st.visited →
    ∃ l, Chain st.parentMap (coordToString start) (coordToString c) l ∧
      (∀ x ∈ l, x ∈ st.visited) ∧ l.Nodup ∧ l.length = manh start c + 1
  gq : coordToString goal ∈ st.visited → goal ∈ st.queue
  lev : ∃ ℓ A B, st.queue = A ++ B ∧
    (∀ a ∈ A, manh start a = ℓ) ∧ (∀ b ∈ B, manh start b = ℓ + 1) ∧
    (∀ c : Coordinate, isValid c dims = true → manh start c ≤ ℓ →
      coordToString c ∈ st.visited) ∧
    (∀ c : Coordinate, coordToString c ∈ st.visited → manh start c ≤ ℓ + 1)

/-- The part of the level invariant carried through the neighbour
fold, relative to the dequeued cell `curr`. -/
structure BfsLevMid (dims : GridDimensions) (start curr : Coordinate) (st : BfsState) : Prop where
  hcv : coordToString curr ∈ st.visited
  hcomp : ∀ c : Coordinate, isValid c dims = true → manh start c ≤ manh start curr →
    coordToString c ∈ st.visited
  hvk : ∀ k ∈ st.visited, ∃ c, isValid c dims = true ∧ k = coordToString c
  hvlev : ∀ c : Coordinate, coordToString c ∈ st.visited → manh start c ≤ manh start curr + 1
  hch : ∀ c : Coordinate, coordToString c ∈ st.visited →
    ∃ l, Chain st.parentMap (coordToString start) (coordToString c) l ∧
      (∀ x ∈ l, x ∈ st.visited) ∧ l.Nodup ∧ l.length = manh start c + 1
  hqs : ∀ c ∈ st.queue, coordToString c ∈ st.visited
  hqn : (st.queue.map coordToString).Nodup

theorem bfsRelax_lev_step {dims : GridDimensions} {start curr : Coordinate}
    {st : BfsState} {dir : Coordinate} (hdir : dir ∈ DIRECTIONS)
    (hmid : BfsLevMid dims start curr st) :
    BfsLevMid dims start curr (bfsRelax dims curr (coordToString curr) st dir) ∧
      (∀ k ∈ st.visited, k ∈ (bfsRelax dims curr (coordToString curr) st dir).visited) ∧
      (∃ N, (bfsRelax dims curr (coordToString curr) st dir).queue = st.queue ++ N ∧
        (∀ n ∈ N, manh start n = manh start curr + 1 ∧
          coordToString n ∈ (bfsRelax dims curr (coordToString curr) st dir).visited) ∧
        (∀ c : Coordinate, coordToString c ∈
          (bfsRelax dims curr (coordToString curr) st dir).visited →
          coordToString c ∈ st.visited ∨ c ∈ N)) ∧
      (isValid ⟨curr.row + dir.row, curr.col + dir.col⟩ dims = true →
        coordToString ⟨curr.row + dir.row, curr.col + dir.col⟩ ∈
          (bfsRelax dims curr (coordToString curr) st dir).visited) ∧
      (bfsRelax dims curr (coordToString curr) st dir).steps = st.steps := by
  unfold bfsRelax
  dsimp only
  split
  · rename_i hcond
    simp only [Bool.and_eq_true, Bool.not_eq_true', decide_eq_false_iff_not] at hcond
    obtain ⟨hval, hnew⟩ := hcond
    have hnmem : coordToString (⟨curr.row + dir.row, curr.col + dir.col⟩ : Coordinate) ∉
        st.visited := by
      simpa using hnew
    have hadj : adjStep curr ⟨curr.row + dir.row, curr.col + dir.col⟩ := adjStep_of_dir hdir
    have hnl : manh start (⟨curr.row + dir.row, curr.col + dir.col⟩ : Coordinate) =
        manh start curr + 1 := by
      have hup : manh start ⟨curr.row + dir.row, curr.col + dir.col⟩ ≤
          manh start curr + 1 := by
        have := manh_triangle start curr ⟨curr.row + dir.row, curr.col + dir.col⟩
        have h1 := adjStep_manh hadj
        omega
      have hlo : ¬ manh start (⟨curr.row + dir.row, curr.col + dir.col⟩ : Coordinate) ≤
          manh start curr := by
        intro hle
        exact hnmem (hmid.hcomp _ hval hle)
      omega
    obtain ⟨lc, hlc, hlcv, hlcn, hlcl⟩ := hmid.hch curr hmid.hcv
    have hnxl : coordToString (⟨curr.row + dir.row, curr.col + dir.col⟩ : Coordinate) ∉ lc :=
      fun hin => hnmem (hlcv _ hin)
    refine ⟨⟨mem_setAdd_of_mem _ hmid.hcv, ?_, ?_, ?_, ?_, ?_, ?_⟩,
      fun k hk => mem_setAdd_of_mem _ hk,
      ⟨[⟨curr.row + dir.row, curr.col + dir.col⟩], rfl, ?_, ?_⟩,
      fun _ => mem_setAdd_self _ _, rfl⟩
    · -- hcomp
      intro c hcval hcle
      exact mem_setAdd_of_mem _ (hmid.hcomp c hcval hcle)
    · -- hvk
      intro k hk
      rcases mem_setAdd.mp hk with hk | rfl
      · exact hmid.hvk k hk
      · exact ⟨⟨curr.row + dir.row, curr.col + dir.col⟩, hval, rfl⟩
    · -- hvlev
      intro c hc
      rcases mem_setAdd.mp hc with hc | hce
      · exact hmid.hvlev c hc
      · have : c = ⟨curr.row + dir.row, curr.col + dir.col⟩ := coordToString_injective hce
        rw [this, hnl]
    · -- hch
      intro c hc
      rcases mem_setAdd.mp hc with hc | hce
      · obtain ⟨l, hl, hlv, hln, hll⟩ := hmid.hch c hc
        refine ⟨l, hl.mono ?_, fun x hx => mem_setAdd_of_mem _ (hlv x hx), hln, hll⟩
        intro x hx
        exact mset_other _ _ (fun hxe => hnmem (hxe ▸ hlv x hx))
      · have hcc : c = ⟨curr.row + dir.row, curr.col + dir.col⟩ := coordToString_injective hce
        subst hcc
        refine ⟨lc ++ [coordToString (⟨curr.row + dir.row, curr.col + dir.col⟩ : Coordinate)],
          Chain.step (mset_self _ _ _) ?_ (hlc.mono ?_), ?_, ?_, ?_⟩
        · rw [stringToCoord_coordToString, stringToCoord_coordToString]
          exact hadj
        · intro x hx
          exact mset_other _ _ (fun hxe => hnxl (hxe ▸ hx))
        · intro x hx
          rcases List.mem_append.mp hx with hx | hx
          · exact mem_setAdd_of_mem _ (hlcv x hx)
          · simp only [List.mem_singleton] at hx
            subst hx
            exact mem_setAdd_self _ _
        · simp only [List.nodup_append, List.nodup_singleton]
          exact ⟨hlcn, by simp, by
            intro x hx hx2
            simp only [List.mem_singleton] at hx2
            exact hnxl (hx2 ▸ hx)⟩
        · simp only [List.length_append, List.length_singleton]
          rw [hnl]
          omega
    · -- hqs
      intro c hc
      rcases List.mem_append.mp hc with hc | hc
      · exact mem_setAdd_of_mem _ (hmid.hqs c hc)
      · simp only [List.mem_singleton] at hc
        subst hc
        exact mem_setAdd_self _ _
    · -- hqn
      rw [List.map_append]
      simp only [List.map_cons, List.map_nil]
      rw [List.nodup_append]
      refine ⟨hmid.hqn, by simp, ?_⟩
      intro x hx hx2
      simp only [List.mem_singleton] at hx2
      subst hx2
      rw [List.mem_map] at hx
      obtain ⟨c, hcq, hck⟩ := hx
      exact hnmem (hck ▸ hmid.hqs c hcq)
    · -- new-block properties
      intro n hn
      simp only [List.mem_singleton] at hn
      subst hn
      exact ⟨hnl, mem_setAdd_self _ _⟩
    · -- provenance of new keys
      intro c hc
      rcases mem_setAdd.mp hc with hc | hce
      · exact Or.inl hc
      · exact Or.inr (by
          simp only [List.mem_singleton]
          exact coordToString_injective hce)
  · rename_i hcond
    refine ⟨hmid, fun k hk => hk, ⟨[], by simp, by simp, fun c hc => Or.inl hc⟩, ?_, rfl⟩
    intro hval
    simp only [Bool.and_eq_true, Bool.not_eq_true', decide_eq_false_iff_not, not_and] at hcond
    have := hcond hval
    simpa using this

theorem bfsRelax_fold_lev {dims : GridDimensions} {start curr : Coordinate} :
    ∀ (dirs : List Coordinate), (∀ x ∈ dirs, x ∈ DIRECTIONS) → ∀ (st : BfsState),
    BfsLevMid dims start curr st →
    BfsLevMid dims start curr
      (List.foldl (bfsRelax dims curr (coordToString curr)) st dirs) ∧
      (∀ k ∈ st.visited,
        k ∈ (List.foldl (bfsRelax dims curr (coordToString curr)) st dirs).visited) ∧
      (∃ N, (List.foldl (bfsRelax dims curr (coordToString curr)) st dirs).queue =
          st.queue ++ N ∧
        (∀ n ∈ N, manh start n = manh start curr + 1 ∧ coordToString n ∈
          (List.foldl (bfsRelax dims curr (coordToString curr)) st dirs).visited) ∧
        (∀ c : Coordinate, coordToString c ∈
          (List.foldl (bfsRelax dims curr (coordToString curr)) st dirs).visited →
          coordToString c ∈ st.visited ∨ c ∈ N)) ∧
      (∀ dir ∈ dirs, isValid ⟨curr.row + dir.row, curr.col + dir.col⟩ dims = true →
        coordToString ⟨curr.row + dir.row, curr.col + dir.col⟩ ∈
          (List.foldl (bfsRelax dims curr (coordToString curr)) st dirs).visited) ∧
      (List.foldl (bfsRelax dims curr (coordToString curr)) st dirs).steps = st.steps := by
  intro dirs
  induction dirs with
  | nil =>
    intro _ st hmid
    exact ⟨hmid, fun k hk => hk, ⟨[], by simp, by simp, fun c hc => Or.inl hc⟩, by simp, rfl⟩
  | cons d rest ih =>
    intro hdirs st hmid
    obtain ⟨hm1, hg1, ⟨N1, hq1, hN1, hp1⟩, hpost1, hs1⟩ :=
      bfsRelax_lev_step (hdirs d (List.mem_cons_self _ _)) hmid
    obtain ⟨hm2, hg2, ⟨N2, hq2, hN2, hp2⟩, hpost2, hs2⟩ :=
      ih (fun x hx => hdirs x (List.mem_cons_of_mem _ hx)) _ hm1
    rw [List.foldl_cons]
    refine ⟨hm2, fun k hk => hg2 _ (hg1 k hk), ⟨N1 ++ N2, ?_, ?_, ?_⟩, ?_, hs2.trans hs1⟩
    · rw [hq2, hq1, List.append_assoc]
    · intro n hn
      rcases List.mem_append.mp hn with hn | hn
      · obtain ⟨hl, hv⟩ := hN1 n hn
        exact ⟨hl, hg2 _ hv⟩
      · exact hN2 n hn
    · intro c hc
      rcases hp2 c hc with hc2 | hc2
      · rcases hp1 c hc2 with hc3 | hc3
        · exact Or.inl hc3
        · exact Or.inr (List.mem_append.mpr (Or.inl hc3))
      · exact Or.inr (List.mem_append.mpr (Or.inr hc2))
    · intro dir hdir hval
      rcases List.mem_cons.mp hdir with rfl | hdir
      · exact hg2 _ (hpost1 hval)
      · exact hpost2 dir hdir hval

theorem bfsLev_init {dims : GridDimensions} {start : Coordinate} (goal : Coordinate)
    (hvs : isValid start dims = true) :
    BfsLev dims start goal
      { steps := [], queue := [start], visited := setAdd [] (coordToString start),
        parentMap := fun _ => none, frontier := setAdd [] (coordToString start) } := by
  have hv : setAdd [] (coordToString start) = [coordToString start] := rfl
  constructor
  · exact mem_setAdd_self [] (coordToString start)
  · intro k hk
    rw [hv] at hk
    simp only [List.mem_singleton] at hk
    exact ⟨start, hvs, hk⟩
  · intro c hc
    simp only [List.mem_singleton] at hc
    subst hc
    exact mem_setAdd_self [] (coordToString c)
  · simp
  · intro c hc
    rw [hv] at hc
    simp only [List.mem_singleton] at hc
    left
    have : c = start := coordToString_injective hc
    subst this
    simp
  · intro c hc
    rw [hv] at hc
    simp only [List.mem_singleton] at hc
    have hcs : c = start := coordToString_injective hc
    subst hcs
    refine ⟨[coordToString c], Chain.base rfl, ?_, by simp, by simp [manh_self]⟩
    intro x hx
    simp only [List.mem_singleton] at hx
    subst hx
    exact mem_setAdd_self [] (coordToString c)
  · intro hg
    rw [hv] at hg
    simp only [List.mem_singleton] at hg
    have : goal = start := coordToString_injective hg
    subst this
    simp
  · refine ⟨0, [start], [], by simp, ?_, by simp, ?_, ?_⟩
    · intro a ha
      simp only [List.mem_singleton] at ha
      subst ha
      rw [manh_self]
    · intro c hcval hcle
      have hc0 : manh start c = 0 := by omega
      have : start = c := manh_eq_zero hc0
      subst this
      exact mem_setAdd_self [] (coordToString start)
    · intro c hc
      rw [hv] at hc
      simp only [List.mem_singleton] at hc
      have : c = start := coordToString_injective hc
      subst this
      rw [manh_self]
      omega

theorem bfsLev_norm {dims : GridDimensions} {start goal : Coordinate} {st : BfsState}
    (hvs : isValid start dims = true) (hL : BfsLev dims start goal st)
    {current : Coordinate} {qrest : List Coordinate}
    (hq : st.queue = current :: qrest) :
    ∃ ℓ A2 B2, qrest = A2 ++ B2 ∧ manh start current = ℓ ∧
      (∀ a ∈ A2, manh start a = ℓ) ∧ (∀ b ∈ B2, manh start b = ℓ + 1) ∧
      (∀ c : Coordinate, isValid c dims = true → manh start c ≤ ℓ →
        coordToString c ∈ st.visited) ∧
      (∀ c : Coordinate, coordToString c ∈ st.visited → manh start c ≤ ℓ + 1) := by
  obtain ⟨ℓ, A, B, hsplit, hA, hB, hcomp, hvlev⟩ := hL.lev
  cases A with
  | cons a A2 =>
    rw [hq] at hsplit
    rw [List.cons_append] at hsplit
    have hca : current = a := (List.cons.inj hsplit).1
    have hqr : qrest = A2 ++ B := (List.cons.inj hsplit).2
    subst hca
    refine ⟨ℓ, A2, B, hqr, hA current (List.mem_cons_self _ _), ?_, hB, hcomp, hvlev⟩
    intro x hx
    exact hA x (List.mem_cons_of_mem _ hx)
  | nil =>
    rw [List.nil_append] at hsplit
    have hBq : B = current :: qrest := hsplit.symm.trans hq
    have hcur : manh start current = ℓ + 1 := hB current (by rw [hBq]; simp)
    have hcomp2 : ∀ c : Coordinate, isValid c dims = true → manh start c ≤ ℓ + 1 →
        coordToString c ∈ st.visited := by
      intro c hcval hcle
      by_cases h0 : manh start c ≤ ℓ
      · exact hcomp c hcval h0
      · have hc1 : manh start c = ℓ + 1 := by omega
        have hcpos : 0 < manh start c := by omega
        have hu_adj := stepToward_adj hcpos
        have hu_manh := stepToward_manh hcpos
        have hu_val := stepToward_valid hcpos hvs hcval
        have hul : manh start (stepToward start c) = ℓ := by omega
        have huv : coordToString (stepToward start c) ∈ st.visited :=
          hcomp _ hu_val (by omega)
        rcases hL.closed _ huv with hqm | hclosure
        · exfalso
          rw [hsplit] at hqm
          have := hB _ hqm
          omega
        · obtain ⟨dir, hdir, hwe⟩ := adjStep_exists_dir hu_adj
          have := hclosure dir hdir (by rw [← hwe]; exact hcval)
          rw [← hwe] at this
          exact this
    refine ⟨ℓ + 1, qrest, [], by simp, hcur, ?_, by simp, hcomp2, ?_⟩
    · intro a ha
      exact hB a (by rw [hBq]; exact List.mem_cons_of_mem _ ha)
    · intro c hc
      have := hvlev c hc
      omega

theorem bfsLoop_reach {dims : GridDimensions} {start goal : Coordinate}
    (hvs : isValid start dims = true) (hvg : isValid goal dims = true) :
    ∀ (fuel : Nat) (st : BfsState), BfsInv dims start goal st → BfsLev dims start goal st →
    st.queue.length + bfsUnvisited dims st < fuel →
    ∃ t0 vis fr p, bfsLoop dims (coordToString goal) fuel st = some (t0 ++
        [{ visited := vis, frontier := fr, current := some goal },
         { visited := vis, frontier := fr, path := some p }]) ∧
      p.length = manh start goal + 1 ∧ vis.Nodup ∧
      ∀ c : Coordinate, manh start c + manh c goal = manh start goal →
        coordToString c ∈ vis := by
  intro fuel
  induction fuel with
  | zero =>
    intro st _ _ hf
    omega
  | succ fuel ih =>
    intro st hinv hL hf
    rw [bfsLoop]
    cases hq : st.queue with
    | nil =>
      exfalso
      have hgv : coordToString goal ∉ st.visited := by
        intro h
        have := hL.gq h
        rw [hq] at this
        exact absurd this (List.not_mem_nil _)
      obtain ⟨u, w, hu, hw, huV, hwV, hadj, _⟩ :=
        exists_boundary hvs hL.startv goal hvg hgv
      rcases hL.closed u huV with hqm | hclo
      · rw [hq] at hqm
        exact absurd hqm (List.not_mem_nil _)
      · obtain ⟨dir, hdir, hwe⟩ := adjStep_exists_dir hadj
        have := hclo dir hdir (by rw [← hwe]; exact hw)
        rw [← hwe] at this
        exact hwV this
    | cons current qrest =>
      dsimp only
      have hcv : coordToString current ∈ st.visited :=
        hL.qsub current (by rw [hq]; exact List.mem_cons_self _ _)
      by_cases hg : coordToString current = coordToString goal
      · -- the goal is dequeued
        have hcg : current = goal := coordToString_injective hg
        subst hcg
        rw [if_pos rfl]
        obtain ⟨l, hl, hlv, hln, hll⟩ := hL.chainsT current hcv
        have hlb : l.length ≤ dims.rows.toNat * dims.cols.toNat + 1 := by
          have h1 : l.length ≤ st.visited.length := nodup_subset_length_le hln hlv
          have h2 : st.visited.length ≤ dims.rows.toNat * dims.cols.toNat + 1 :=
            keyList_length_le hinv.vis_nodup hinv.vis_keys
          omega
        have hrp := reconstruct_of_chain hl (fuelFor dims) (by
          unfold fuelFor
          omega)
        rw [hrp]
        obtain ⟨ℓ, A2, B2, hqr, hlc, hA, hB, hcomp, hvlev⟩ := bfsLev_norm hvs hL hq
        refine ⟨st.steps, st.visited, setDelete st.frontier (coordToString current),
          l.map stringToCoord, by simp, ?_, hinv.vis_nodup, ?_⟩
        · rw [List.length_map, hll]
        · intro c hc
          have hcval : isValid c dims = true := rect_valid hvs hvg hc
          apply hcomp c hcval
          omega
      · -- continue
        rw [if_neg hg]
        obtain ⟨ℓ, A2, B2, hqr, hlc, hA, hB, hcomp, hvlev⟩ := bfsLev_norm hvs hL hq
        obtain ⟨c0, hc0v, hc0k⟩ := hL.vkeysV _ hcv
        have hcurval : isValid current dims = true := by
          rw [show current = c0 from coordToString_injective hc0k]
          exact hc0v
        have hinv1 := bfsInv_mid hinv hq
        have hmid : BfsLevMid dims start current
            { st with
              steps := st.steps ++
                [{ visited := st.visited,
                   frontier := setDelete st.frontier (coordToString current),
                   current := some current }],
              queue := qrest,
              frontier := setDelete st.frontier (coordToString current) } := by
          refine ⟨hcv, ?_, hL.vkeysV, ?_, hL.chainsT, ?_, ?_⟩
          · intro c hcval hcle
            rw [hlc] at hcle
            exact hcomp c hcval hcle
          · intro c hc
            rw [hlc]
            exact hvlev c hc
          · intro c hc
            exact hL.qsub c (by rw [hq]; exact List.mem_cons_of_mem _ hc)
          · have := hL.qnd
            rw [hq] at this
            simp only [List.map_cons] at this
            exact this.of_cons
        obtain ⟨hm2, hg2, ⟨N, hqN, hN, hprov⟩, hpost, hsteps2⟩ :=
          bfsRelax_fold_lev DIRECTIONS (fun x hx => hx) _ hmid
        obtain ⟨hinvF, hcvF, _⟩ := bfsNeighbors_inv dims start goal current _ hinv1 hcv
        have hLF : BfsLev dims start goal
            (bfsNeighbors dims current (coordToString current)
              { st with
                steps := st.steps ++
                  [{ visited := st.visited,
                     frontier := setDelete st.frontier (coordToString current),
                     current := some current }],
                queue := qrest,
                frontier := setDelete st.frontier (coordToString current) }) := by
          unfold bfsNeighbors
          refine ⟨hg2 _ hL.startv, hm2.hvk, hm2.hqs, hm2.hqn, ?_, hm2.hch, ?_, ?_⟩
          · -- closed
            intro c hc
            rcases hprov c hc with hcold | hcnew
            · rcases hL.closed c hcold with hcq | hclo
              · rw [hq] at hcq
                rcases List.mem_cons.mp hcq with rfl | hcq
                · right
                  intro dir hdir hval
                  exact hpost dir hdir hval
                · left
                  rw [hqN]
                  exact List.mem_append.mpr (Or.inl hcq)
              · right
                intro dir hdir hval
                exact hg2 _ (hclo dir hdir hval)
            · left
              rw [hqN]
              exact List.mem_append.mpr (Or.inr hcnew)
          · -- gq
            intro hgoal
            rcases hprov goal hgoal with hcold | hcnew
            · have := hL.gq hcold
              rw [hq] at this
              rcases List.mem_cons.mp this with heq | hmem
              · exact absurd (congrArg coordToString heq.symm) hg
              · rw [hqN]
                exact List.mem_append.mpr (Or.inl hmem)
            · rw [hqN]
              exact List.mem_append.mpr (Or.inr hcnew)
          · -- lev
            refine ⟨ℓ, A2, B2 ++ N, by rw [hqN, hqr, List.append_assoc], hA, ?_, ?_, ?_⟩
            · intro b hb
              rcases List.mem_append.mp hb with hb | hb
              · exact hB b hb
              · have := (hN b hb).1
                omega
            · intro c hcval hcle
              exact hg2 _ (hcomp c hcval hcle)
            · intro c hc
              have := hm2.hvlev c hc
              omega
        have hmeas := bfsNeighbors_measure dims current
          { st with
            steps := st.steps ++
              [{ visited := st.visited,
                 frontier := setDelete st.frontier (coordToString current),
                 current := some current }],
            queue := qrest,
            frontier := setDelete st.frontier (coordToString current) }
        have hq1 : st.queue.length = qrest.length + 1 := by
          rw [hq]
          simp
        exact ih _ hinvF hLF (by
          dsimp only at hmeas
          have hUeq : bfsUnvisited dims
              { st with
                steps := st.steps ++
                  [{ visited := st.visited,
                     frontier := setDelete st.frontier (coordToString current),
                     current := some current }],
                queue := qrest,
                frontier := setDelete st.frontier (coordToString current) } =
              bfsUnvisited dims st := rfl
          rw [hUeq] at hmeas
          omega)

theorem runBFS_reach {dims : GridDimensions} {start goal : Coordinate}
    (hvs : isValid start dims = true) (hvg : isValid goal dims = true) :
    ∃ t0 vis fr p, runBFS dims start goal = some (t0 ++
        [{ visited := vis, frontier := fr, current := some goal },
         { visited := vis, frontier := fr, path := some p }]) ∧
      p.length = manh start goal + 1 ∧ vis.Nodup ∧
      ∀ c : Coordinate, manh start c + manh c goal = manh start goal →
        coordToString c ∈ vis := by
  have h := bfsLoop_reach hvs hvg (fuelFor dims)
    { steps := [], queue := [start], visited := setAdd [] (coordToString start),
      parentMap := fun _ => none, frontier := setAdd [] (coordToString start) }
    (bfsInv_init dims start goal) (bfsLev_init goal hvs) ?_
  · obtain ⟨t0, vis, fr, p, ht, hp, hnd, hrect⟩ := h
    refine ⟨t0, vis, fr, p, ?_, hp, hnd, hrect⟩
    simp only [runBFS]
    exact ht
  · have hU : bfsUnvisited dims
        { steps := [], queue := [start], visited := setAdd [] (coordToString start),
          parentMap := fun _ => none, frontier := setAdd [] (coordToString start) } ≤
        dims.rows.toNat * dims.cols.toNat := by
      unfold bfsUnvisited
      calc (((validCells dims).image coordToString).filter _).card
          ≤ ((validCells dims).image coordToString).card := Finset.card_filter_le _ _
        _ ≤ (validCells dims).card := Finset.card_image_le
        _ = dims.rows.toNat * dims.cols.toNat := validCells_card dims
    unfold fuelFor
    simp only [List.length_singleton]
    omega

theorem bfsRelax_fold_steps {dims : GridDimensions} {current : Coordinate} {currStr : String} :
    ∀ (dirs : List Coordinate) (st : BfsState),
    (List.foldl (bfsRelax dims current currStr) st dirs).steps = st.steps := by
  intro dirs
  induction dirs with
  | nil => intro st; rfl
  | cons d rest ih =>
    intro st
    rw [List.foldl_cons, ih]
    unfold bfsRelax
    dsimp only
    split <;> rfl

theorem bfsLoop_len {dims : GridDimensions} {goalStr : String} :
    ∀ (fuel : Nat) (st : BfsState) (t : List AlgoStep),
    bfsLoop dims goalStr fuel st = some t →
    st.steps.length ≤ t.length ∧ (st.queue ≠ [] → st.steps.length + 1 ≤ t.length) := by
  intro fuel
  induction fuel with
  | zero =>
    intro st t hrun
    exact absurd hrun (by rw [bfsLoop]; simp)
  | succ fuel ih =>
    intro st t hrun
    rw [bfsLoop] at hrun
    cases hq : st.queue with
    | nil =>
      rw [hq] at hrun
      dsimp only at hrun
      cases hrun
      exact ⟨le_refl _, fun hne => absurd rfl hne⟩
    | cons current qrest =>
      rw [hq] at hrun
      dsimp only at hrun
      by_cases hg : coordToString current = goalStr
      · rw [if_pos hg] at hrun
        cases hrp : reconstructPath (fuelFor dims) st.parentMap goalStr with
        | none =>
          rw [hrp] at hrun
          exact absurd hrun (by simp)
        | some path =>
          rw [hrp] at hrun
          simp only [Option.some.injEq] at hrun
          subst hrun
          constructor
          · simp
          · intro _
            simp
      · rw [if_neg hg] at hrun
        have h := ih _ _ hrun
        have hsteps : (bfsNeighbors dims current (coordToString current)
            { st with
              steps := st.steps ++
                [{ visited := st.visited,
                   frontier := setDelete st.frontier (coordToString current),
                   current := some current }],
              queue := qrest,
              frontier := setDelete st.frontier (coordToString current) }).steps =
            st.steps ++
              [{ visited := st.visited,
                 frontier := setDelete st.frontier (coordToString current),
                 current := some current }] := by
          unfold bfsNeighbors
          rw [bfsRelax_fold_steps]
        rw [hsteps] at h
        simp only [List.length_append, List.length_singleton] at h
        exact ⟨by omega, fun _ => by omega⟩

theorem runBFS_len {dims : GridDimensions} {start goal : Coordinate} {t : List AlgoStep}
    (hrun : runBFS dims start goal = some t) : 1 ≤ t.length := by
  simp only [runBFS] at hrun
  have h := (bfsLoop_len _ _ _ hrun).2 (by simp)
  simpa using h

/-- Any duplicate-free list of keys of cells on a start-goal geodesic
is no longer than a duplicate-free list containing all of them. -/
theorem geodesic_sub_length {start goal : Coordinate} {va vb : List String}
    (hna : va.Nodup)
    (ha : ∀ k ∈ va, ∃ c : Coordinate, k = coordToString c ∧
      manh start c + manh c goal = manh start goal)
    (hb : ∀ c : Coordinate, manh start c + manh c goal = manh start goal →
      coordToString c ∈ vb) :
    va.length ≤ vb.length := by
  apply nodup_subset_length_le hna
  intro k hk
  obtain ⟨c, rfl, hc⟩ := ha k hk
  exact hb c hc

/-! ## Claim theorems -/

/-- C1 (amended): the four entry points perform no input validation at
all.  Calls with non-positive dimensions or out-of-bounds start/goal
are not rejected with a caller-visible failure before traversal:
instead every call, valid or not, runs the traversal and returns a
trace containing at least one snapshot. -/
theorem claim_C1 (dims : GridDimensions) (start goal : Coordinate) :
    (∃ t, runBFS dims start goal = some t ∧ 1 ≤ t.length) ∧
    (∃ t, runDFSRecursive dims start goal = some t ∧ 1 ≤ t.length) ∧
    (∃ t, runDijkstra dims start goal = some t ∧ 1 ≤ t.length) ∧
    (∃ t, runAStar dims start goal = some t ∧ 1 ≤ t.length) := by
  refine ⟨?_, ?_, ?_, ?_⟩
  · obtain ⟨t, ht⟩ := Option.isSome_iff_exists.mp (runBFS_isSome dims start goal)
    exact ⟨t, ht, runBFS_len ht⟩
  · obtain ⟨t, ht⟩ := Option.isSome_iff_exists.mp (runDFSRecursive_isSome dims start goal)
    exact ⟨t, ht, (runDFSRecursive_out dims start goal t ht).2⟩
  · obtain ⟨t, ht, hl, _⟩ := runDijkstra_main dims start goal
    exact ⟨t, ht, hl⟩
  · obtain ⟨t, ht, hl, _⟩ := runAStar_main dims start goal
    exact ⟨t, ht, hl⟩

/-- C2 (amended): in every snapshot of `runDijkstra` and `runAStar`
the frontier and visited sets are disjoint; in `runBFS` and
`runDFSRecursive` they overlap by design — there the frontier is
always a subset of the visited set. -/
theorem claim_C2 (dims : GridDimensions) (start goal : Coordinate) :
    (∀ t, runDijkstra dims start goal = some t →
      ∀ s ∈ t, ∀ k ∈ s.frontier, k ∉ s.visited) ∧
    (∀ t, runAStar dims start goal = some t →
      ∀ s ∈ t, ∀ k ∈ s.frontier, k ∉ s.visited) ∧
    (∀ t, runBFS dims start goal = some t →
      ∀ s ∈ t, ∀ k ∈ s.frontier, k ∈ s.visited) ∧
    (∀ t, runDFSRecursive dims start goal = some t →
      ∀ s ∈ t, ∀ k ∈ s.frontier, k ∈ s.visited) := by
  refine ⟨?_, ?_, ?_, ?_⟩
  · intro t ht s hs k hk
    obtain ⟨t2, ht2, _, hall⟩ := runDijkstra_main dims start goal
    rw [ht2] at ht
    cases ht
    exact (hall s hs).1 k hk
  · intro t ht s hs k hk
    obtain ⟨t2, ht2, _, hall⟩ := runAStar_main dims start goal
    rw [ht2] at ht
    cases ht
    exact (hall s hs).1 k hk
  · intro t ht s hs k hk
    exact (runBFS_out ht s hs).1 k hk
  · intro t ht s hs k hk
    exact ((runDFSRecursive_out dims start goal t ht).1 s hs).1 k hk

/-- C4: on the obstacle-free grid with valid start and goal, both
`runAStar` and `runBFS` end their traces with a goal-dequeue snapshot
followed by a path snapshot; the visited set of A*'s goal-dequeue
snapshot is no larger than BFS's, and the two returned paths have the
same length. -/
theorem claim_C4 (dims : GridDimensions) (start goal : Coordinate)
    (hvs : isValid start dims = true) (hvg : isValid goal dims = true) :
    ∃ ta0 visa fra dmapa pa tb0 visb frb pb,
      runAStar dims start goal = some (ta0 ++
        [{ visited := visa, frontier := fra, current := some goal, costMap := some dmapa },
         { visited := visa, frontier := fra, path := some pa, costMap := some dmapa }]) ∧
      runBFS dims start goal = some (tb0 ++
        [{ visited := visb, frontier := frb, current := some goal },
         { visited := visb, frontier := frb, path := some pb }]) ∧
      visa.length ≤ visb.length ∧ pa.length = pb.length := by
  obtain ⟨ta0, visa, fra, dmapa, pa, hta, hpa, hnda, hrect⟩ := runAStar_reach hvs hvg
  obtain ⟨tb0, visb, frb, pb, htb, hpb, hndb, hcomp⟩ := runBFS_reach hvs hvg
  exact ⟨ta0, visa, fra, dmapa, pa, tb0, visb, frb, pb, hta, htb,
    geodesic_sub_length hnda hrect hcomp, by omega⟩

/-- C5: on the obstacle-free grid with valid start and goal, `runBFS`
and `runDijkstra` both return a path (as the final snapshot of the
trace), the two paths have identical length, and that length in node
count is the Manhattan distance between start and goal plus one. -/
theorem claim_C5 (dims : GridDimensions) (start goal : Coordinate)
    (hvs : isValid start dims = true) (hvg : isValid goal dims = true) :
    ∃ tb0 visb frb pb td0 visd frd dmapd pd,
      runBFS dims start goal = some (tb0 ++
        [{ visited := visb, frontier := frb, current := some goal },
         { visited := visb, frontier := frb, path := some pb }]) ∧
      runDijkstra dims start goal = some (td0 ++
        [{ visited := visd, frontier := frd, current := some goal, costMap := some dmapd },
         { visited := visd, frontier := frd, path := some pd, costMap := some dmapd }]) ∧
      pb.length = pd.length ∧ pb.length = manh start goal + 1 := by
  obtain ⟨tb0, visb, frb, pb, htb, hpb, _, _⟩ := runBFS_reach hvs hvg
  obtain ⟨td0, visd, frd, dmapd, pd, htd, hpd, _⟩ := runDijkstra_reach hvs hvg
  exact ⟨tb0, visb, frb, pb, td0, visd, frd, dmapd, pd, htb, htd, by omega, hpb⟩

/-- C7: for all four algorithms and every input, whenever a snapshot
in the returned trace carries a path, that path starts at `start`,
ends at `goal`, and each consecutive pair of coordinates differs by
exactly one orthogonal step. -/
theorem claim_C7 (dims : GridDimensions) (start goal : Coordinate) :
    (∀ t, runBFS dims start goal = some t → ∀ s ∈ t, ∀ p, s.path = some p →
      p.head? = some start ∧ p.getLast? = some goal ∧ List.Chain' adjStep p) ∧
    (∀ t, runDFSRecursive dims start goal = some t → ∀ s ∈ t, ∀ p, s.path = some p →
      p.head? = some start ∧ p.getLast? = some goal ∧ List.Chain' adjStep p) ∧
    (∀ t, runDijkstra dims start goal = some t → ∀ s ∈ t, ∀ p, s.path = some p →
      p.head? = some start ∧ p.getLast? = some goal ∧ List.Chain' adjStep p) ∧
    (∀ t, runAStar dims start goal = some t → ∀ s ∈ t, ∀ p, s.path = some p →
      p.head? = some start ∧ p.getLast? = some goal ∧ List.Chain' adjStep p) := by
  refine ⟨?_, ?_, ?_, ?_⟩
  · intro t ht s hs p hp
    exact (runBFS_out ht s hs).2 p hp
  · intro t ht s hs p hp
    exact ((runDFSRecursive_out dims start goal t ht).1 s hs).2 p hp
  · intro t ht s hs p hp
    obtain ⟨t2, ht2, _, hall⟩ := runDijkstra_main dims start goal
    rw [ht2] at ht
    cases ht
    exact (hall s hs).2 p hp
  · intro t ht s hs p hp
    obtain ⟨t2, ht2, _, hall⟩ := runAStar_main dims start goal
    rw [ht2] at ht
    cases ht
    exact (hall s hs).2 p hp

/-- C9: for positive dimensions and in-bounds start and goal, each of
the four entry points terminates, returning its whole trace (the fuel
provided in the embedding is never exhausted). -/
theorem claim_C9 (dims : GridDimensions) (start goal : Coordinate)
    (h1 : 0 < dims.rows) (h2 : 0 < dims.cols)
    (h3 : isValid start dims = true) (h4 : isValid goal dims = true) :
    (runBFS dims start goal).isSome = true ∧
    (runDFSRecursive dims start goal).isSome = true ∧
    (runDijkstra dims start goal).isSome = true ∧
    (runAStar dims start goal).isSome = true := by
  refine ⟨runBFS_isSome dims start goal, runDFSRecursive_isSome dims start goal, ?_, ?_⟩
  · obtain ⟨t, ht, _, _⟩ := runDijkstra_main dims start goal
    rw [ht]
    rfl
  · obtain ⟨t, ht, _, _⟩ := runAStar_main dims start goal
    rw [ht]
    rfl

/-- C10 (implicit): in `runBFS` and `runDFSRecursive`, every snapshot
of the returned trace satisfies frontier ⊆ visited: BFS marks cells
visited at discovery time, and DFS's frontier is its recursion stack
of already-visited cells. -/
theorem claim_C10 (dims : GridDimensions) (start goal : Coordinate) :
    (∀ t, runBFS dims start goal = some t →
      ∀ s ∈ t, ∀ k ∈ s.frontier, k ∈ s.visited) ∧
    (∀ t, runDFSRecursive dims start goal = some t →
      ∀ s ∈ t, ∀ k ∈ s.frontier, k ∈ s.visited) := by
  constructor
  · intro t ht s hs k hk
    exact (runBFS_out ht s hs).1 k hk
  · intro t ht s hs k hk
    exact ((runDFSRecursive_out dims start goal t ht).1 s hs).1 k hk

/-! ## Witnesses -/

theorem claim_C2_witness :
    coordToString ⟨0, 1⟩ ∉
      (((runDijkstra ⟨2, 2⟩ ⟨0, 0⟩ ⟨1, 1⟩).getD []).getD 1 default).visited := by
  obtain ⟨t, ht⟩ := Option.isSome_iff_exists.mp
    (by decide : (runDijkstra ⟨2, 2⟩ ⟨0, 0⟩ ⟨1, 1⟩).isSome = true)
  have hgd : (runDijkstra ⟨2, 2⟩ ⟨0, 0⟩ ⟨1, 1⟩).getD [] = t := by rw [ht]; rfl
  cases hg1 : t.get? 1 with
  | none =>
    have hlen : 1 < t.length := by rw [← hgd]; decide
    rw [List.get?_eq_none] at hg1
    omega
  | some s =>
    have hmem : s ∈ t := List.get?_mem hg1
    have hsd : t.getD 1 default = s := by
      unfold List.getD
      rw [hg1]
      rfl
    have hfr : coordToString ⟨0, 1⟩ ∈ s.frontier := by
      rw [← hsd, ← hgd]
      decide
    have hdis := (claim_C2 ⟨2, 2⟩ ⟨0, 0⟩ ⟨1, 1⟩).1 t ht s hmem _ hfr
    rw [hgd, hsd]
    exact hdis

theorem claim_C4_witness :
    isValid ⟨0, 0⟩ ⟨2, 3⟩ = true ∧ isValid ⟨1, 2⟩ ⟨2, 3⟩ = true ∧
    ∃ ta0 visa fra dmapa pa tb0 visb frb pb,
      runAStar ⟨2, 3⟩ ⟨0, 0⟩ ⟨1, 2⟩ = some (ta0 ++
        [{ visited := visa, frontier := fra, current := some ⟨1, 2⟩, costMap := some dmapa },
         { visited := visa, frontier := fra, path := some pa, costMap := some dmapa }]) ∧
      runBFS ⟨2, 3⟩ ⟨0, 0⟩ ⟨1, 2⟩ = some (tb0 ++
        [{ visited := visb, frontier := frb, current := some ⟨1, 2⟩ },
         { visited := visb, frontier := frb, path := some pb }]) ∧
      visa.length ≤ visb.length ∧ pa.length = pb.length :=
  ⟨by decide, by decide, claim_C4 ⟨2, 3⟩ ⟨0, 0⟩ ⟨1, 2⟩ (by decide) (by decide)⟩

theorem claim_C5_witness :
    isValid ⟨0, 0⟩ ⟨2, 3⟩ = true ∧ isValid ⟨1, 2⟩ ⟨2, 3⟩ = true ∧
    ∃ tb0 visb frb pb td0 visd frd dmapd pd,
      runBFS ⟨2, 3⟩ ⟨0, 0⟩ ⟨1, 2⟩ = some (tb0 ++
        [{ visited := visb, frontier := frb, current := some ⟨1, 2⟩ },
         { visited := visb, frontier := frb, path := some pb }]) ∧
      runDijkstra ⟨2, 3⟩ ⟨0, 0⟩ ⟨1, 2⟩ = some (td0 ++
        [{ visited := visd, frontier := frd, current := some ⟨1, 2⟩, costMap := some dmapd },
         { visited := visd, frontier := frd, path := some pd, costMap := some dmapd }]) ∧
      pb.length = pd.length ∧ pb.length = manh ⟨0, 0⟩ ⟨1, 2⟩ + 1 :=
  ⟨by decide, by decide, claim_C5 ⟨2, 3⟩ ⟨0, 0⟩ ⟨1, 2⟩ (by decide) (by decide)⟩

theorem claim_C6_witness :
    List.Sorted (· ≤ ·)
      ((PriorityQueue.drain 3
        (PriorityQueue.enqueueAll [((5 : Nat), (2 : Int)), (7, 1)])).map PQItem.priority) ∧
    (PriorityQueue.drain 3
        (PriorityQueue.enqueueAll [((5 : Nat), (2 : Int)), (7, 1)])).map PQItem.item =
      PriorityQueue.dequeueItems 3 (PriorityQueue.enqueueAll [((5 : Nat), (2 : Int)), (7, 1)]) ∧
    ((⟨[]⟩ : PriorityQueue Nat).isEmpty = true ↔ (⟨[]⟩ : PriorityQueue Nat).heap = []) ∧
    ((⟨[]⟩ : PriorityQueue Nat).heap = [] →
      (⟨[]⟩ : PriorityQueue Nat).dequeue = (none, ⟨[]⟩)) :=
  claim_C6 [((5 : Nat), (2 : Int)), (7, 1)] 3 ⟨[]⟩

theorem claim_C7_witness :
    ([(⟨0, 0⟩ : Coordinate)].head? = some ⟨0, 0⟩) ∧
    ([(⟨0, 0⟩ : Coordinate)].getLast? = some ⟨0, 0⟩) ∧
    List.Chain' adjStep [(⟨0, 0⟩ : Coordinate)] := by
  obtain ⟨t, ht⟩ := Option.isSome_iff_exists.mp
    (by decide : (runBFS ⟨1, 1⟩ ⟨0, 0⟩ ⟨0, 0⟩).isSome = true)
  have hgd : (runBFS ⟨1, 1⟩ ⟨0, 0⟩ ⟨0, 0⟩).getD [] = t := by rw [ht]; rfl
  cases hg1 : t.get? 1 with
  | none =>
    have hlen : 1 < t.length := by rw [← hgd]; decide
    rw [List.get?_eq_none] at hg1
    omega
  | some s =>
    have hmem : s ∈ t := List.get?_mem hg1
    have hsd : t.getD 1 default = s := by
      unfold List.getD
      rw [hg1]
      rfl
    have hpath : s.path = some [⟨0, 0⟩] := by
      rw [← hsd, ← hgd]
      decide
    exact (claim_C7 ⟨1, 1⟩ ⟨0, 0⟩ ⟨0, 0⟩).1 t ht s hmem [⟨0, 0⟩] hpath

theorem claim_C9_witness :
    0 < (⟨1, 1⟩ : GridDimensions).rows ∧ 0 < (⟨1, 1⟩ : GridDimensions).cols ∧
    isValid ⟨0, 0⟩ ⟨1, 1⟩ = true ∧ isValid ⟨0, 0⟩ ⟨1, 1⟩ = true ∧
    ((runBFS ⟨1, 1⟩ ⟨0, 0⟩ ⟨0, 0⟩).isSome = true ∧
     (runDFSRecursive ⟨1, 1⟩ ⟨0, 0⟩ ⟨0, 0⟩).isSome = true ∧
     (runDijkstra ⟨1, 1⟩ ⟨0, 0⟩ ⟨0, 0⟩).isSome = true ∧
     (runAStar ⟨1, 1⟩ ⟨0, 0⟩ ⟨0, 0⟩).isSome = true) :=
  ⟨by decide, by decide, by decide, by decide,
    claim_C9 ⟨1, 1⟩ ⟨0, 0⟩ ⟨0, 0⟩ (by decide) (by decide) (by decide) (by decide)⟩

theorem claim_C10_witness :
    coordToString ⟨0, 0⟩ ∈
      (((runDFSRecursive ⟨1, 1⟩ ⟨0, 0⟩ ⟨0, 0⟩).getD []).getD 0 default).visited := by
  obtain ⟨t, ht⟩ := Option.isSome_iff_exists.mp
    (by decide : (runDFSRecursive ⟨1, 1⟩ ⟨0, 0⟩ ⟨0, 0⟩).isSome = true)
  have hgd : (runDFSRecursive ⟨1, 1⟩ ⟨0, 0⟩ ⟨0, 0⟩).getD [] = t := by rw [ht]; rfl
  cases hg1 : t.get? 0 with
  | none =>
    have hlen : 0 < t.length := by rw [← hgd]; decide
    rw [List.get?_eq_none] at hg1
    omega
  | some s =>
    have hmem : s ∈ t := List.get?_mem hg1
    have hsd : t.getD 0 default = s := by
      unfold List.getD
      rw [hg1]
      rfl
    have hfr : coordToString ⟨0, 0⟩ ∈ s.frontier := by
      rw [← hsd, ← hgd]
      decide
    have hin := (claim_C10 ⟨1, 1⟩ ⟨0, 0⟩ ⟨0, 0⟩).2 t ht s hmem _ hfr
    rw [hgd, hsd]
    exact hin

end Pathfinding
